import Mathlib

/-!
Editorials: KMP string search and maximum independent set on trees.

A shallow embedding of the two programs of the repository,

* `editorials/KMP(Knuth-Morris-Pratt)/docs/code/kmp.cpp`
* `editorials/max-independent-set-on-trees/solution.cpp`

followed by the theorems proved about them.

Modelling conventions.

* Every array access of the source is bounds-checked: an access outside the
  array yields `Fault.outOfRange` (the C++ program has undefined behaviour
  there).  A string is read only at indices below its length; `std::string`
  would also allow a read at the index `size()`, which is treated as out of
  range here.
* A `while` loop or a recursion is run with a fuel counter; running out of fuel
  yields `Fault.outOfFuel`.  Theorems that say a result is produced state how
  much fuel is enough.
* The `int` and `long long` variables of the source only ever hold values that
  are non-negative and bounded by the input sizes, so they are natural numbers
  here and no wrap-around is modelled; the index expressions `k - 1` and the
  difference `textIndex - patternIndex` are computed in `Int`, as written in
  the source, so that the index `-1` is seen by the bounds check.
* The strings are lists over any type with decidable equality; the node
  numbers of the tree program are natural numbers.
-/

/-- The two ways a run can fail to produce a result. -/
inductive Fault where
  | outOfRange
  | outOfFuel
  deriving DecidableEq, Repr

deriving instance DecidableEq for Except

/-- Bounds-checked read `xs[i]` at a signed index. -/
def readAt {β : Type} (xs : List β) (i : Int) : Except Fault β :=
  if i < 0 then .error .outOfRange
  else
    match xs[i.toNat]? with
    | some x => .ok x
    | none => .error .outOfRange

/-- Bounds-checked write `xs[i] = v` at a signed index. -/
def writeAt {β : Type} (xs : List β) (i : Int) (v : β) : Except Fault (List β) :=
  if i < 0 then .error .outOfRange
  else if i.toNat < xs.length then .ok (xs.set i.toNat v)
  else .error .outOfRange

namespace KMP

variable {α : Type} [DecidableEq α]

/-! ## KMP: the program -/

/-- The variables of STEP 1 of `main` (kmp.cpp, lines 24-32). -/
structure LpsState where
  lps : List Nat
  length : Nat
  i : Nat
  deriving DecidableEq, Repr

/-- One iteration of the body of `while (i < m)` (kmp.cpp, lines 36-56). -/
def lpsStep (pattern : List α) (s : LpsState) : Except Fault LpsState := do
  let a ← readAt pattern s.i
  let b ← readAt pattern s.length
  if a = b then
    -- extend previous prefix
    let length := s.length + 1
    let lps ← writeAt s.lps s.i length
    pure { lps := lps, length := length, i := s.i + 1 }
  else if s.length ≠ 0 then
    -- try shorter prefix
    let length ← readAt s.lps ((s.length : Int) - 1)
    pure { lps := s.lps, length := length, i := s.i }
  else
    -- no prefix match
    let lps ← writeAt s.lps s.i 0
    pure { lps := lps, length := s.length, i := s.i + 1 }

/-- The loop `while (i < m)` of STEP 1 (kmp.cpp, lines 34-57). -/
def lpsLoop (pattern : List α) : Nat → LpsState → Except Fault LpsState
  | fuel, s =>
    if s.i < pattern.length then
      match fuel with
      | 0 => .error .outOfFuel
      | fuel + 1 =>
        match lpsStep pattern s with
        | .ok s1 => lpsLoop pattern fuel s1
        | .error e => .error e
    else .ok s

/-- STEP 1 of `main`: allocate `lps(m)`, set `lps[0] = 0`, run the loop
(kmp.cpp, lines 24-57).  The result is the state on exit from the loop. -/
def buildLps (pattern : List α) (fuel : Nat) : Except Fault LpsState := do
  let lps ← writeAt (List.replicate pattern.length 0) 0 0
  lpsLoop pattern fuel { lps := lps, length := 0, i := 1 }

/-- The variables of STEP 2 of `main` (kmp.cpp, lines 70-73). -/
structure SearchState where
  textIndex : Nat
  patternIndex : Nat
  result : List Int
  deriving DecidableEq, Repr

/-- The second `if` statement of the search loop body, with its `else if`
branch (kmp.cpp, lines 84-106), run on the state left by the first `if`. -/
def searchTail (text pattern : List α) (lps : List Nat) (s : SearchState) :
    Except Fault SearchState :=
  if s.patternIndex = pattern.length then do
    -- full pattern matched
    let result := s.result ++ [(s.textIndex : Int) - (s.patternIndex : Int)]
    let patternIndex ← readAt lps ((s.patternIndex : Int) - 1)
    pure { textIndex := s.textIndex, patternIndex := patternIndex, result := result }
  else if s.textIndex < text.length then do
    let c ← readAt text s.textIndex
    let d ← readAt pattern s.patternIndex
    if c ≠ d then
      -- mismatch case
      if s.patternIndex ≠ 0 then do
        let patternIndex ← readAt lps ((s.patternIndex : Int) - 1)
        pure { textIndex := s.textIndex, patternIndex := patternIndex, result := s.result }
      else
        pure { textIndex := s.textIndex + 1, patternIndex := s.patternIndex,
               result := s.result }
    else pure s
  else pure s

/-- One iteration of the body of `while (textIndex < n)` (kmp.cpp, lines 77-106):
the first `if` advances both indices on equal characters, then `searchTail`. -/
def searchStep (text pattern : List α) (lps : List Nat) (s : SearchState) :
    Except Fault SearchState := do
  let c ← readAt text s.textIndex
  let d ← readAt pattern s.patternIndex
  if c = d then
    -- characters match
    searchTail text pattern lps
      { textIndex := s.textIndex + 1, patternIndex := s.patternIndex + 1,
        result := s.result }
  else searchTail text pattern lps s

/-- The loop `while (textIndex < n)` of STEP 2 (kmp.cpp, lines 75-107). -/
def searchLoop (text pattern : List α) (lps : List Nat) :
    Nat → SearchState → Except Fault SearchState
  | fuel, s =>
    if s.textIndex < text.length then
      match fuel with
      | 0 => .error .outOfFuel
      | fuel + 1 =>
        match searchStep text pattern lps s with
        | .ok s1 => searchLoop text pattern lps fuel s1
        | .error e => .error e
    else .ok s

/-- STEP 2 of `main` on a given table: the state on exit from the search loop. -/
def search (text pattern : List α) (lps : List Nat) (fuel : Nat) :
    Except Fault SearchState :=
  searchLoop text pattern lps fuel { textIndex := 0, patternIndex := 0, result := [] }

/-- The program `main` of kmp.cpp on the two strings read from the input: the
LPS array and the list of match positions that it prints.  Each of the two
loops gets `fuel` iterations. -/
def main (text pattern : List α) (fuel : Nat) : Except Fault (List Nat × List Int) := do
  let t ← buildLps pattern fuel
  let s ← search text pattern t.lps fuel
  pure (t.lps, s.result)

/-! ## KMP: specification side -/

/-- The first `k` characters of `P` equal the `k` characters that end just
before index `i`: the prefix of length `k` is a suffix of `P[0..i)`. -/
def Bord {α : Type} (P : List α) (i k : Nat) : Prop :=
  k ≤ i ∧ ∀ j, j < k → P[j]? = P[i - k + j]?

/-- The number `v` is the length of the longest proper border of `P[0..j]`. -/
def IsLps {α : Type} (P : List α) (j v : Nat) : Prop :=
  v ≤ j ∧ Bord P (j + 1) v ∧ ∀ k, k ≤ j → Bord P (j + 1) k → k ≤ v

/-- The loop invariant of STEP 1, at the test `i < m`. -/
structure LpsInv {α : Type} (P : List α) (s : LpsState) : Prop where
  len : s.lps.length = P.length
  ipos : 1 ≤ s.i
  ile : s.i ≤ P.length
  llt : s.length < s.i
  tab : ∀ j, j < s.i → ∃ v, s.lps[j]? = some v ∧ IsLps P j v
  bord : Bord P s.i s.length
  cand : ∀ k, k ≤ s.i → Bord P (s.i + 1) k → k ≤ s.length + 1

/-- The number of iterations STEP 1 can still make is at most this. -/
def lpsMeasure {α : Type} (P : List α) (s : LpsState) : Nat :=
  2 * (P.length - s.i) + s.length

/-- The table `lps` holds, at every index of the pattern, the length of the
longest proper border of the prefix that ends there. -/
def LpsTable {α : Type} (P : List α) (lps : List Nat) : Prop :=
  lps.length = P.length ∧ ∀ j, j < P.length → ∃ v, lps[j]? = some v ∧ IsLps P j v

/-- The pattern occurs in the text at position `k`: `T[k..k+m) == P`. -/
def occursAt {α : Type} [DecidableEq α] (T P : List α) (k : Nat) : Bool :=
  decide ((T.drop k).take P.length = P)

/-- The brute-force scan: every position `k` with `0 ≤ k ≤ n - m` is tried in
turn and kept when `T[k..k+m) == P`. -/
def bruteForce {α : Type} [DecidableEq α] (T P : List α) : List Nat :=
  (List.range (T.length + 1 - P.length)).filter (occursAt T P)

/-- What is known of the variables of STEP 2 between the first and the second
`if` of the loop body: the alignment `textIndex - patternIndex` is the first
one not yet ruled out, `patternIndex` characters of it are matched, and
`result` holds the occurrences to the left of it. -/
structure MidInv {α : Type} [DecidableEq α] (T P : List α) (s : SearchState) : Prop where
  ple : s.patternIndex ≤ P.length
  pte : s.patternIndex ≤ s.textIndex
  tle : s.textIndex ≤ T.length
  matched : ∀ j, j < s.patternIndex → T[s.textIndex - s.patternIndex + j]? = P[j]?
  res : s.result =
    ((List.range (s.textIndex - s.patternIndex)).filter (occursAt T P)).map Int.ofNat

/-- The loop invariant of STEP 2, at the test `textIndex < n`. -/
structure SearchInv {α : Type} [DecidableEq α] (T P : List α) (s : SearchState) : Prop where
  mid : MidInv T P s
  plt : s.patternIndex < P.length

/-- The number of iterations STEP 2 can still make is at most this. -/
def searchMeasure {α : Type} (T : List α) (s : SearchState) : Nat :=
  2 * (T.length - s.textIndex) + s.patternIndex

/-! ## KMP: reachable states and the log of table writes -/

/-- The states of STEP 1 at the loop test `i < m`: the state after `lps[0] = 0`,
and every state an iteration of the loop body leads to. -/
inductive LpsReach {α : Type} [DecidableEq α] (pattern : List α) : LpsState → Prop where
  | init : LpsReach pattern
      { lps := (List.replicate pattern.length 0).set 0 0, length := 0, i := 1 }
  | step (s s1 : LpsState) : LpsReach pattern s → s.i < pattern.length →
      lpsStep pattern s = .ok s1 → LpsReach pattern s1

/-- The states of STEP 2 at the loop test `textIndex < n`. -/
inductive SearchReach {α : Type} [DecidableEq α] (text pattern : List α) (lps : List Nat) :
    SearchState → Prop where
  | init : SearchReach text pattern lps { textIndex := 0, patternIndex := 0, result := [] }
  | step (s s1 : SearchState) : SearchReach text pattern lps s →
      s.textIndex < text.length → searchStep text pattern lps s = .ok s1 →
      SearchReach text pattern lps s1

/-- The first `if` of the search loop body alone (kmp.cpp, lines 78-82): the
state that the second `if` is run on. -/
def searchMid {α : Type} [DecidableEq α] (text pattern : List α) (s : SearchState) :
    Except Fault SearchState := do
  let c ← readAt text s.textIndex
  let d ← readAt pattern s.patternIndex
  if c = d then
    pure { textIndex := s.textIndex + 1, patternIndex := s.patternIndex + 1,
           result := s.result }
  else pure s

/-- One iteration of the body of `while (i < m)`, as `lpsStep`, together with
the indices of `lps` it writes (kmp.cpp, lines 40 and 53). -/
def lpsStepLog {α : Type} [DecidableEq α] (pattern : List α) (s : LpsState) :
    Except Fault (LpsState × List Nat) := do
  let a ← readAt pattern s.i
  let b ← readAt pattern s.length
  if a = b then
    let length := s.length + 1
    let lps ← writeAt s.lps s.i length
    pure ({ lps := lps, length := length, i := s.i + 1 }, [s.i])
  else if s.length ≠ 0 then
    let length ← readAt s.lps ((s.length : Int) - 1)
    pure ({ lps := s.lps, length := length, i := s.i }, [])
  else
    let lps ← writeAt s.lps s.i 0
    pure ({ lps := lps, length := s.length, i := s.i + 1 }, [s.i])

/-- The loop `while (i < m)` of STEP 1, as `lpsLoop`, together with the indices
of `lps` written by its iterations, in the order of the writes. -/
def lpsLoopLog {α : Type} [DecidableEq α] (pattern : List α) :
    Nat → LpsState → Except Fault (LpsState × List Nat)
  | fuel, s =>
    if s.i < pattern.length then
      match fuel with
      | 0 => .error .outOfFuel
      | fuel + 1 =>
        match lpsStepLog pattern s with
        | .ok (s1, w) =>
          match lpsLoopLog pattern fuel s1 with
          | .ok (s2, ws) => .ok (s2, w ++ ws)
          | .error e => .error e
        | .error e => .error e
    else .ok (s, [])

/-- STEP 1 of `main`, as `buildLps`, with the log of the writes made inside the
loop (the write `lps[0] = 0` before the loop is not part of the log). -/
def buildLpsLog {α : Type} [DecidableEq α] (pattern : List α) (fuel : Nat) :
    Except Fault (LpsState × List Nat) := do
  let lps ← writeAt (List.replicate pattern.length 0) 0 0
  lpsLoopLog pattern fuel { lps := lps, length := 0, i := 1 }

end KMP

namespace MIS

/-! ## Maximum independent set on trees: the program -/

/-- The capacity of the global arrays: `const int MAXN = 2e5 + 5`. -/
def MAXN : Nat := 200005

/-- The global array `adj[MAXN]` of neighbour lists, read at an index below `MAXN`. -/
abbrev Adj := Nat → List Nat

/-- The global array `dp[MAXN][2]`: the pair `(dp[u][0], dp[u][1])` for every index `u`. -/
abbrev Dp := Nat → Nat × Nat

/-- The assignment `dp[u] = v` to both columns of one row. -/
def setDp (dp : Dp) (u : Nat) (v : Nat × Nat) : Dp :=
  fun x => if x = u then v else dp x

/-- The call `adj[u].push_back(v)`. -/
def pushBack (adj : Adj) (u v : Nat) : Adj :=
  fun x => if x = u then adj x ++ [v] else adj x

/-- The function `dfs(u, parent)` (solution.cpp, lines 10-22) on the array `adj`,
threading the array `dp`.  One unit of fuel is used per nested call; the
indices `u` of `dp[u]` and `adj[u]` are checked against the array bound. -/
def dfs (adj : Adj) : Nat → Nat → Nat → Dp → Except Fault Dp
  | 0, _, _, _ => .error .outOfFuel
  | fuel + 1, u, parent, dp =>
    if MAXN ≤ u then .error .outOfRange
    else
      -- dp[u][0] = 0; dp[u][1] = 1; then the loop over adj[u]
      (adj u).foldlM
        (fun dp v =>
          if v = parent then pure dp
          else
            match dfs adj fuel v u dp with
            | .error e => .error e
            | .ok dp1 =>
              -- dp[u][1] += dp[v][0];
              let dp2 := setDp dp1 u ((dp1 u).1, (dp1 u).2 + (dp1 v).1)
              -- dp[u][0] += max(dp[v][0], dp[v][1]);
              pure (setDp dp2 u ((dp2 u).1 + max (dp2 v).1 (dp2 v).2, (dp2 u).2)))
        (setDp dp u (0, 1))

/-- The input loop of `main` (solution.cpp, lines 26-31): every pair `u v`
is pushed onto both neighbour lists. -/
def buildAdj : List (Nat × Nat) → Adj → Except Fault Adj
  | [], adj => .ok adj
  | (u, v) :: rest, adj =>
    if MAXN ≤ u then .error .outOfRange
    else if MAXN ≤ v then .error .outOfRange
    else buildAdj rest (pushBack (pushBack adj u v) v u)

/-- The program `main` of solution.cpp (`solve` in the specification) on the
input `n` followed by the pairs `edges`: the loop reads `n - 1` pairs, then
`dfs(1, 0)` runs and `max(dp[1][0], dp[1][1])` is printed.  The arrays start
out empty and zero, as globals do. -/
def main (n : Nat) (edges : List (Nat × Nat)) (fuel : Nat) : Except Fault Nat :=
  match buildAdj (edges.take (n - 1)) (fun _ => []) with
  | .error e => .error e
  | .ok adj =>
    match dfs adj fuel 1 0 (fun _ => (0, 0)) with
    | .error e => .error e
    | .ok dp => .ok (max (dp 1).1 (dp 1).2)

/-! ## Maximum independent set on trees: specification side -/

/-- The nodes `a` and `b` are joined by an edge of the (undirected) input. -/
def Adjacent (edges : List (Nat × Nat)) (a b : Nat) : Prop :=
  (a, b) ∈ edges ∨ (b, a) ∈ edges

/-- The input `n`, `edges` is a tree on the nodes `1..n`: `n ≥ 1`, there are
`n - 1` edges, their endpoints are nodes, and every node is joined to node 1
by a path.  (A connected graph with `n` nodes and `n - 1` edges has no cycle,
so this is the connected acyclic graphs with their edges listed once.) -/
def IsTree (n : Nat) (edges : List (Nat × Nat)) : Prop :=
  1 ≤ n ∧ edges.length = n - 1 ∧
    (∀ e, e ∈ edges → (1 ≤ e.1 ∧ e.1 ≤ n) ∧ (1 ≤ e.2 ∧ e.2 ≤ n)) ∧
    ∀ x, 1 ≤ x → x ≤ n → Relation.ReflTransGen (Adjacent edges) 1 x

/-- No two nodes of `S` are joined by an edge. -/
def independent (edges : List (Nat × Nat)) (S : List Nat) : Bool :=
  edges.all (fun e => !(decide (e.1 ∈ S) && decide (e.2 ∈ S)))

/-- All subsets of a list of nodes, each as a sublist. -/
def subsets : List Nat → List (List Nat)
  | [] => [[]]
  | x :: xs => subsets xs ++ (subsets xs).map (fun S => x :: S)

/-- The brute-force maximum independent set size: the largest cardinality
among all subsets of the nodes `1..n` that are independent. -/
def bruteForceMIS (n : Nat) (edges : List (Nat × Nat)) : Nat :=
  (((subsets (List.range' 1 n)).filter (independent edges)).map List.length).foldr max 0

/-! ## Maximum independent set on trees: the call tree of `dfs` -/

/-- The neighbour list that the input loop builds for node `x`. -/
def adjOf : List (Nat × Nat) → Nat → List Nat
  | [], _ => []
  | (u, v) :: rest, x =>
    (if x = u then [v] else []) ++ ((if x = v then [u] else []) ++ adjOf rest x)

/-- A forest of rooted trees, in first-child / next-sibling form: the first
tree has root `root` and the forest `children` below it, `siblings` are the
trees after it. -/
inductive Forest where
  | nil : Forest
  | cons (root : Nat) (children : Forest) (siblings : Forest) : Forest
  deriving DecidableEq, Repr

namespace Forest

/-- The roots of the trees of the forest, in order. -/
def roots : Forest → List Nat
  | nil => []
  | cons u _ sib => u :: roots sib

/-- All nodes of the forest. -/
def ids : Forest → List Nat
  | nil => []
  | cons u cs sib => u :: (ids cs ++ ids sib)

/-- All (parent, child) pairs of the forest. -/
def edges : Forest → List (Nat × Nat)
  | nil => []
  | cons u cs sib => (roots cs).map (fun c => (u, c)) ++ (edges cs ++ edges sib)

/-- The number of levels of the forest. -/
def height : Forest → Nat
  | nil => 0
  | cons _ cs sib => max (height cs + 1) (height sib)

/-- The pair (sum over the trees of the value `dp[root][0]`, sum over the trees
of `max(dp[root][0], dp[root][1])`) that the recurrence of `dfs` gives. -/
def sums : Forest → Nat × Nat
  | nil => (0, 0)
  | cons _ cs sib =>
    ((sums cs).2 + (sums sib).1, max (sums cs).2 ((sums cs).1 + 1) + (sums sib).2)

/-- The pair `(dp[x][0], dp[x][1])` that the recurrence gives for node `x`. -/
def val : Forest → Nat → Nat × Nat
  | nil, _ => (0, 0)
  | cons u cs sib, x =>
    if x = u then ((sums cs).2, (sums cs).1 + 1)
    else if x ∈ ids cs then val cs x
    else val sib x

/-- The forest is the call tree of `dfs` on `adj`: below a node with parent
`p`, the children are the neighbours other than `p`, in the order of the
neighbour list. -/
def Shape (adj : Adj) : Nat → Forest → Prop
  | _, nil => True
  | p, cons u cs sib =>
    (adj u).filter (fun v => decide (v ≠ p)) = roots cs ∧ Shape adj u cs ∧ Shape adj p sib

end Forest

/-- The body of the loop `for (int v : adj[u])` of `dfs`. -/
def visit (adj : Adj) (fuel u parent : Nat) (dp : Dp) (v : Nat) : Except Fault Dp :=
  if v = parent then pure dp
  else
    match dfs adj fuel v u dp with
    | .error e => .error e
    | .ok dp1 =>
      let dp2 := setDp dp1 u ((dp1 u).1, (dp1 u).2 + (dp1 v).1)
      pure (setDp dp2 u ((dp2 u).1 + max (dp2 v).1 (dp2 v).2, (dp2 u).2))

/-- What a successful call `dfs(u, p)` on the tree below `u` leaves in `dp`. -/
def DfsOk (adj : Adj) (fuel : Nat) : Prop :=
  ∀ (u p : Nat) (cs : Forest) (dp : Dp),
    Forest.Shape adj p (Forest.cons u cs Forest.nil) →
    (Forest.ids (Forest.cons u cs Forest.nil)).Nodup →
    (∀ x, x ∈ Forest.ids (Forest.cons u cs Forest.nil) → x < MAXN) →
    Forest.height (Forest.cons u cs Forest.nil) ≤ fuel →
    ∃ dp1, dfs adj fuel u p dp = .ok dp1 ∧
      (∀ x, x ∉ Forest.ids (Forest.cons u cs Forest.nil) → dp1 x = dp x) ∧
      (∀ x, x ∈ Forest.ids (Forest.cons u cs Forest.nil) → dp1 x = Forest.val (Forest.cons u cs Forest.nil) x)

/-- The number of nodes of the list `l` that belong to `S`. -/
def cnt (S l : List Nat) : Nat := l.countP (fun x => decide (x ∈ S))

namespace Forest

/-- A pair of node sets that attain the two sums of `sums`: the first holds no
root of the forest. -/
def sets : Forest → List Nat × List Nat
  | nil => ([], [])
  | cons u cs sib =>
    ((sets cs).2 ++ (sets sib).1,
      (if (sums cs).1 + 1 ≤ (sums cs).2 then (sets cs).2 else u :: (sets cs).1)
        ++ (sets sib).2)

/-- The forest with the one-node tree `v` inserted before its `k`-th tree. -/
def insertAt (v : Nat) : Nat → Forest → Forest
  | 0, f => cons v nil f
  | _ + 1, nil => cons v nil nil
  | k + 1, cons u cs sib => cons u cs (insertAt v k sib)

/-- The forest with the leaf `v` added below the node `w`, as the child number
`pos p` of `w`, where `p` is the parent of `w`. -/
def insertLeaf (w v : Nat) (pos : Nat → Nat) : Nat → Forest → Forest
  | _, nil => nil
  | p, cons u cs sib =>
    cons u (if u = w then insertAt v (pos p) cs else insertLeaf w v pos u cs)
      (insertLeaf w v pos p sib)

end Forest

/-- The edge list `E` is a tree on the node set `V`, seen from the node `r`. -/
def TreeOn (V : Finset Nat) (E : List (Nat × Nat)) (r : Nat) : Prop :=
  r ∈ V ∧ E.length + 1 = V.card ∧ (∀ e, e ∈ E → e.1 ∈ V ∧ e.2 ∈ V) ∧
    ∀ x, x ∈ V → Relation.ReflTransGen (Adjacent E) r x

/-- The forest `f` is the tree of `dfs` from `r` on the edge list `E` with node
set `V`. -/
def Spans (V : Finset Nat) (E : List (Nat × Nat)) (p0 : Nat) (f : Forest) : Prop :=
  Forest.Shape (adjOf E) p0 f ∧ (Forest.ids f).Nodup ∧ (∀ x, x ∈ Forest.ids f ↔ x ∈ V) ∧
    (∀ a b, (a, b) ∈ Forest.edges f → Adjacent E a b) ∧
    (∀ a b, Adjacent E a b → (a, b) ∈ Forest.edges f ∨ (b, a) ∈ Forest.edges f)

/-- The path graph `1 - 2 - ... - n` as input: the edges `(i, i + 1)` for
`1 ≤ i < n`, in this order. -/
def pathEdges (n : Nat) : List (Nat × Nat) :=
  (List.range (n - 1)).map (fun i => (i + 1, i + 2))

/-- The star graph as input: the centre `1` joined to the leaves `2..k+1`, the
edges `(1, j)` in the order of the leaves. -/
def starEdges (k : Nat) : List (Nat × Nat) :=
  (List.range k).map (fun i => (1, i + 2))

namespace Forest

/-- The forest of one-node trees with the given roots. -/
def leaves : List Nat → Forest
  | [] => nil
  | x :: xs => cons x nil (leaves xs)

/-- The tree that is the path `u, u + 1, ...` of `len` nodes, rooted at `u`. -/
def chain : Nat → Nat → Forest
  | _, 0 => nil
  | u, len + 1 => cons u (chain (u + 1) len) nil

end Forest

/-! ## Maximum independent set on trees: the final table and the call log -/

/-- The array `dp` as `main` leaves it after `dfs(1, 0)` (solution.cpp, lines
25-33), before the answer is printed. -/
def finalDp (n : Nat) (edges : List (Nat × Nat)) (fuel : Nat) : Except Fault Dp :=
  match buildAdj (edges.take (n - 1)) (fun _ => []) with
  | .error e => .error e
  | .ok adj => dfs adj fuel 1 0 (fun _ => (0, 0))

/-- The calls of `dfs` made by `dfs(u, parent)`, itself included: the list of
their first arguments, in the order in which the calls start.  The control
flow is that of `dfs`; the array `dp` plays no part in it. -/
def dfsCalls (adj : Adj) : Nat → Nat → Nat → Except Fault (List Nat)
  | 0, _, _ => .error .outOfFuel
  | fuel + 1, u, parent =>
    if MAXN ≤ u then .error .outOfRange
    else
      (adj u).foldlM
        (fun calls v =>
          if v = parent then pure calls
          else
            match dfsCalls adj fuel v u with
            | .error e => .error e
            | .ok below => pure (calls ++ below))
        [u]

/-- The calls of `dfs` made by `main`, through `dfs(1, 0)`. -/
def mainCalls (n : Nat) (edges : List (Nat × Nat)) (fuel : Nat) : Except Fault (List Nat) :=
  match buildAdj (edges.take (n - 1)) (fun _ => []) with
  | .error e => .error e
  | .ok adj => dfsCalls adj fuel 1 0

/-- The body of the loop of `dfsCalls`. -/
def visitCalls (adj : Adj) (fuel u parent : Nat) (calls : List Nat) (v : Nat) :
    Except Fault (List Nat) :=
  if v = parent then pure calls
  else
    match dfsCalls adj fuel v u with
    | .error e => .error e
    | .ok below => pure (calls ++ below)

/-- The calls made by `dfs(u, p)` on a forest-shaped call tree are the nodes of
the tree in preorder. -/
def CallsOk (adj : Adj) (fuel : Nat) : Prop :=
  ∀ (u p : Nat) (cs : Forest),
    Forest.Shape adj p (Forest.cons u cs Forest.nil) →
    (∀ x, x ∈ Forest.ids (Forest.cons u cs Forest.nil) → x < MAXN) →
    Forest.height (Forest.cons u cs Forest.nil) ≤ fuel →
    dfsCalls adj fuel u p = .ok (Forest.ids (Forest.cons u cs Forest.nil))

/-! ## Maximum independent set on trees: subtrees, specification side -/

/-- A step along an edge that does not touch the node `u`. -/
def Avoid (edges : List (Nat × Nat)) (u a b : Nat) : Prop :=
  Adjacent edges a b ∧ a ≠ u ∧ b ≠ u

/-- The node `x` belongs to the subtree rooted at `u` of the tree rooted at
node 1: it is `u`, or every path from node 1 to `x` passes through `u`. -/
def InSubtree (edges : List (Nat × Nat)) (u x : Nat) : Prop :=
  x = u ∨ ¬ Relation.ReflTransGen (Avoid edges u) 1 x

/-- The node `p` is the parent of `u` in the tree rooted at node 1: the
sentinel 0 for the root, and otherwise the neighbour of `u` that is joined to
node 1 by a path that does not pass through `u`. -/
def IsParent (edges : List (Nat × Nat)) (u p : Nat) : Prop :=
  (u = 1 ∧ p = 0) ∨
    (u ≠ 1 ∧ Adjacent edges u p ∧ Relation.ReflTransGen (Avoid edges u) 1 p)

/-- The list `S` is a set of nodes of the subtree rooted at `u`, no two of them
joined by an edge. -/
def IndepInSubtree (n : Nat) (edges : List (Nat × Nat)) (u : Nat) (S : List Nat) : Prop :=
  S.Nodup ∧ (∀ x, x ∈ S → (1 ≤ x ∧ x ≤ n) ∧ InSubtree edges u x) ∧
    independent edges S = true

/-- The number `k` is the largest length of a list with the property `Q`. -/
def IsMaxLength (Q : List Nat → Prop) (k : Nat) : Prop :=
  (∃ S, Q S ∧ S.length = k) ∧ ∀ S, Q S → S.length ≤ k

/-- An edge as an unordered pair: the smaller endpoint first. -/
def normEdge (e : Nat × Nat) : Nat × Nat := (min e.1 e.2, max e.1 e.2)

/-- Two edge lists write down the same edges: one is got from the other by
permuting the edges and swapping the endpoints of some of them. -/
def SameEdges (E1 E2 : List (Nat × Nat)) : Prop :=
  (E1.map normEdge).Perm (E2.map normEdge)

namespace Forest

/-- The forest of the children of node `u`: what lies below `u` in the forest. -/
def sub : Forest → Nat → Forest
  | nil, _ => nil
  | cons v cs sib, u =>
    if u = v then cs
    else if u ∈ ids cs then sub cs u
    else sub sib u

end Forest

/-- The edge list is a simple graph: no edge joins a node to itself, and no
edge is listed twice, in either direction. -/
def Simple (edges : List (Nat × Nat)) : Prop :=
  (∀ e, e ∈ edges → e.1 ≠ e.2) ∧ (edges.map normEdge).Nodup

end MIS

/-! # Theorems -/

/-! ## Bounds-checked accesses at indices known to be in range -/

theorem readAt_nat {β : Type} (xs : List β) (i : Nat) (x : β) (h : xs[i]? = some x) :
    readAt xs (i : Int) = .ok x := by
  simp [readAt, h]

theorem readAt_pred {β : Type} (xs : List β) (k : Nat) (x : β) (hk : 0 < k)
    (h : xs[k - 1]? = some x) : readAt xs ((k : Int) - 1) = .ok x := by
  have e : ((k : Int) - 1) = ((k - 1 : Nat) : Int) := by omega
  rw [e]
  exact readAt_nat xs (k - 1) x h

theorem readAt_neg {β : Type} (xs : List β) (i : Int) (h : i < 0) :
    readAt xs i = .error .outOfRange := by
  simp [readAt, h]

theorem writeAt_nat {β : Type} (xs : List β) (i : Nat) (v : β) (h : i < xs.length) :
    writeAt xs (i : Int) v = .ok (xs.set i v) := by
  simp [writeAt, h]

namespace KMP

/-! ## Borders, stated on indices -/

theorem bord_zero {α : Type} (P : List α) (i : Nat) : Bord P i 0 :=
  ⟨Nat.zero_le _, fun _ hj => absurd hj (Nat.not_lt_zero _)⟩

theorem bord_trans {α : Type} {P : List α} {i b a : Nat} (h1 : Bord P i b) (h2 : Bord P b a) :
    Bord P i a := by
  refine ⟨le_trans h2.1 h1.1, fun j hj => ?_⟩
  have e1 := h2.2 j hj
  have e2 := h1.2 (b - a + j) (by have := h2.1; omega)
  have e3 : i - b + (b - a + j) = i - a + j := by have := h2.1; have := h1.1; omega
  rw [e1, e2, e3]

theorem bord_restrict {α : Type} {P : List α} {i b a : Nat} (h1 : Bord P i b) (h2 : Bord P i a)
    (hab : a ≤ b) : Bord P b a := by
  refine ⟨hab, fun j hj => ?_⟩
  have e1 := h2.2 j hj
  have e2 := h1.2 (b - a + j) (by omega)
  have e3 : i - b + (b - a + j) = i - a + j := by have := h1.1; omega
  rw [e1, e2, e3]

theorem bord_succ {α : Type} {P : List α} {i k : Nat} (h : Bord P i k) (hc : P[k]? = P[i]?) :
    Bord P (i + 1) (k + 1) := by
  refine ⟨by have := h.1; omega, fun j hj => ?_⟩
  have e : i + 1 - (k + 1) + j = i - k + j := by omega
  rw [e]
  rcases Nat.lt_succ_iff_lt_or_eq.mp hj with hlt | heq
  · exact h.2 j hlt
  · subst heq
    have e2 : i - j + j = i := by have := h.1; omega
    rw [e2]; exact hc

theorem bord_pred {α : Type} {P : List α} {i k : Nat} (h : Bord P (i + 1) (k + 1)) :
    Bord P i k ∧ P[k]? = P[i]? := by
  have hk : k ≤ i := by have := h.1; omega
  refine ⟨⟨hk, fun j hj => ?_⟩, ?_⟩
  · have := h.2 j (by omega)
    have e : i + 1 - (k + 1) + j = i - k + j := by omega
    rw [e] at this; exact this
  · have := h.2 k (by omega)
    have e : i + 1 - (k + 1) + k = i := by omega
    rw [e] at this; exact this

theorem isLps_unique {α : Type} {P : List α} {j v w : Nat} (hv : IsLps P j v) (hw : IsLps P j w) :
    v = w :=
  le_antisymm (hw.2.2 v hv.1 hv.2.1) (hv.2.2 w hw.1 hw.2.1)

end KMP

theorem ok_bind {ε β γ : Type} (x : β) (f : β → Except ε γ) :
    (Except.ok x >>= f) = f x := rfl

theorem error_bind {ε β γ : Type} (e : ε) (f : β → Except ε γ) :
    ((Except.error e : Except ε β) >>= f) = Except.error e := rfl

theorem pure_eq_ok {ε β : Type} (x : β) : (pure x : Except ε β) = Except.ok x := rfl

namespace KMP

theorem lpsStep_inv {α : Type} [DecidableEq α] (P : List α) (s : LpsState)
    (h : LpsInv P s) (hi : s.i < P.length) :
    ∃ s1, lpsStep P s = .ok s1 ∧ LpsInv P s1 ∧ lpsMeasure P s1 < lpsMeasure P s := by
  have hl : s.length < P.length := lt_trans h.llt hi
  have ha : P[s.i]? = some P[s.i] := List.getElem?_eq_getElem hi
  have hb : P[s.length]? = some P[s.length] := List.getElem?_eq_getElem hl
  have hil : s.i < s.lps.length := by rw [h.len]; exact hi
  have hllt := h.llt
  have hile := h.ile
  simp only [lpsStep, readAt_nat _ _ _ ha, readAt_nat _ _ _ hb, ok_bind]
  by_cases hc : P[s.i] = P[s.length]
  · -- the characters agree: the border grows by one
    have hce : P[s.length]? = P[s.i]? := by rw [ha, hb, hc]
    have hnew : Bord P (s.i + 1) (s.length + 1) := bord_succ h.bord hce
    rw [if_pos hc, writeAt_nat _ _ _ hil, ok_bind, pure_eq_ok]
    refine ⟨_, rfl, ?_, ?_⟩
    · refine ⟨by simp [h.len], by simp, hi, by simp; omega, ?_, hnew, ?_⟩
      · intro j hj
        simp only at hj ⊢
        rcases Nat.lt_succ_iff_lt_or_eq.mp hj with hlt | heq
        · obtain ⟨v, hv, hv2⟩ := h.tab j hlt
          refine ⟨v, ?_, hv2⟩
          rw [List.getElem?_set_ne (by omega)]; exact hv
        · subst heq
          refine ⟨s.length + 1, ?_, by omega, hnew, fun k hk hb => h.cand k hk hb⟩
          rw [List.getElem?_set_self hil]
      · intro k hk hbk
        simp only at hk hbk ⊢
        rcases k with _ | k
        · omega
        · have := (bord_pred hbk).1
          have := h.cand k (by omega) this
          omega
    · simp only [lpsMeasure]; omega
  · rw [if_neg hc]
    by_cases hz : s.length = 0
    · -- no border can be extended: the entry is 0
      have hcand0 : ∀ k, k ≤ s.i → Bord P (s.i + 1) k → k = 0 := by
        intro k hk hbk
        rcases k with _ | k
        · rfl
        · have h1 := h.cand (k + 1) hk hbk
          have hk0 : k = 0 := by omega
          subst hk0
          have := (bord_pred hbk).2
          rw [ha, ← hz, hb] at this
          exact absurd (Option.some.inj this).symm hc
      have : ¬ (s.length ≠ 0) := by simpa using hz
      rw [if_neg this, writeAt_nat _ _ _ hil, ok_bind, pure_eq_ok]
      refine ⟨_, rfl, ?_, ?_⟩
      · refine ⟨by simp [h.len], by simp, hi, by simp; omega, ?_, ?_, ?_⟩
        · intro j hj
          simp only at hj ⊢
          rcases Nat.lt_succ_iff_lt_or_eq.mp hj with hlt | heq
          · obtain ⟨v, hv, hv2⟩ := h.tab j hlt
            refine ⟨v, ?_, hv2⟩
            rw [List.getElem?_set_ne (by omega)]; exact hv
          · subst heq
            refine ⟨0, ?_, by omega, bord_zero _ _, fun k hk hb => ?_⟩
            · rw [List.getElem?_set_self hil]
            · have := hcand0 k hk hb; omega
        · simp only; rw [hz]; exact bord_zero _ _
        · intro k hk hbk
          simp only at hk hbk ⊢
          rcases k with _ | k
          · omega
          · have := (bord_pred hbk).1
            have := hcand0 k (by omega) this
            omega
      · simp only [lpsMeasure]; omega
    · -- fall back to the longest border of the current border
      rw [if_pos hz]
      have hpos : 0 < s.length := Nat.pos_of_ne_zero hz
      obtain ⟨v, hv, hv2⟩ := h.tab (s.length - 1) (by omega)
      rw [readAt_pred _ _ _ hpos hv, ok_bind, pure_eq_ok]
      have e1 : s.length - 1 + 1 = s.length := by omega
      have hvb : Bord P s.length v := by have := hv2.2.1; rwa [e1] at this
      refine ⟨_, rfl, ?_, ?_⟩
      · refine ⟨h.len, h.ipos, h.ile, ?_, h.tab, bord_trans h.bord hvb, ?_⟩
        · have := hv2.1; simp only; omega
        · intro k hk hbk
          simp only at hk hbk ⊢
          rcases k with _ | k
          · omega
          · have hp := bord_pred hbk
            have h1 := h.cand (k + 1) hk hbk
            have hne : k ≠ s.length := by
              intro e
              subst e
              have := hp.2
              rw [ha, hb] at this
              exact hc (Option.some.inj this).symm
            have hk2 : k ≤ s.length - 1 := by omega
            have hr : Bord P s.length k := bord_restrict h.bord hp.1 (by omega)
            have := hv2.2.2 k hk2 (by rwa [e1])
            omega
      · have := hv2.1; simp only [lpsMeasure]; omega

theorem lpsLoop_inv {α : Type} [DecidableEq α] (P : List α) :
    ∀ (fuel : Nat) (s : LpsState), LpsInv P s →
      (s.i < P.length → lpsMeasure P s ≤ fuel) →
      ∃ s1, lpsLoop P fuel s = .ok s1 ∧ LpsInv P s1 ∧ s1.i = P.length := by
  intro fuel
  induction fuel with
  | zero =>
    intro s h hf
    by_cases hi : s.i < P.length
    · have h0 := hf hi
      simp only [lpsMeasure] at h0
      omega
    · refine ⟨s, ?_, h, by have := h.ile; omega⟩
      unfold lpsLoop; rw [if_neg hi]
  | succ fuel ih =>
    intro s h hf
    by_cases hi : s.i < P.length
    · obtain ⟨s1, hs1, hinv1, hm⟩ := lpsStep_inv P s h hi
      have := hf hi
      obtain ⟨s2, hs2, hinv2, hi2⟩ := ih s1 hinv1 (fun _ => by omega)
      refine ⟨s2, ?_, hinv2, hi2⟩
      unfold lpsLoop; rw [if_pos hi]; simp only [hs1]; exact hs2
    · refine ⟨s, ?_, h, by have := h.ile; omega⟩
      unfold lpsLoop; rw [if_neg hi]

theorem lpsInv_init {α : Type} (P : List α) (hP : P ≠ []) :
    LpsInv P { lps := (List.replicate P.length 0).set 0 0, length := 0, i := 1 } := by
  have hm : 0 < P.length := List.length_pos.mpr hP
  refine ⟨by simp, le_refl _, hm, Nat.zero_lt_one, ?_, bord_zero _ _, ?_⟩
  · intro j hj
    simp only at hj
    have hj0 : j = 0 := by omega
    subst hj0
    refine ⟨0, ?_, le_refl _, bord_zero _ _, fun k hk _ => hk⟩
    rw [List.getElem?_set_self (by simpa using hm)]
  · intro k hk _
    simpa using hk

theorem buildLps_inv {α : Type} [DecidableEq α] (P : List α) (hP : P ≠ []) (fuel : Nat)
    (hf : 2 * (P.length - 1) ≤ fuel) :
    ∃ s, buildLps P fuel = .ok s ∧ LpsInv P s ∧ s.i = P.length := by
  have hm : 0 < P.length := List.length_pos.mpr hP
  have hw : writeAt (List.replicate P.length 0) ((0 : Nat) : Int) 0
      = .ok ((List.replicate P.length 0).set 0 0) :=
    writeAt_nat _ _ _ (by simpa using hm)
  obtain ⟨s, hs, hinv, hi⟩ := lpsLoop_inv P fuel _ (lpsInv_init P hP)
    (fun _ => by simp only [lpsMeasure]; omega)
  refine ⟨s, ?_, hinv, hi⟩
  unfold buildLps
  simp only [Nat.cast_zero] at hw
  rw [hw, ok_bind]; exact hs

theorem lpsTable_of_inv {α : Type} (P : List α) (s : LpsState) (h : LpsInv P s)
    (hi : s.i = P.length) : LpsTable P s.lps :=
  ⟨h.len, fun j hj => h.tab j (by omega)⟩

/-- Index form of `occursAt`. -/
theorem occursAt_iff {α : Type} [DecidableEq α] (T P : List α) (k : Nat) :
    occursAt T P k = true ↔ ∀ j, j < P.length → T[k + j]? = P[j]? := by
  simp only [occursAt, decide_eq_true_eq]
  constructor
  · intro h j hj
    have : ((T.drop k).take P.length)[j]? = P[j]? := by rw [h]
    rw [List.getElem?_take_of_lt hj, List.getElem?_drop] at this
    exact this
  · intro h
    apply List.ext_getElem?
    intro j
    by_cases hj : j < P.length
    · rw [List.getElem?_take_of_lt hj, List.getElem?_drop]; exact h j hj
    · rw [List.getElem?_eq_none (by simp; omega), List.getElem?_eq_none (by omega)]

theorem occursAt_bound {α : Type} [DecidableEq α] (T P : List α) (k : Nat)
    (hP : P ≠ []) (h : occursAt T P k = true) : k + P.length ≤ T.length := by
  have hm : 0 < P.length := List.length_pos.mpr hP
  have := (occursAt_iff T P k).mp h (P.length - 1) (by omega)
  rw [List.getElem?_eq_getElem (show P.length - 1 < P.length by omega)] at this
  by_contra hc
  rw [List.getElem?_eq_none (by omega)] at this
  exact absurd this (by simp)

theorem filter_range_skip (p : Nat → Bool) (a : Nat) :
    ∀ b, a ≤ b → (∀ k, a ≤ k → k < b → p k = false) →
      (List.range b).filter p = (List.range a).filter p := by
  intro b hab
  induction b, hab using Nat.le_induction with
  | base => intro _; rfl
  | succ b hab ih =>
    intro h
    rw [List.range_succ, List.filter_append, ih (fun k h1 h2 => h k h1 (by omega))]
    simp [h b hab (by omega)]

theorem filter_range_snoc (p : Nat → Bool) (a : Nat) (h : p a = true) :
    (List.range (a + 1)).filter p = (List.range a).filter p ++ [a] := by
  rw [List.range_succ, List.filter_append]
  simp [h]

/-- Falling back from `q` matched characters to the longest proper border `v`
of `P[0..q)` skips no occurrence. -/
theorem shift_skips {α : Type} [DecidableEq α] (T P : List α) (σ q v : Nat)
    (hq : 0 < q) (hqm : q ≤ P.length)
    (hmat : ∀ j, j < q → T[σ + j]? = P[j]?) (hv : IsLps P (q - 1) v) :
    ∀ k, σ < k → k < σ + q - v → occursAt T P k = false := by
  intro k h1 h2
  by_contra hocc
  have hocc : occursAt T P k = true := by simpa using hocc
  have ho := (occursAt_iff T P k).mp hocc
  have e1 : q - 1 + 1 = q := by omega
  have hb : Bord P q (σ + q - k) := by
    refine ⟨by omega, fun j hj => ?_⟩
    have a1 := ho j (by omega)
    have a2 := hmat (k - σ + j) (by omega)
    have e2 : σ + (k - σ + j) = k + j := by omega
    have e3 : q - (σ + q - k) + j = k - σ + j := by omega
    rw [e3, ← a1, ← a2, e2]
  have := hv.2.2 (σ + q - k) (by omega) (by rwa [e1])
  omega

theorem shift_matched {α : Type} (T P : List α) (σ q v : Nat)
    (hq : 0 < q) (hmat : ∀ j, j < q → T[σ + j]? = P[j]?) (hv : IsLps P (q - 1) v) :
    ∀ j, j < v → T[σ + q - v + j]? = P[j]? := by
  intro j hj
  have e1 : q - 1 + 1 = q := by omega
  have hb : Bord P q v := by have := hv.2.1; rwa [e1] at this
  have hvq := hb.1
  have a1 := hb.2 j hj
  have a2 := hmat (q - v + j) (by omega)
  have e2 : σ + (q - v + j) = σ + q - v + j := by omega
  rw [a1, ← a2, e2]

/-- A mismatch after `q` matched characters rules out the current alignment. -/
theorem mismatch_skips {α : Type} [DecidableEq α] (T P : List α) (σ q : Nat)
    (hqm : q < P.length) (hne : T[σ + q]? ≠ P[q]?) : occursAt T P σ = false := by
  by_contra hocc
  have hocc : occursAt T P σ = true := by simpa using hocc
  exact hne ((occursAt_iff T P σ).mp hocc q hqm)

theorem natCast_sub_natCast (a b : Nat) (h : b ≤ a) :
    (a : Int) - (b : Int) = Int.ofNat (a - b) := by
  simp only [Int.ofNat_eq_coe]; omega

theorem searchTail_inv {α : Type} [DecidableEq α] (T P : List α) (lps : List Nat)
    (ht : LpsTable P lps) (hm : 0 < P.length) (s : SearchState) (h : MidInv T P s) :
    ∃ s2, searchTail T P lps s = .ok s2 ∧ SearchInv T P s2 ∧
      searchMeasure T s2 ≤ searchMeasure T s ∧
      (s.textIndex < T.length → T[s.textIndex]? ≠ P[s.patternIndex]? →
        searchMeasure T s2 < searchMeasure T s) := by
  obtain ⟨ti, q, res⟩ := s
  obtain ⟨hple, hpte, htle, hmat, hres⟩ := h
  simp only at hple hpte htle hmat hres
  have hσ : ti - q + q = ti := by omega
  simp only [searchTail, searchMeasure]
  by_cases hfull : q = P.length
  · -- full pattern matched
    rw [if_pos hfull]
    have hq : 0 < q := by omega
    obtain ⟨v, hv, hv2⟩ := ht.2 (q - 1) (by omega)
    have hvle := hv2.1
    rw [readAt_pred _ _ _ hq hv, ok_bind, pure_eq_ok]
    have hocc : occursAt T P (ti - q) = true :=
      (occursAt_iff T P (ti - q)).mpr (fun j hj => hmat j (by omega))
    have hskip := shift_skips T P (ti - q) q v hq (by omega) hmat hv2
    have hsm := shift_matched T P (ti - q) q v hq hmat hv2
    have e : ti - q + q - v = ti - v := by omega
    rw [e] at hskip hsm
    refine ⟨_, rfl, ⟨⟨by simp only; omega, by simp only; omega, htle, hsm, ?_⟩,
      by simp only; omega⟩, by simp only; omega, fun _ _ => by simp only; omega⟩
    simp only
    rw [hres, natCast_sub_natCast ti q hpte,
      filter_range_skip (occursAt T P) (ti - q + 1) (ti - v) (by omega)
        (fun k h1 h2 => hskip k (by omega) h2),
      filter_range_snoc _ _ hocc, List.map_append, List.map_singleton]
  · rw [if_neg hfull]
    have hqm : q < P.length := by omega
    by_cases hti : ti < T.length
    · rw [if_pos hti]
      have ha : T[ti]? = some T[ti] := List.getElem?_eq_getElem hti
      have hb : P[q]? = some P[q] := List.getElem?_eq_getElem hqm
      rw [readAt_nat _ _ _ ha, readAt_nat _ _ _ hb, ok_bind, ok_bind]
      by_cases hc : T[ti] = P[q]
      · -- no mismatch: nothing changes
        have : ¬ (T[ti] ≠ P[q]) := by simpa using hc
        rw [if_neg this, pure_eq_ok]
        refine ⟨_, rfl, ⟨⟨hple, hpte, htle, hmat, hres⟩, hqm⟩, le_refl _, fun _ hne => ?_⟩
        exact absurd (by rw [ha, hb, hc]) hne
      · have hne : T[ti - q + q]? ≠ P[q]? := by
          rw [hσ, ha, hb]; intro e; exact hc (Option.some.inj e)
        have hno := mismatch_skips T P (ti - q) q hqm hne
        rw [if_pos hc]
        by_cases hq : q = 0
        · -- mismatch at the first character: move the text pointer
          subst hq
          have : ¬ ((0 : Nat) ≠ 0) := by simp
          rw [if_neg this, pure_eq_ok]
          refine ⟨_, rfl, ⟨⟨Nat.zero_le _, Nat.zero_le _, hti,
            fun j hj => absurd hj (Nat.not_lt_zero _), ?_⟩, hm⟩,
            by simp only; omega, fun _ _ => by simp only; omega⟩
          simp only [Nat.sub_zero] at hres hno ⊢
          rw [hres, filter_range_skip (occursAt T P) ti (ti + 1) (by omega)
            (fun k h1 h2 => by
              have : k = ti := by omega
              rw [this]; exact hno)]
        · -- mismatch after a partial match: fall back
          rw [if_pos hq]
          have hq0 : 0 < q := Nat.pos_of_ne_zero hq
          obtain ⟨v, hv, hv2⟩ := ht.2 (q - 1) (by omega)
          have hvle := hv2.1
          rw [readAt_pred _ _ _ hq0 hv, ok_bind, pure_eq_ok]
          have hskip := shift_skips T P (ti - q) q v hq0 (by omega) hmat hv2
          have hsm := shift_matched T P (ti - q) q v hq0 hmat hv2
          have e : ti - q + q - v = ti - v := by omega
          rw [e] at hskip hsm
          refine ⟨_, rfl, ⟨⟨by simp only; omega, by simp only; omega, htle, hsm, ?_⟩,
            by simp only; omega⟩, by simp only; omega, fun _ _ => by simp only; omega⟩
          simp only
          rw [hres, filter_range_skip (occursAt T P) (ti - q) (ti - v) (by omega)
            (fun k h1 h2 => by
              rcases Nat.eq_or_lt_of_le h1 with heq | hlt
              · rw [← heq]; exact hno
              · exact hskip k hlt h2)]
    · rw [if_neg hti, pure_eq_ok]
      exact ⟨_, rfl, ⟨⟨hple, hpte, htle, hmat, hres⟩, hqm⟩, le_refl _,
        fun h1 _ => absurd h1 hti⟩

theorem searchStep_inv {α : Type} [DecidableEq α] (T P : List α) (lps : List Nat)
    (ht : LpsTable P lps) (s : SearchState) (h : SearchInv T P s)
    (hti : s.textIndex < T.length) :
    ∃ s1, searchStep T P lps s = .ok s1 ∧ SearchInv T P s1 ∧
      searchMeasure T s1 < searchMeasure T s := by
  have hm : 0 < P.length := by have := h.plt; omega
  have hqm := h.plt
  have ha : T[s.textIndex]? = some T[s.textIndex] := List.getElem?_eq_getElem hti
  have hb : P[s.patternIndex]? = some P[s.patternIndex] := List.getElem?_eq_getElem hqm
  simp only [searchStep, readAt_nat _ _ _ ha, readAt_nat _ _ _ hb, ok_bind]
  obtain ⟨hple, hpte, htle, hmat, hres⟩ := h.mid
  by_cases hc : T[s.textIndex] = P[s.patternIndex]
  · -- characters match
    rw [if_pos hc]
    have hmid : MidInv T P ⟨s.textIndex + 1, s.patternIndex + 1, s.result⟩ := by
      have e : s.textIndex + 1 - (s.patternIndex + 1) = s.textIndex - s.patternIndex := by
        omega
      refine ⟨hqm, by simp only; omega, hti, ?_, ?_⟩
      · intro j hj
        simp only at hj ⊢
        rw [e]
        rcases Nat.lt_succ_iff_lt_or_eq.mp hj with hlt | heq
        · exact hmat j hlt
        · subst heq
          have e2 : s.textIndex - s.patternIndex + s.patternIndex = s.textIndex := by omega
          rw [e2, ha, hb, hc]
      · simp only; rw [e]; exact hres
    obtain ⟨s2, hs2, hinv, hle, _⟩ := searchTail_inv T P lps ht hm _ hmid
    refine ⟨s2, hs2, hinv, ?_⟩
    simp only [searchMeasure] at hle ⊢
    omega
  · rw [if_neg hc]
    obtain ⟨s2, hs2, hinv, _, hlt⟩ := searchTail_inv T P lps ht hm s h.mid
    refine ⟨s2, hs2, hinv, hlt hti ?_⟩
    rw [ha, hb]; intro e; exact hc (Option.some.inj e)

theorem searchLoop_inv {α : Type} [DecidableEq α] (T P : List α) (lps : List Nat)
    (ht : LpsTable P lps) :
    ∀ (fuel : Nat) (s : SearchState), SearchInv T P s →
      (s.textIndex < T.length → searchMeasure T s ≤ fuel) →
      ∃ s1, searchLoop T P lps fuel s = .ok s1 ∧ SearchInv T P s1 ∧
        s1.textIndex = T.length := by
  intro fuel
  induction fuel with
  | zero =>
    intro s h hf
    by_cases hi : s.textIndex < T.length
    · have h0 := hf hi
      simp only [searchMeasure] at h0
      omega
    · refine ⟨s, ?_, h, by have := h.mid.tle; omega⟩
      unfold searchLoop; rw [if_neg hi]
  | succ fuel ih =>
    intro s h hf
    by_cases hi : s.textIndex < T.length
    · obtain ⟨s1, hs1, hinv1, hlt⟩ := searchStep_inv T P lps ht s h hi
      have := hf hi
      obtain ⟨s2, hs2, hinv2, hi2⟩ := ih s1 hinv1 (fun _ => by omega)
      refine ⟨s2, ?_, hinv2, hi2⟩
      unfold searchLoop; rw [if_pos hi]; simp only [hs1]; exact hs2
    · refine ⟨s, ?_, h, by have := h.mid.tle; omega⟩
      unfold searchLoop; rw [if_neg hi]

/-- The index form of a border agrees with the list form: the prefix of length
`k` is a suffix of `P[0..i)`. -/
theorem bord_iff_suffix {α : Type} (P : List α) (i k : Nat) (hi : i ≤ P.length)
    (hk : k ≤ i) : Bord P i k ↔ P.take k <:+ P.take i := by
  rw [List.suffix_iff_eq_drop]
  have hl : (List.take i P).length - (List.take k P).length = i - k := by
    simp only [List.length_take]; omega
  rw [hl]
  constructor
  · intro h
    apply List.ext_getElem?
    intro j
    rw [List.getElem?_drop]
    by_cases hj : j < k
    · rw [List.getElem?_take_of_lt hj, List.getElem?_take_of_lt (by omega)]
      exact h.2 j hj
    · rw [List.getElem?_eq_none (by simp only [List.length_take]; omega),
        List.getElem?_eq_none (by simp only [List.length_take]; omega)]
  · intro h
    refine ⟨hk, fun j hj => ?_⟩
    have : (List.take k P)[j]? = (List.drop (i - k) (List.take i P))[j]? := by rw [← h]
    rw [List.getElem?_drop, List.getElem?_take_of_lt hj,
      List.getElem?_take_of_lt (by omega)] at this
    exact this

theorem searchInv_init {α : Type} [DecidableEq α] (T P : List α) (hP : P ≠ []) :
    SearchInv T P { textIndex := 0, patternIndex := 0, result := [] } :=
  ⟨⟨Nat.zero_le _, le_refl _, Nat.zero_le _, fun _ hj => absurd hj (Nat.not_lt_zero _), rfl⟩,
    List.length_pos.mpr hP⟩

/-- STEP 2 on a correct table: the loop ends with `textIndex = n` and has
collected the positions of the brute-force scan, in its order. -/
theorem search_spec {α : Type} [DecidableEq α] (T P : List α) (lps : List Nat)
    (ht : LpsTable P lps) (hP : P ≠ []) (fuel : Nat) (hf : 2 * T.length ≤ fuel) :
    ∃ s, search T P lps fuel = .ok s ∧ s.textIndex = T.length ∧
      s.patternIndex < P.length ∧ s.result = (bruteForce T P).map Int.ofNat := by
  obtain ⟨s, hs, hinv, hti⟩ := searchLoop_inv T P lps ht fuel _ (searchInv_init T P hP)
    (fun _ => by simp only [searchMeasure]; omega)
  refine ⟨s, hs, hti, hinv.plt, ?_⟩
  have hq := hinv.plt
  have hpte := hinv.mid.pte
  rw [hinv.mid.res, hti, bruteForce]
  congr 1
  apply filter_range_skip
  · omega
  · intro k h1 _
    by_contra hc
    have hc : occursAt T P k = true := by simpa using hc
    have := occursAt_bound T P k hP hc
    omega

/-- The whole program on a non-empty pattern: both loops end, no access is
out of range, the table is the table of longest proper borders and the
matches are those of the brute-force scan. -/
theorem main_spec {α : Type} [DecidableEq α] (T P : List α) (hP : P ≠ []) (fuel : Nat)
    (hf1 : 2 * (P.length - 1) ≤ fuel) (hf2 : 2 * T.length ≤ fuel) :
    ∃ t s, buildLps P fuel = .ok t ∧ search T P t.lps fuel = .ok s ∧
      main T P fuel = .ok (t.lps, s.result) ∧ LpsInv P t ∧ t.i = P.length ∧
      s.textIndex = T.length ∧ s.patternIndex < P.length ∧
      s.result = (bruteForce T P).map Int.ofNat := by
  obtain ⟨t, ht, hinv, hi⟩ := buildLps_inv P hP fuel hf1
  obtain ⟨s, hs, hti, hq, hres⟩ :=
    search_spec T P t.lps (lpsTable_of_inv P t hinv hi) hP fuel hf2
  refine ⟨t, s, ht, hs, ?_, hinv, hi, hti, hq, hres⟩
  unfold main
  rw [ht, ok_bind, hs, ok_bind, pure_eq_ok]

theorem mem_bruteForce {α : Type} [DecidableEq α] (T P : List α) (k : Nat) :
    k ∈ bruteForce T P ↔
      k < T.length + 1 - P.length ∧ (T.drop k).take P.length = P := by
  simp [bruteForce, occursAt]

theorem bruteForce_sorted {α : Type} [DecidableEq α] (T P : List α) :
    ((bruteForce T P).map Int.ofNat).Pairwise (· < ·) := by
  rw [List.pairwise_map]
  have h : (bruteForce T P).Pairwise (· < ·) :=
    (List.pairwise_lt_range _).filter _
  exact h.imp (fun hab => by simpa using hab)

theorem bruteForce_replicate {α : Type} [DecidableEq α] (c : α) (n m : Nat) (hmn : m ≤ n) :
    bruteForce (List.replicate n c) (List.replicate m c) = List.range (n - m + 1) := by
  have e : n + 1 - m = n - m + 1 := by omega
  rw [bruteForce, List.length_replicate, List.length_replicate, e, List.filter_eq_self]
  intro k hk
  have hk := List.mem_range.mp hk
  simp only [occursAt, List.length_replicate, List.drop_replicate, List.take_replicate,
    decide_eq_true_eq]
  congr 1
  omega

/-- C1: for a non-empty pattern no longer than the text, a position `k` is in
the list of matches printed by `main` exactly when `0 ≤ k ≤ n - m` and
`T[k..k+m) = P`; these are the positions of the brute-force scan. -/
theorem matches_iff_occurrence {α : Type} [DecidableEq α] (T P : List α) (hP : P ≠ [])
    (hmn : P.length ≤ T.length) (fuel : Nat) (hf : 2 * T.length ≤ fuel) :
    ∃ lps r, main T P fuel = .ok (lps, r) ∧
      (∀ k : Int, k ∈ r ↔
        (0 ≤ k ∧ k ≤ (T.length : Int) - (P.length : Int) ∧
          (T.drop k.toNat).take P.length = P)) ∧
      (∀ k : Nat, (k : Int) ∈ r ↔ k ∈ bruteForce T P) := by
  obtain ⟨t, s, _, _, hmain, _, _, _, _, hres⟩ :=
    main_spec T P hP fuel (by omega) hf
  refine ⟨t.lps, s.result, hmain, ?_, ?_⟩
  · intro k
    rw [hres, List.mem_map]
    constructor
    · rintro ⟨a, ha, rfl⟩
      have := (mem_bruteForce T P a).mp ha
      refine ⟨Int.ofNat_nonneg a, ?_, by simpa using this.2⟩
      have := this.1
      simp only [Int.ofNat_eq_coe]; omega
    · rintro ⟨h0, h1, h2⟩
      refine ⟨k.toNat, (mem_bruteForce T P k.toNat).mpr ⟨by omega, h2⟩, ?_⟩
      simp only [Int.ofNat_eq_coe]; omega
  · intro k
    rw [hres, List.mem_map]
    constructor
    · rintro ⟨a, ha, hak⟩
      have : a = k := by simpa using hak
      rw [← this]; exact ha
    · intro hk
      exact ⟨k, hk, rfl⟩

theorem matches_iff_occurrence_witness :
    (['a', 'b', 'a'] : List Char) ≠ [] ∧
    (['a', 'b', 'a'] : List Char).length ≤ ['a', 'b', 'a', 'b', 'a'].length ∧
    2 * ['a', 'b', 'a', 'b', 'a'].length ≤ 10 ∧
    ∃ lps r, main ['a', 'b', 'a', 'b', 'a'] ['a', 'b', 'a'] 10 = .ok (lps, r) ∧
      (∀ k : Int, k ∈ r ↔
        (0 ≤ k ∧ k ≤ ((['a', 'b', 'a', 'b', 'a'] : List Char).length : Int) -
            ((['a', 'b', 'a'] : List Char).length : Int) ∧
          ((['a', 'b', 'a', 'b', 'a'] : List Char).drop k.toNat).take
            (['a', 'b', 'a'] : List Char).length = ['a', 'b', 'a'])) ∧
      (∀ k : Nat, (k : Int) ∈ r ↔ k ∈ bruteForce ['a', 'b', 'a', 'b', 'a'] ['a', 'b', 'a']) :=
  ⟨by decide, by decide, by decide,
    matches_iff_occurrence ['a', 'b', 'a', 'b', 'a'] ['a', 'b', 'a'] (by decide) (by decide)
      10 (by decide)⟩

/-- C3: for a non-empty pattern the entry `lps[i]` built by STEP 1 is the length
of the longest proper prefix of `P[0..i]` that is also a suffix of `P[0..i]`:
the prefix of that length is a suffix, and every proper prefix of `P[0..i]`
that is a suffix of it is at most that long. -/
theorem lps_is_longest_border {α : Type} [DecidableEq α] (P : List α) (hP : P ≠ [])
    (fuel : Nat) (hf : 2 * (P.length - 1) ≤ fuel) :
    ∃ t, buildLps P fuel = .ok t ∧ t.lps.length = P.length ∧
      ∀ i, i < P.length → ∃ v, t.lps[i]? = some v ∧ v < i + 1 ∧
        P.take v <+: P.take (i + 1) ∧ P.take v <:+ P.take (i + 1) ∧
        ∀ w : List α, w <+: P.take (i + 1) → w.length < i + 1 →
          w <:+ P.take (i + 1) → w.length ≤ v := by
  obtain ⟨t, ht, hinv, hi⟩ := buildLps_inv P hP fuel hf
  refine ⟨t, ht, hinv.len, fun i hilt => ?_⟩
  obtain ⟨v, hv, hv1, hv2, hv3⟩ := hinv.tab i (by omega)
  refine ⟨v, hv, by omega, ?_, (bord_iff_suffix P (i + 1) v (by omega) (by omega)).mp hv2, ?_⟩
  · exact (List.prefix_take_le_iff (by omega)).mpr (by omega)
  · intro w hw1 hw2 hw3
    have hw : w = P.take w.length := by
      have := List.prefix_iff_eq_take.mp hw1
      rw [List.take_take, min_eq_left (by omega)] at this
      exact this
    rw [hw] at hw3
    exact hv3 w.length (by omega)
      ((bord_iff_suffix P (i + 1) w.length (by omega) (by omega)).mpr hw3)

theorem lps_is_longest_border_witness :
    (['a', 'a', 'b', 'a', 'a'] : List Char) ≠ [] ∧
    2 * ((['a', 'a', 'b', 'a', 'a'] : List Char).length - 1) ≤ 8 ∧
    ∃ t, buildLps ['a', 'a', 'b', 'a', 'a'] 8 = .ok t ∧
      t.lps.length = (['a', 'a', 'b', 'a', 'a'] : List Char).length ∧
      ∀ i, i < (['a', 'a', 'b', 'a', 'a'] : List Char).length →
        ∃ v, t.lps[i]? = some v ∧ v < i + 1 ∧
        (['a', 'a', 'b', 'a', 'a'] : List Char).take v
          <+: (['a', 'a', 'b', 'a', 'a'] : List Char).take (i + 1) ∧
        (['a', 'a', 'b', 'a', 'a'] : List Char).take v
          <:+ (['a', 'a', 'b', 'a', 'a'] : List Char).take (i + 1) ∧
        ∀ w : List Char, w <+: (['a', 'a', 'b', 'a', 'a'] : List Char).take (i + 1) →
          w.length < i + 1 →
          w <:+ (['a', 'a', 'b', 'a', 'a'] : List Char).take (i + 1) → w.length ≤ v :=
  ⟨by decide, by decide,
    lps_is_longest_border ['a', 'a', 'b', 'a', 'a'] (by decide) 8 (by decide)⟩

/-- C4: for a non-empty pattern the built table has `lps[0] = 0` and
`lps[i] ≤ i` at every index `i` of the pattern. -/
theorem lps_bounds {α : Type} [DecidableEq α] (P : List α) (hP : P ≠ [])
    (fuel : Nat) (hf : 2 * (P.length - 1) ≤ fuel) :
    ∃ t, buildLps P fuel = .ok t ∧ t.lps.length = P.length ∧ t.lps[0]? = some 0 ∧
      ∀ i, i < P.length → ∃ v, t.lps[i]? = some v ∧ v ≤ i := by
  obtain ⟨t, ht, hinv, hi⟩ := buildLps_inv P hP fuel hf
  have hm : 0 < P.length := List.length_pos.mpr hP
  refine ⟨t, ht, hinv.len, ?_, fun i hilt => ?_⟩
  · obtain ⟨v, hv, hv1, _⟩ := hinv.tab 0 (by omega)
    have : v = 0 := by omega
    rw [hv, this]
  · obtain ⟨v, hv, hv1, _⟩ := hinv.tab i (by omega)
    exact ⟨v, hv, hv1⟩

theorem lps_bounds_witness :
    (['a', 'b', 'a', 'b'] : List Char) ≠ [] ∧
    2 * ((['a', 'b', 'a', 'b'] : List Char).length - 1) ≤ 6 ∧
    ∃ t, buildLps ['a', 'b', 'a', 'b'] 6 = .ok t ∧
      t.lps.length = (['a', 'b', 'a', 'b'] : List Char).length ∧ t.lps[0]? = some 0 ∧
      ∀ i, i < (['a', 'b', 'a', 'b'] : List Char).length → ∃ v, t.lps[i]? = some v ∧ v ≤ i :=
  ⟨by decide, by decide, lps_bounds ['a', 'b', 'a', 'b'] (by decide) 6 (by decide)⟩

/-- C5: for every text and every non-empty pattern the list of matches printed
by `main` is strictly increasing, has no position twice, and is the ascending
list of all positions where the pattern occurs. -/
theorem matches_sorted {α : Type} [DecidableEq α] (T P : List α) (hP : P ≠ [])
    (fuel : Nat) (hf1 : 2 * (P.length - 1) ≤ fuel) (hf2 : 2 * T.length ≤ fuel) :
    ∃ lps r, main T P fuel = .ok (lps, r) ∧ r.Pairwise (· < ·) ∧ r.Nodup ∧
      r = ((List.range (T.length + 1 - P.length)).filter
            (fun k => decide ((T.drop k).take P.length = P))).map Int.ofNat := by
  obtain ⟨t, s, _, _, hmain, _, _, _, _, hres⟩ := main_spec T P hP fuel hf1 hf2
  have hs := bruteForce_sorted T P
  refine ⟨t.lps, s.result, hmain, by rw [hres]; exact hs, ?_, by rw [hres]; rfl⟩
  rw [hres]
  exact hs.imp (fun hab => ne_of_lt hab)

theorem matches_sorted_witness :
    (['a', 'a'] : List Char) ≠ [] ∧
    2 * ((['a', 'a'] : List Char).length - 1) ≤ 8 ∧
    2 * (['a', 'a', 'a', 'a'] : List Char).length ≤ 8 ∧
    ∃ lps r, main ['a', 'a', 'a', 'a'] ['a', 'a'] 8 = .ok (lps, r) ∧
      r.Pairwise (· < ·) ∧ r.Nodup ∧
      r = ((List.range ((['a', 'a', 'a', 'a'] : List Char).length + 1 -
              (['a', 'a'] : List Char).length)).filter
            (fun k => decide (((['a', 'a', 'a', 'a'] : List Char).drop k).take
              (['a', 'a'] : List Char).length = ['a', 'a']))).map Int.ofNat :=
  ⟨by decide, by decide, by decide,
    matches_sorted ['a', 'a', 'a', 'a'] ['a', 'a'] (by decide) 8 (by decide) (by decide)⟩

/-- C6: overlapping occurrences are all reported: searching `n` copies of a
character for `m` copies of it, `1 ≤ m ≤ n`, gives `[0, 1, ..., n - m]`; in
particular the search of `aaaa` for `aa` gives `[0, 1, 2]`. -/
theorem matches_replicate {α : Type} [DecidableEq α] (c : α) (n m : Nat) (h1 : 1 ≤ m)
    (h2 : m ≤ n) (fuel : Nat) (hf : 2 * n ≤ fuel) :
    (∃ lps, main (List.replicate n c) (List.replicate m c) fuel
        = .ok (lps, (List.range (n - m + 1)).map Int.ofNat)) ∧
      main ['a', 'a', 'a', 'a'] ['a', 'a'] 8 = .ok ([0, 1], [0, 1, 2]) := by
  refine ⟨?_, by decide⟩
  have hP : List.replicate m c ≠ [] := by
    intro h
    have := congrArg List.length h
    simp at this; omega
  obtain ⟨t, s, _, _, hmain, _, _, _, _, hres⟩ :=
    main_spec (List.replicate n c) (List.replicate m c) hP fuel
      (by simp only [List.length_replicate]; omega)
      (by simp only [List.length_replicate]; omega)
  rw [bruteForce_replicate c n m h2] at hres
  exact ⟨t.lps, by rw [hmain, hres]⟩

theorem matches_replicate_witness :
    1 ≤ 2 ∧ 2 ≤ 4 ∧ 2 * 4 ≤ 8 ∧
    ((∃ lps, main (List.replicate 4 'a') (List.replicate 2 'a') 8
        = .ok (lps, (List.range (4 - 2 + 1)).map Int.ofNat)) ∧
      main ['a', 'a', 'a', 'a'] ['a', 'a'] 8 = .ok ([0, 1], [0, 1, 2])) :=
  ⟨by decide, by decide, by decide,
    matches_replicate 'a' 4 2 (by decide) (by decide) 8 (by decide)⟩

/-- C7: when the pattern is longer than the text, both loops end, no access is
out of range, the search loop stops at `textIndex = n` and the list of
matches is empty. -/
theorem longer_pattern_no_match {α : Type} [DecidableEq α] (T P : List α)
    (h : T.length < P.length) (fuel : Nat) (hf : 2 * (P.length - 1) ≤ fuel) :
    ∃ t s, buildLps P fuel = .ok t ∧ search T P t.lps fuel = .ok s ∧
      s.textIndex = T.length ∧ s.result = [] ∧ main T P fuel = .ok (t.lps, []) := by
  have hP : P ≠ [] := by
    intro e; rw [e] at h; simp at h
  obtain ⟨t, s, ht, hs, hmain, _, _, hti, _, hres⟩ :=
    main_spec T P hP fuel hf (by omega)
  have hb : bruteForce T P = [] := by
    have e : T.length + 1 - P.length = 0 := by omega
    rw [bruteForce, e]; rfl
  rw [hb] at hres
  have hres : s.result = [] := by rw [hres]; rfl
  exact ⟨t, s, ht, hs, hti, hres, by rw [hmain, hres]⟩

theorem longer_pattern_no_match_witness :
    (['a', 'b'] : List Char).length < (['a', 'b', 'c'] : List Char).length ∧
    2 * ((['a', 'b', 'c'] : List Char).length - 1) ≤ 4 ∧
    ∃ t s, buildLps ['a', 'b', 'c'] 4 = .ok t ∧
      search ['a', 'b'] ['a', 'b', 'c'] t.lps 4 = .ok s ∧
      s.textIndex = (['a', 'b'] : List Char).length ∧ s.result = [] ∧
      main ['a', 'b'] ['a', 'b', 'c'] 4 = .ok (t.lps, []) :=
  ⟨by decide, by decide,
    longer_pattern_no_match ['a', 'b'] ['a', 'b', 'c'] (by decide) 4 (by decide)⟩

/-- C8: on the empty pattern the program produces no result: the write
`lps[0] = 0` into the table of length zero is out of range, so `main` ends in
the error result for every text; and the read `lps[patternIndex - 1]` of the
full-match branch, reached with `patternIndex = 0 = m`, is out of range for
every table. -/
theorem empty_pattern_fault {α : Type} [DecidableEq α] (T : List α) (fuel : Nat) :
    buildLps ([] : List α) fuel = .error .outOfRange ∧
      main T ([] : List α) fuel = .error .outOfRange ∧
      ∀ (lps : List Nat) (textIndex : Nat) (result : List Int),
        searchTail T ([] : List α) lps
          { textIndex := textIndex, patternIndex := 0, result := result }
          = .error .outOfRange := by
  have hb : buildLps ([] : List α) fuel = .error .outOfRange := rfl
  refine ⟨hb, ?_, ?_⟩
  · unfold main; rw [hb]; rfl
  · intro lps textIndex result
    simp only [searchTail, List.length_nil, if_true, Nat.cast_zero]
    rw [readAt_neg _ _ (by decide)]; rfl

/-- One iteration of STEP 1 from a state of the invariant: the step succeeds,
and it either writes `lps[i]` and advances `i`, or it falls back, leaving `i`
and the table alone and making `length` strictly smaller. -/
theorem lpsStepLog_spec {α : Type} [DecidableEq α] (P : List α) (s : LpsState)
    (h : LpsInv P s) (hi : s.i < P.length) :
    ∃ s1 w, lpsStepLog P s = .ok (s1, w) ∧ lpsStep P s = .ok s1 ∧ LpsInv P s1 ∧
      lpsMeasure P s1 < lpsMeasure P s ∧
      ((w = [s.i] ∧ s1.i = s.i + 1 ∧ s1.lps = s.lps.set s.i s1.length) ∨
        (w = [] ∧ s.length ≠ 0 ∧ s1.i = s.i ∧ s1.lps = s.lps ∧ s1.length < s.length)) := by
  obtain ⟨s1, hs1, hinv1, hm1⟩ := lpsStep_inv P s h hi
  have hl : s.length < P.length := lt_trans h.llt hi
  have ha : P[s.i]? = some P[s.i] := List.getElem?_eq_getElem hi
  have hb : P[s.length]? = some P[s.length] := List.getElem?_eq_getElem hl
  have hil : s.i < s.lps.length := by rw [h.len]; exact hi
  have hs0 := hs1
  simp only [lpsStep, readAt_nat _ _ _ ha, readAt_nat _ _ _ hb, ok_bind] at hs1
  simp only [lpsStepLog, readAt_nat _ _ _ ha, readAt_nat _ _ _ hb, ok_bind]
  by_cases hc : P[s.i] = P[s.length]
  · rw [if_pos hc, writeAt_nat _ _ _ hil, ok_bind, pure_eq_ok] at hs1
    rw [if_pos hc, writeAt_nat _ _ _ hil, ok_bind, pure_eq_ok]
    have e := Except.ok.inj hs1
    subst e
    exact ⟨_, _, rfl, hs0, hinv1, hm1, Or.inl ⟨rfl, rfl, rfl⟩⟩
  · rw [if_neg hc] at hs1
    rw [if_neg hc]
    by_cases hz : s.length = 0
    · have hnz : ¬ (s.length ≠ 0) := by simpa using hz
      rw [if_neg hnz, writeAt_nat _ _ _ hil, ok_bind, pure_eq_ok] at hs1
      rw [if_neg hnz, writeAt_nat _ _ _ hil, ok_bind, pure_eq_ok]
      have e := Except.ok.inj hs1
      subst e
      exact ⟨_, _, rfl, hs0, hinv1, hm1, Or.inl ⟨rfl, rfl, by simp only [hz]⟩⟩
    · have hpos : 0 < s.length := Nat.pos_of_ne_zero hz
      obtain ⟨v, hv, hv2⟩ := h.tab (s.length - 1) (by have := h.llt; omega)
      rw [if_pos hz, readAt_pred _ _ _ hpos hv, ok_bind, pure_eq_ok] at hs1
      rw [if_pos hz, readAt_pred _ _ _ hpos hv, ok_bind, pure_eq_ok]
      have e := Except.ok.inj hs1
      subst e
      refine ⟨_, _, rfl, hs0, hinv1, hm1, Or.inr ⟨rfl, hz, rfl, rfl, ?_⟩⟩
      have := hv2.1
      simp only; omega

theorem lpsReach_inv {α : Type} [DecidableEq α] (P : List α) (hP : P ≠ []) (s : LpsState)
    (h : LpsReach P s) : LpsInv P s := by
  induction h with
  | init => exact lpsInv_init P hP
  | step s s1 _ hi hstep ih =>
    obtain ⟨s2, hs2, hinv, _⟩ := lpsStep_inv P s ih hi
    rw [hstep] at hs2
    rw [Except.ok.inj hs2]; exact hinv

theorem searchReach_inv {α : Type} [DecidableEq α] (T P : List α) (lps : List Nat)
    (ht : LpsTable P lps) (hP : P ≠ []) (s : SearchState)
    (h : SearchReach T P lps s) : SearchInv T P s := by
  induction h with
  | init => exact searchInv_init T P hP
  | step s s1 _ hi hstep ih =>
    obtain ⟨s2, hs2, hinv, _⟩ := searchStep_inv T P lps ht s ih hi
    rw [hstep] at hs2
    rw [Except.ok.inj hs2]; exact hinv

/-- Whatever the fuel, the loop of STEP 1 started in a state of the invariant
ends in a state of the invariant with `i = m`, or runs out of fuel. -/
theorem lpsLoop_total {α : Type} [DecidableEq α] (P : List α) :
    ∀ (fuel : Nat) (s : LpsState), LpsInv P s →
      (∃ t, lpsLoop P fuel s = .ok t ∧ LpsInv P t ∧ t.i = P.length) ∨
        lpsLoop P fuel s = .error .outOfFuel := by
  intro fuel
  induction fuel with
  | zero =>
    intro s h
    by_cases hi : s.i < P.length
    · right; unfold lpsLoop; rw [if_pos hi]
    · left
      refine ⟨s, ?_, h, by have := h.ile; omega⟩
      unfold lpsLoop; rw [if_neg hi]
  | succ fuel ih =>
    intro s h
    by_cases hi : s.i < P.length
    · obtain ⟨s1, hs1, hinv1, _⟩ := lpsStep_inv P s h hi
      rcases ih s1 hinv1 with ⟨t, ht, hinvt, hit⟩ | herr
      · left
        refine ⟨t, ?_, hinvt, hit⟩
        unfold lpsLoop; rw [if_pos hi]; simp only [hs1]; exact ht
      · right
        unfold lpsLoop; rw [if_pos hi]; simp only [hs1]; exact herr
    · left
      refine ⟨s, ?_, h, by have := h.ile; omega⟩
      unfold lpsLoop; rw [if_neg hi]

/-- Whatever the fuel, the loop of STEP 2 started in a state of the invariant
ends with `textIndex = n`, or runs out of fuel. -/
theorem searchLoop_total {α : Type} [DecidableEq α] (T P : List α) (lps : List Nat)
    (ht : LpsTable P lps) :
    ∀ (fuel : Nat) (s : SearchState), SearchInv T P s →
      (∃ r, searchLoop T P lps fuel s = .ok r ∧ r.textIndex = T.length) ∨
        searchLoop T P lps fuel s = .error .outOfFuel := by
  intro fuel
  induction fuel with
  | zero =>
    intro s h
    by_cases hi : s.textIndex < T.length
    · right; unfold searchLoop; rw [if_pos hi]
    · left
      refine ⟨s, ?_, by have := h.mid.tle; omega⟩
      unfold searchLoop; rw [if_neg hi]
  | succ fuel ih =>
    intro s h
    by_cases hi : s.textIndex < T.length
    · obtain ⟨s1, hs1, hinv1, _⟩ := searchStep_inv T P lps ht s h hi
      rcases ih s1 hinv1 with ⟨r, hr, hir⟩ | herr
      · left
        refine ⟨r, ?_, hir⟩
        unfold searchLoop; rw [if_pos hi]; simp only [hs1]; exact hr
      · right
        unfold searchLoop; rw [if_pos hi]; simp only [hs1]; exact herr
    · left
      refine ⟨s, ?_, by have := h.mid.tle; omega⟩
      unfold searchLoop; rw [if_neg hi]

/-- More fuel does not change the result of the search loop. -/
theorem searchLoop_mono {α : Type} [DecidableEq α] (T P : List α) (lps : List Nat) :
    ∀ (fuel : Nat) (s r : SearchState), searchLoop T P lps fuel s = .ok r →
      ∀ k, searchLoop T P lps (fuel + k) s = .ok r := by
  intro fuel
  induction fuel with
  | zero =>
    intro s r h k
    unfold searchLoop at h ⊢
    by_cases hi : s.textIndex < T.length
    · rw [if_pos hi] at h; exact absurd h (by simp)
    · rw [if_neg hi] at h ⊢; exact h
  | succ fuel ih =>
    intro s r h k
    have e : fuel + 1 + k = (fuel + k) + 1 := by omega
    rw [e]
    unfold searchLoop at h ⊢
    by_cases hi : s.textIndex < T.length
    · rw [if_pos hi] at h ⊢
      cases hstep : searchStep T P lps s with
      | error e => simp only [hstep] at h; exact absurd h (by simp)
      | ok s1 =>
        simp only [hstep] at h ⊢
        exact ih s1 r h k
    · rw [if_neg hi] at h ⊢; exact h

/-- More fuel does not change the result of the table construction loop. -/
theorem lpsLoop_mono {α : Type} [DecidableEq α] (P : List α) :
    ∀ (fuel : Nat) (s t : LpsState), lpsLoop P fuel s = .ok t →
      ∀ k, lpsLoop P (fuel + k) s = .ok t := by
  intro fuel
  induction fuel with
  | zero =>
    intro s t h k
    unfold lpsLoop at h ⊢
    by_cases hi : s.i < P.length
    · rw [if_pos hi] at h; exact absurd h (by simp)
    · rw [if_neg hi] at h ⊢; exact h
  | succ fuel ih =>
    intro s t h k
    have e : fuel + 1 + k = (fuel + k) + 1 := by omega
    rw [e]
    unfold lpsLoop at h ⊢
    by_cases hi : s.i < P.length
    · rw [if_pos hi] at h ⊢
      cases hstep : lpsStep P s with
      | error e => simp only [hstep] at h; exact absurd h (by simp)
      | ok s1 =>
        simp only [hstep] at h ⊢
        exact ih s1 t h k
    · rw [if_neg hi] at h ⊢; exact h

theorem lpsLoopLog_spec {α : Type} [DecidableEq α] (P : List α) :
    ∀ (fuel : Nat) (s : LpsState), LpsInv P s →
      (s.i < P.length → lpsMeasure P s ≤ fuel) →
      ∃ t, lpsLoopLog P fuel s = .ok (t, List.range' s.i (P.length - s.i)) ∧
        lpsLoop P fuel s = .ok t ∧ t.i = P.length := by
  intro fuel
  induction fuel with
  | zero =>
    intro s h hf
    by_cases hi : s.i < P.length
    · have h0 := hf hi
      simp only [lpsMeasure] at h0
      omega
    · have hile := h.ile
      have e : P.length - s.i = 0 := by omega
      refine ⟨s, ?_, ?_, by omega⟩
      · unfold lpsLoopLog; rw [if_neg hi, e]; rfl
      · unfold lpsLoop; rw [if_neg hi]
  | succ fuel ih =>
    intro s h hf
    by_cases hi : s.i < P.length
    · obtain ⟨s1, w, hlog, hstep, hinv1, hm, hcase⟩ := lpsStepLog_spec P s h hi
      have := hf hi
      obtain ⟨t, ht1, ht2, ht3⟩ := ih s1 hinv1 (fun _ => by omega)
      refine ⟨t, ?_, ?_, ht3⟩
      · unfold lpsLoopLog; rw [if_pos hi]; simp only [hlog, ht1]
        rcases hcase with ⟨hw, hi1, _⟩ | ⟨hw, _, hi1, _⟩
        · have e : P.length - s.i = (P.length - (s.i + 1)) + 1 := by omega
          rw [hw, hi1, e, List.range'_succ]; rfl
        · rw [hw, hi1]; rfl
      · unfold lpsLoop; rw [if_pos hi]; simp only [hstep]; exact ht2
    · have hile := h.ile
      have e : P.length - s.i = 0 := by omega
      refine ⟨s, ?_, ?_, by omega⟩
      · unfold lpsLoopLog; rw [if_neg hi, e]; rfl
      · unfold lpsLoop; rw [if_neg hi]

theorem writeAt_init {α : Type} (P : List α) (hP : P ≠ []) :
    writeAt (List.replicate P.length 0) 0 0 = .ok ((List.replicate P.length 0).set 0 0) := by
  have hm : 0 < P.length := List.length_pos.mpr hP
  have := writeAt_nat (List.replicate P.length 0) 0 0 (by simpa using hm)
  simpa using this

/-- Whatever the fuel, STEP 1 on a non-empty pattern ends with a correct table
and `i = m`, or runs out of fuel: no access is out of range. -/
theorem buildLps_total {α : Type} [DecidableEq α] (P : List α) (hP : P ≠ []) (fuel : Nat) :
    (∃ t, buildLps P fuel = .ok t ∧ LpsInv P t ∧ t.i = P.length) ∨
      buildLps P fuel = .error .outOfFuel := by
  unfold buildLps
  rw [writeAt_init P hP, ok_bind]
  exact lpsLoop_total P fuel _ (lpsInv_init P hP)

theorem searchStep_eq_mid_tail {α : Type} [DecidableEq α] (T P : List α) (lps : List Nat)
    (s : SearchState) :
    searchStep T P lps s = (searchMid T P s >>= searchTail T P lps) := by
  unfold searchStep searchMid
  cases readAt T (s.textIndex : Int) with
  | error e => rfl
  | ok c =>
    cases readAt P (s.patternIndex : Int) with
    | error e => rfl
    | ok d =>
      simp only [ok_bind]
      by_cases hc : c = d
      · simp only [if_pos hc, pure_eq_ok, ok_bind]
      · simp only [if_neg hc, pure_eq_ok, ok_bind]

/-- C14: for every text and every non-empty pattern the search loop ends: with
`2 n` iterations of fuel (and any larger amount) it returns the same final
state, in which `textIndex = n`; and every iteration from a state the loop
reaches strictly increases `2 * textIndex - patternIndex`, which never
exceeds `2 n`. -/
theorem search_terminates {α : Type} [DecidableEq α] (T P : List α) (hP : P ≠ [])
    (fuel : Nat) (hf1 : 2 * (P.length - 1) ≤ fuel) (hf2 : 2 * T.length ≤ fuel) :
    ∃ t s, buildLps P fuel = .ok t ∧ search T P t.lps fuel = .ok s ∧
      s.textIndex = T.length ∧
      (∀ fuel2, 2 * T.length ≤ fuel2 → search T P t.lps fuel2 = .ok s) ∧
      ∀ r, SearchReach T P t.lps r → r.textIndex < T.length →
        ∃ r1, searchStep T P t.lps r = .ok r1 ∧
          (2 * (r.textIndex : Int) - (r.patternIndex : Int)
            < 2 * (r1.textIndex : Int) - (r1.patternIndex : Int)) ∧
          2 * (r1.textIndex : Int) - (r1.patternIndex : Int) ≤ 2 * (T.length : Int) := by
  obtain ⟨t, ht, hinv, hi⟩ := buildLps_inv P hP fuel hf1
  have htab := lpsTable_of_inv P t hinv hi
  obtain ⟨s, hs, _, hti⟩ := searchLoop_inv T P t.lps htab (2 * T.length) _
    (searchInv_init T P hP) (fun _ => by simp only [searchMeasure]; omega)
  have hall : ∀ fuel2, 2 * T.length ≤ fuel2 → search T P t.lps fuel2 = .ok s := by
    intro fuel2 h2
    have := searchLoop_mono T P t.lps (2 * T.length) _ s hs (fuel2 - 2 * T.length)
    have e : 2 * T.length + (fuel2 - 2 * T.length) = fuel2 := by omega
    rw [e] at this
    exact this
  refine ⟨t, s, ht, hall fuel hf2, hti, hall, ?_⟩
  intro r hr hlt
  have hrinv := searchReach_inv T P t.lps htab hP r hr
  obtain ⟨r1, hr1, hinv1, hm⟩ := searchStep_inv T P t.lps htab r hrinv hlt
  refine ⟨r1, hr1, ?_, ?_⟩
  · have h1 := hinv1.mid.tle
    have h2 := hrinv.mid.tle
    simp only [searchMeasure] at hm
    omega
  · have h1 := hinv1.mid.tle
    omega

theorem search_terminates_witness :
    (['a', 'b'] : List Char) ≠ [] ∧
    2 * ((['a', 'b'] : List Char).length - 1) ≤ 8 ∧
    2 * (['a', 'b', 'a', 'b'] : List Char).length ≤ 8 ∧
    ∃ t s, buildLps ['a', 'b'] 8 = .ok t ∧
      search ['a', 'b', 'a', 'b'] ['a', 'b'] t.lps 8 = .ok s ∧
      s.textIndex = (['a', 'b', 'a', 'b'] : List Char).length ∧
      (∀ fuel2, 2 * (['a', 'b', 'a', 'b'] : List Char).length ≤ fuel2 →
        search ['a', 'b', 'a', 'b'] ['a', 'b'] t.lps fuel2 = .ok s) ∧
      ∀ r, SearchReach ['a', 'b', 'a', 'b'] ['a', 'b'] t.lps r →
        r.textIndex < (['a', 'b', 'a', 'b'] : List Char).length →
        ∃ r1, searchStep ['a', 'b', 'a', 'b'] ['a', 'b'] t.lps r = .ok r1 ∧
          (2 * (r.textIndex : Int) - (r.patternIndex : Int)
            < 2 * (r1.textIndex : Int) - (r1.patternIndex : Int)) ∧
          2 * (r1.textIndex : Int) - (r1.patternIndex : Int)
            ≤ 2 * ((['a', 'b', 'a', 'b'] : List Char).length : Int) :=
  ⟨by decide, by decide, by decide,
    search_terminates ['a', 'b', 'a', 'b'] ['a', 'b'] (by decide) 8 (by decide) (by decide)⟩

/-- C15: for every non-empty pattern the table construction loop ends, with
`2 (m - 1)` iterations of fuel or more, in the same state with `i = m`; every
iteration from a state the loop reaches either writes `lps[i]` and advances
`i`, or is a fallback that leaves `i` and the table alone and makes `length`
strictly smaller; and the writes of the loop are to the indices
`1, 2, ..., m - 1`, each exactly once. -/
theorem lps_terminates_fills_once {α : Type} [DecidableEq α] (P : List α) (hP : P ≠ [])
    (fuel : Nat) (hf : 2 * (P.length - 1) ≤ fuel) :
    ∃ t, buildLps P fuel = .ok t ∧ t.i = P.length ∧
      buildLpsLog P fuel = .ok (t, List.range' 1 (P.length - 1)) ∧
      (∀ fuel2, 2 * (P.length - 1) ≤ fuel2 → buildLps P fuel2 = .ok t) ∧
      ∀ s, LpsReach P s → s.i < P.length →
        ∃ s1 w, lpsStepLog P s = .ok (s1, w) ∧ lpsStep P s = .ok s1 ∧
          ((w = [s.i] ∧ s1.i = s.i + 1 ∧ s1.lps = s.lps.set s.i s1.length) ∨
            (w = [] ∧ s.length ≠ 0 ∧ s1.i = s.i ∧ s1.lps = s.lps ∧
              s1.length < s.length)) := by
  obtain ⟨t, ht1, ht2, ht3⟩ := lpsLoopLog_spec P (2 * (P.length - 1)) _ (lpsInv_init P hP)
    (fun _ => by simp only [lpsMeasure]; omega)
  have hall : ∀ fuel2, 2 * (P.length - 1) ≤ fuel2 →
      lpsLoop P fuel2 { lps := (List.replicate P.length 0).set 0 0, length := 0, i := 1 }
        = .ok t := by
    intro fuel2 h2
    have := lpsLoop_mono P (2 * (P.length - 1)) _ t ht2 (fuel2 - 2 * (P.length - 1))
    have e : 2 * (P.length - 1) + (fuel2 - 2 * (P.length - 1)) = fuel2 := by omega
    rw [e] at this
    exact this
  have hbuild : ∀ fuel2, 2 * (P.length - 1) ≤ fuel2 → buildLps P fuel2 = .ok t := by
    intro fuel2 h2
    unfold buildLps
    rw [writeAt_init P hP, ok_bind]
    exact hall fuel2 h2
  obtain ⟨t2, ht21, ht22, _⟩ := lpsLoopLog_spec P fuel _ (lpsInv_init P hP)
    (fun _ => by simp only [lpsMeasure]; omega)
  have e2 : t2 = t := by
    have := hall fuel hf
    rw [ht22] at this
    exact Except.ok.inj this
  refine ⟨t, hbuild fuel hf, ht3, ?_, hbuild, ?_⟩
  · unfold buildLpsLog
    rw [writeAt_init P hP, ok_bind, ht21, e2]
  · intro s hs hi
    obtain ⟨s1, w, h1, h2, _, _, h5⟩ := lpsStepLog_spec P s (lpsReach_inv P hP s hs) hi
    exact ⟨s1, w, h1, h2, h5⟩

theorem lps_terminates_fills_once_witness :
    (['a', 'a', 'b', 'a'] : List Char) ≠ [] ∧
    2 * ((['a', 'a', 'b', 'a'] : List Char).length - 1) ≤ 6 ∧
    ∃ t, buildLps ['a', 'a', 'b', 'a'] 6 = .ok t ∧
      t.i = (['a', 'a', 'b', 'a'] : List Char).length ∧
      buildLpsLog ['a', 'a', 'b', 'a'] 6
        = .ok (t, List.range' 1 ((['a', 'a', 'b', 'a'] : List Char).length - 1)) ∧
      (∀ fuel2, 2 * ((['a', 'a', 'b', 'a'] : List Char).length - 1) ≤ fuel2 →
        buildLps ['a', 'a', 'b', 'a'] fuel2 = .ok t) ∧
      ∀ s, LpsReach ['a', 'a', 'b', 'a'] s →
        s.i < (['a', 'a', 'b', 'a'] : List Char).length →
        ∃ s1 w, lpsStepLog ['a', 'a', 'b', 'a'] s = .ok (s1, w) ∧
          lpsStep ['a', 'a', 'b', 'a'] s = .ok s1 ∧
          ((w = [s.i] ∧ s1.i = s.i + 1 ∧ s1.lps = s.lps.set s.i s1.length) ∨
            (w = [] ∧ s.length ≠ 0 ∧ s1.i = s.i ∧ s1.lps = s.lps ∧
              s1.length < s.length)) :=
  ⟨by decide, by decide,
    lps_terminates_fills_once ['a', 'a', 'b', 'a'] (by decide) 6 (by decide)⟩

/-- C17: for every text and every non-empty pattern no access is out of range.
Whatever the fuel, `main` does not end in the out-of-range error.  In every
state the construction loop reaches with `i < m`, `length < i < m` holds at
the reads `pattern[i]`, `pattern[length]` and the write `lps[i]`, and
`length ≥ 1` at the read `lps[length - 1]`, and the iteration succeeds.  In
every state the search loop reaches with `textIndex < n`, `patternIndex < m`
holds at the first reads; on the state left by the first `if`,
`lps[patternIndex - 1]` is read only with `1 ≤ patternIndex ≤ m`, the second
reads happen only with `textIndex < n` and `patternIndex < m`, and the
iteration succeeds. -/
theorem accesses_in_range {α : Type} [DecidableEq α] (T P : List α) (hP : P ≠ []) :
    (∀ fuel, main T P fuel ≠ .error .outOfRange) ∧
    (∀ s, LpsReach P s → s.i < P.length →
      s.length < s.i ∧ s.i < P.length ∧ s.i < s.lps.length ∧
      (s.length ≠ 0 → 1 ≤ s.length ∧ s.length - 1 < s.lps.length) ∧
      ∃ s1, lpsStep P s = .ok s1) ∧
    (∀ fuel t, buildLps P fuel = .ok t →
      ∀ s, SearchReach T P t.lps s → s.textIndex < T.length →
        s.patternIndex < P.length ∧
        ∃ s2, searchMid T P s = .ok s2 ∧ s2.patternIndex ≤ P.length ∧
          s2.textIndex ≤ T.length ∧
          (s2.patternIndex = P.length →
            1 ≤ s2.patternIndex ∧ s2.patternIndex - 1 < t.lps.length) ∧
          (s2.patternIndex ≠ P.length → s2.textIndex < T.length →
            s2.patternIndex < P.length ∧
            (s2.patternIndex ≠ 0 → s2.patternIndex - 1 < t.lps.length)) ∧
          ∃ s1, searchTail T P t.lps s2 = .ok s1 ∧ searchStep T P t.lps s = .ok s1) := by
  have hm : 0 < P.length := List.length_pos.mpr hP
  refine ⟨?_, ?_, ?_⟩
  · intro fuel
    unfold main
    rcases buildLps_total P hP fuel with ⟨t, ht, hinv, hi⟩ | herr
    · rw [ht, ok_bind]
      rcases searchLoop_total T P t.lps (lpsTable_of_inv P t hinv hi) fuel _
        (searchInv_init T P hP) with ⟨r, hr, _⟩ | herr
      · unfold search; rw [hr]; simp [bind, Except.bind, pure, Except.pure]
      · unfold search; rw [herr]; simp [bind, Except.bind]
    · rw [herr]; simp [bind, Except.bind]
  · intro s hs hi
    have hinv := lpsReach_inv P hP s hs
    obtain ⟨s1, hs1, _, _⟩ := lpsStep_inv P s hinv hi
    have hlen := hinv.len
    have hllt := hinv.llt
    exact ⟨hllt, hi, by omega, fun hne => ⟨by omega, by omega⟩, s1, hs1⟩
  · intro fuel t ht s hs hlt
    rcases buildLps_total P hP fuel with ⟨t2, ht2, hinv, hi⟩ | herr
    · rw [ht] at ht2
      have e := Except.ok.inj ht2
      subst e
      have htab := lpsTable_of_inv P t hinv hi
      have hsinv := searchReach_inv T P t.lps htab hP s hs
      obtain ⟨s1, hs1, _, _⟩ := searchStep_inv T P t.lps htab s hsinv hlt
      have hq := hsinv.plt
      have ha : T[s.textIndex]? = some T[s.textIndex] := List.getElem?_eq_getElem hlt
      have hb : P[s.patternIndex]? = some P[s.patternIndex] := List.getElem?_eq_getElem hq
      have hstep := searchStep_eq_mid_tail T P t.lps s
      have hmid : ∃ s2, searchMid T P s = .ok s2 ∧ s2.patternIndex ≤ s.patternIndex + 1 ∧
          s2.textIndex ≤ s.textIndex + 1 := by
        simp only [searchMid, readAt_nat _ _ _ ha, readAt_nat _ _ _ hb, ok_bind]
        by_cases hc : T[s.textIndex] = P[s.patternIndex]
        · rw [if_pos hc]; exact ⟨_, rfl, le_refl _, le_refl _⟩
        · rw [if_neg hc]; exact ⟨_, rfl, by omega, by omega⟩
      obtain ⟨s2, hs2, hp2, ht2⟩ := hmid
      rw [hs2, ok_bind, hs1] at hstep
      have hlen := htab.1
      refine ⟨hq, s2, hs2, by omega, by omega, fun h => ⟨by omega, by omega⟩,
        fun h1 _ => ⟨by omega, fun _ => by omega⟩, s1, hstep.symm, hs1⟩
    · rw [ht] at herr; exact absurd herr (by simp)

theorem accesses_in_range_witness :
    (['a', 'b'] : List Char) ≠ [] ∧
    ((∀ fuel, main ['a', 'b', 'a'] ['a', 'b'] fuel ≠ .error .outOfRange) ∧
    (∀ s, LpsReach ['a', 'b'] s → s.i < (['a', 'b'] : List Char).length →
      s.length < s.i ∧ s.i < (['a', 'b'] : List Char).length ∧ s.i < s.lps.length ∧
      (s.length ≠ 0 → 1 ≤ s.length ∧ s.length - 1 < s.lps.length) ∧
      ∃ s1, lpsStep ['a', 'b'] s = .ok s1) ∧
    (∀ fuel t, buildLps ['a', 'b'] fuel = .ok t →
      ∀ s, SearchReach ['a', 'b', 'a'] ['a', 'b'] t.lps s →
        s.textIndex < (['a', 'b', 'a'] : List Char).length →
        s.patternIndex < (['a', 'b'] : List Char).length ∧
        ∃ s2, searchMid ['a', 'b', 'a'] ['a', 'b'] s = .ok s2 ∧
          s2.patternIndex ≤ (['a', 'b'] : List Char).length ∧
          s2.textIndex ≤ (['a', 'b', 'a'] : List Char).length ∧
          (s2.patternIndex = (['a', 'b'] : List Char).length →
            1 ≤ s2.patternIndex ∧ s2.patternIndex - 1 < t.lps.length) ∧
          (s2.patternIndex ≠ (['a', 'b'] : List Char).length →
            s2.textIndex < (['a', 'b', 'a'] : List Char).length →
            s2.patternIndex < (['a', 'b'] : List Char).length ∧
            (s2.patternIndex ≠ 0 → s2.patternIndex - 1 < t.lps.length)) ∧
          ∃ s1, searchTail ['a', 'b', 'a'] ['a', 'b'] t.lps s2 = .ok s1 ∧
            searchStep ['a', 'b', 'a'] ['a', 'b'] t.lps s = .ok s1)) :=
  ⟨by decide, accesses_in_range ['a', 'b', 'a'] ['a', 'b'] (by decide)⟩

end KMP

namespace MIS
open Forest

theorem dfs_succ (adj : Adj) (fuel u p : Nat) (dp : Dp) (hu : u < MAXN) :
    dfs adj (fuel + 1) u p dp = (adj u).foldlM (visit adj fuel u p) (setDp dp u (0, 1)) := by
  have : ¬ (MAXN ≤ u) := by omega
  simp only [dfs, if_neg this]
  rfl

theorem setDp_same (dp : Dp) (u : Nat) (v : Nat × Nat) : setDp dp u v u = v := by
  simp [setDp]

theorem setDp_other (dp : Dp) (u x : Nat) (v : Nat × Nat) (h : x ≠ u) :
    setDp dp u v x = dp x := by
  simp [setDp, h]

theorem roots_eq_nil {f : Forest} (h : roots f = []) : f = Forest.nil := by
  cases f with
  | nil => rfl
  | cons u cs sib => simp [roots] at h

theorem roots_eq_cons {f : Forest} {v : Nat} {l : List Nat} (h : roots f = v :: l) :
    ∃ cs sib, f = Forest.cons v cs sib ∧ roots sib = l := by
  cases f with
  | nil => simp [roots] at h
  | cons u cs sib =>
    simp only [roots, List.cons.injEq] at h
    exact ⟨cs, sib, by rw [h.1], h.2⟩

theorem fold_visit (adj : Adj) (fuel : Nat) (ih : DfsOk adj fuel) (u p : Nat) :
    ∀ (l : List Nat) (f : Forest) (dp : Dp),
      l.filter (fun v => decide (v ≠ p)) = roots f → Shape adj u f →
      (u :: ids f).Nodup → (∀ x, x ∈ ids f → x < MAXN) → height f ≤ fuel →
      ∃ dp1, l.foldlM (visit adj fuel u p) dp = .ok dp1 ∧
        dp1 u = ((dp u).1 + (sums f).2, (dp u).2 + (sums f).1) ∧
        (∀ x, x ≠ u → x ∉ ids f → dp1 x = dp x) ∧
        (∀ x, x ∈ ids f → dp1 x = val f x) := by
  intro l
  induction l with
  | nil =>
    intro f dp hr _ _ _ _
    have hf : f = Forest.nil := roots_eq_nil (by simpa using hr.symm)
    subst hf
    exact ⟨dp, rfl, by simp [sums], fun _ _ _ => rfl, fun x hx => by simp [ids] at hx⟩
  | cons v l ihl =>
    intro f dp hr hs hnd hlt hh
    by_cases hvp : v = p
    · -- the parent is skipped
      have hr2 : l.filter (fun v => decide (v ≠ p)) = roots f := by
        rw [← hr, List.filter_cons_of_neg (by simpa using hvp)]
      obtain ⟨dp1, h1, h2, h3, h4⟩ := ihl f dp hr2 hs hnd hlt hh
      refine ⟨dp1, ?_, h2, h3, h4⟩
      rw [List.foldlM_cons]
      simp only [visit, if_pos hvp, pure_eq_ok, ok_bind]
      exact h1
    · -- a child: recurse, then accumulate
      have hr2 : v :: l.filter (fun v => decide (v ≠ p)) = roots f := by
        rw [← hr, List.filter_cons_of_pos (by simpa using hvp)]
      obtain ⟨cs, sib, hf, hsib⟩ := roots_eq_cons hr2.symm
      subst hf
      obtain ⟨hs1, hs2, hs3⟩ := hs
      simp only [ids, List.nodup_cons, List.mem_cons, List.mem_append, not_or,
        List.nodup_append] at hnd
      obtain ⟨⟨huv, hucs, husib⟩, ⟨hvcs, hvsib⟩, hndcs, hndsib, hdisj⟩ := hnd
      have hhcs : height cs + 1 ≤ fuel := le_trans (le_max_left _ _) hh
      have hhsib : height sib ≤ fuel := le_trans (le_max_right _ _) hh
      obtain ⟨dp1, hd1, hd2, hd3⟩ := ih v u cs dp ⟨hs1, hs2, trivial⟩
        (by simp only [ids, List.append_nil, List.nodup_cons]; exact ⟨hvcs, hndcs⟩)
        (fun x hx => hlt x (by
          simp only [ids, List.append_nil, List.mem_cons] at hx
          simp only [ids, List.mem_cons, List.mem_append]
          rcases hx with h | h
          · exact Or.inl h
          · exact Or.inr (Or.inl h)))
        (by simp only [height]; omega)
      have hdu : dp1 u = dp u := hd2 u (by
        simp only [ids, List.append_nil, List.mem_cons, not_or]; exact ⟨huv, hucs⟩)
      have hdv : dp1 v = ((sums cs).2, (sums cs).1 + 1) := by
        rw [hd3 v (by simp [ids])]; simp [val]
      have hvu : v ≠ u := fun e => huv e.symm
      obtain ⟨dp4, h1, h2, h3, h4⟩ := ihl sib
        (setDp (setDp dp1 u ((dp1 u).1, (dp1 u).2 + (dp1 v).1)) u
          ((setDp dp1 u ((dp1 u).1, (dp1 u).2 + (dp1 v).1) u).1 +
              max (setDp dp1 u ((dp1 u).1, (dp1 u).2 + (dp1 v).1) v).1
                (setDp dp1 u ((dp1 u).1, (dp1 u).2 + (dp1 v).1) v).2,
            (setDp dp1 u ((dp1 u).1, (dp1 u).2 + (dp1 v).1) u).2))
        hsib.symm hs3
        (by simp only [List.nodup_cons]; exact ⟨husib, hndsib⟩)
        (fun x hx => hlt x (by simp only [ids, List.mem_cons, List.mem_append]; tauto))
        hhsib
      refine ⟨dp4, ?_, ?_, ?_, ?_⟩
      · rw [List.foldlM_cons]
        simp only [visit, if_neg hvp, hd1, pure_eq_ok, ok_bind]
        exact h1
      · rw [h2]
        simp only [setDp_same, setDp_other _ _ _ _ hvu, hdu, hdv, sums]
        ext <;> simp only <;> omega
      · intro x hxu hx
        simp only [ids, List.mem_cons, List.mem_append, not_or] at hx
        rw [h3 x hxu hx.2.2, setDp_other _ _ _ _ hxu, setDp_other _ _ _ _ hxu]
        exact hd2 x (by
          simp only [ids, List.append_nil, List.mem_cons, not_or]; exact ⟨hx.1, hx.2.1⟩)
      · intro x hx
        simp only [ids, List.mem_cons, List.mem_append] at hx
        by_cases hxs : x ∈ ids sib
        · have hxv : x ≠ v := fun e => hvsib (e ▸ hxs)
          have hxc : x ∉ ids cs := fun hc => hdisj hc hxs
          rw [h4 x hxs]
          simp only [val, if_neg hxv, if_neg hxc]
        · have hx2 : x = v ∨ x ∈ ids cs := by tauto
          have hxu : x ≠ u := by
            rcases hx2 with h | h
            · rw [h]; exact hvu
            · exact fun e => hucs (e ▸ h)
          rw [h3 x hxu hxs, setDp_other _ _ _ _ hxu, setDp_other _ _ _ _ hxu,
            hd3 x (by simp only [ids, List.append_nil, List.mem_cons]; exact hx2)]
          rcases hx2 with h | h
          · subst h; simp only [val, if_true]
          · have hxv : x ≠ v := fun e => hvcs (e ▸ h)
            simp only [val, if_neg hxv, if_pos h]

/-- With fuel at least the height of the tree, `dfs(u, p)` on the tree below
`u` succeeds, leaves the recurrence values at the nodes of the tree and
touches no other row of `dp`. -/
theorem dfs_tree (adj : Adj) : ∀ fuel : Nat, DfsOk adj fuel := by
  intro fuel
  induction fuel with
  | zero =>
    intro u p cs dp _ _ _ hh
    simp only [height] at hh
    omega
  | succ fuel ih =>
    intro u p cs dp hs hnd hlt hh
    obtain ⟨hs1, hs2, _⟩ := hs
    have hu : u < MAXN := hlt u (by simp [ids])
    simp only [ids, List.append_nil] at hnd hlt ⊢
    have hh2 : height cs ≤ fuel := by
      simp only [height] at hh; omega
    obtain ⟨dp1, h1, h2, h3, h4⟩ := fold_visit adj fuel ih u p (adj u) cs
      (setDp dp u (0, 1)) hs1 hs2 hnd
      (fun x hx => hlt x (List.mem_cons_of_mem _ hx)) hh2
    refine ⟨dp1, ?_, ?_, ?_⟩
    · rw [dfs_succ adj fuel u p dp hu]; exact h1
    · intro x hx
      simp only [List.mem_cons, not_or] at hx
      rw [h3 x hx.1 hx.2, setDp_other _ _ _ _ hx.1]
    · intro x hx
      simp only [List.mem_cons] at hx
      by_cases hxu : x = u
      · subst hxu
        rw [h2, setDp_same]
        simp only [val, if_true]
        ext <;> simp only <;> omega
      · have hxc : x ∈ ids cs := by tauto
        rw [h4 x hxc]
        simp only [val, if_neg hxu, if_pos hxc]

theorem buildAdj_ok : ∀ (E : List (Nat × Nat)) (adj : Adj),
    (∀ e, e ∈ E → e.1 < MAXN ∧ e.2 < MAXN) →
    buildAdj E adj = .ok (fun x => adj x ++ adjOf E x) := by
  intro E
  induction E with
  | nil => intro adj _; simp [buildAdj, adjOf]
  | cons e E ih =>
    intro adj h
    obtain ⟨u, v⟩ := e
    have hu := (h (u, v) (List.mem_cons_self _ _)).1
    have hv := (h (u, v) (List.mem_cons_self _ _)).2
    simp only at hu hv
    have h1 : ¬ (MAXN ≤ u) := by omega
    have h2 : ¬ (MAXN ≤ v) := by omega
    simp only [buildAdj, if_neg h1, if_neg h2]
    rw [ih _ (fun e he => h e (List.mem_cons_of_mem _ he))]
    congr 1
    funext x
    simp only [pushBack, adjOf]
    by_cases hxu : x = u
    · subst hxu
      by_cases hxv : x = v
      · subst hxv; simp
      · simp [hxv]
    · by_cases hxv : x = v
      · subst hxv; simp [hxu]
      · simp [hxu, hxv]

theorem buildAdj_fault : ∀ (E : List (Nat × Nat)) (adj : Adj),
    (∃ e, e ∈ E ∧ (MAXN ≤ e.1 ∨ MAXN ≤ e.2)) →
    buildAdj E adj = .error .outOfRange := by
  intro E
  induction E with
  | nil => intro adj h; obtain ⟨e, he, _⟩ := h; simp at he
  | cons e E ih =>
    intro adj h
    obtain ⟨u, v⟩ := e
    simp only [buildAdj]
    by_cases h1 : MAXN ≤ u
    · rw [if_pos h1]
    · rw [if_neg h1]
      by_cases h2 : MAXN ≤ v
      · rw [if_pos h2]
      · rw [if_neg h2]
        apply ih
        obtain ⟨e, he, hbad⟩ := h
        rcases List.mem_cons.mp he with heq | hmem
        · subst heq; simp only at hbad; tauto
        · exact ⟨e, hmem, hbad⟩

theorem mem_adjOf (E : List (Nat × Nat)) (a b : Nat) :
    b ∈ adjOf E a ↔ Adjacent E a b := by
  induction E with
  | nil => simp [adjOf, Adjacent]
  | cons e E ih =>
    obtain ⟨u, v⟩ := e
    simp only [adjOf, List.mem_append, ih, Adjacent, List.mem_cons, Prod.mk.injEq]
    by_cases hau : a = u <;> by_cases hav : a = v <;> simp [hau, hav] <;> tauto

theorem adjOf_append (E1 E2 : List (Nat × Nat)) (x : Nat) :
    adjOf (E1 ++ E2) x = adjOf E1 x ++ adjOf E2 x := by
  induction E1 with
  | nil => simp [adjOf]
  | cons e E ih =>
    obtain ⟨u, v⟩ := e
    rw [List.cons_append]
    simp only [adjOf, ih, List.append_assoc]

theorem roots_subset_ids : ∀ (f : Forest) (x : Nat), x ∈ roots f → x ∈ ids f := by
  intro f
  induction f with
  | nil => intro x hx; simp [roots] at hx
  | cons u cs sib _ ih2 =>
    intro x hx
    simp only [roots, List.mem_cons] at hx
    simp only [ids, List.mem_cons, List.mem_append]
    rcases hx with h | h
    · exact Or.inl h
    · exact Or.inr (Or.inr (ih2 x h))

theorem edges_subset_ids : ∀ (f : Forest) (a b : Nat), (a, b) ∈ edges f →
    a ∈ ids f ∧ b ∈ ids f := by
  intro f
  induction f with
  | nil => intro a b h; simp [edges] at h
  | cons u cs sib ih1 ih2 =>
    intro a b h
    simp only [edges, List.mem_append, List.mem_map, Prod.mk.injEq] at h
    simp only [ids, List.mem_cons, List.mem_append]
    rcases h with ⟨c, hc, h1, h2⟩ | h | h
    · subst h1; subst h2
      exact ⟨Or.inl rfl, Or.inr (Or.inl (roots_subset_ids cs c hc))⟩
    · have := ih1 a b h; tauto
    · have := ih2 a b h; tauto

/-- No independent set has more nodes in a forest than the recurrence says. -/
theorem forest_upper (S : List Nat) : ∀ f : Forest,
    (∀ a b, (a, b) ∈ edges f → ¬ (a ∈ S ∧ b ∈ S)) →
    cnt S (ids f) ≤ (sums f).2 ∧
      ((∀ x, x ∈ roots f → x ∉ S) → cnt S (ids f) ≤ (sums f).1) := by
  intro f
  induction f with
  | nil => intro _; simp [cnt, ids, sums]
  | cons u cs sib ih1 ih2 =>
    intro h
    have hcs := ih1 (fun a b hab => h a b (by simp only [edges, List.mem_append]; tauto))
    have hsib := ih2 (fun a b hab => h a b (by simp only [edges, List.mem_append]; tauto))
    have hc : cnt S (ids (Forest.cons u cs sib))
        = (if u ∈ S then 1 else 0) + (cnt S (ids cs) + cnt S (ids sib)) := by
      simp only [cnt, ids, List.countP_cons, List.countP_append, decide_eq_true_eq]
      omega
    rw [hc]
    simp only [sums]
    constructor
    · by_cases hu : u ∈ S
      · have hr : ∀ x, x ∈ roots cs → x ∉ S := by
          intro x hx hxs
          exact h u x (by
            simp only [edges, List.mem_append, List.mem_map]
            exact Or.inl ⟨x, hx, rfl⟩) ⟨hu, hxs⟩
        have := hcs.2 hr
        have := hsib.1
        rw [if_pos hu]; omega
      · have := hcs.1
        have := hsib.1
        rw [if_neg hu]; omega
    · intro hr
      have hu : u ∉ S := hr u (by simp [roots])
      have := hcs.1
      have := hsib.2 (fun x hx => hr x (by simp only [roots, List.mem_cons]; exact Or.inr hx))
      rw [if_neg hu]; omega

/-- The sets of `sets` attain the sums of the recurrence and are independent
in the forest. -/
theorem sets_spec : ∀ f : Forest, (ids f).Nodup →
    ((sets f).1.length = (sums f).1 ∧ (sets f).2.length = (sums f).2) ∧
    (∀ x, x ∈ (sets f).1 → x ∈ ids f ∧ x ∉ roots f) ∧
    (∀ x, x ∈ (sets f).2 → x ∈ ids f) ∧
    ((sets f).1.Nodup ∧ (sets f).2.Nodup) ∧
    (∀ a b, (a, b) ∈ edges f → ¬ (a ∈ (sets f).1 ∧ b ∈ (sets f).1)) ∧
    (∀ a b, (a, b) ∈ edges f → ¬ (a ∈ (sets f).2 ∧ b ∈ (sets f).2)) := by
  intro f
  induction f with
  | nil =>
    intro _
    simp [sets, sums, ids, edges]
  | cons u cs sib ih1 ih2 =>
    intro hnd
    simp only [ids, List.nodup_cons, List.mem_append, not_or, List.nodup_append] at hnd
    obtain ⟨⟨hucs, husib⟩, hndcs, hndsib, hdisj⟩ := hnd
    obtain ⟨⟨c1, c2⟩, c3, c4, ⟨c5, c6⟩, c7, c8⟩ := ih1 hndcs
    obtain ⟨⟨s1, s2⟩, s3, s4, ⟨s5, s6⟩, s7, s8⟩ := ih2 hndsib
    have hd : ∀ x, x ∈ ids cs → x ∈ ids sib → False := fun x h1 h2 => hdisj h1 h2
    -- membership in the two new sets
    have hX : ∀ x, x ∈ (sets (Forest.cons u cs sib)).1 ↔
        x ∈ (sets cs).2 ∨ x ∈ (sets sib).1 := by
      intro x; simp only [sets, List.mem_append]
    have hY : ∀ x, x ∈ (sets (Forest.cons u cs sib)).2 →
        (x = u ∧ ¬ ((sums cs).1 + 1 ≤ (sums cs).2)) ∨
        (x ∈ (sets cs).2 ∧ (sums cs).1 + 1 ≤ (sums cs).2) ∨
        (x ∈ (sets cs).1 ∧ ¬ ((sums cs).1 + 1 ≤ (sums cs).2)) ∨ x ∈ (sets sib).2 := by
      intro x hx
      simp only [sets, List.mem_append] at hx
      by_cases hc : (sums cs).1 + 1 ≤ (sums cs).2
      · rw [if_pos hc] at hx; tauto
      · rw [if_neg hc, List.mem_cons] at hx; tauto
    have hE : ∀ a b, (a, b) ∈ edges (Forest.cons u cs sib) →
        (a = u ∧ b ∈ roots cs) ∨ (a, b) ∈ edges cs ∨ (a, b) ∈ edges sib := by
      intro a b h
      simp only [edges, List.mem_append, List.mem_map, Prod.mk.injEq] at h
      rcases h with ⟨c, hc, h1, h2⟩ | h | h
      · subst h1; subst h2; exact Or.inl ⟨rfl, hc⟩
      · exact Or.inr (Or.inl h)
      · exact Or.inr (Or.inr h)
    refine ⟨⟨?_, ?_⟩, ?_, ?_, ⟨?_, ?_⟩, ?_, ?_⟩
    · simp only [sets, sums, List.length_append, c2, s1]
    · simp only [sets, sums, List.length_append, s2]
      by_cases hc : (sums cs).1 + 1 ≤ (sums cs).2
      · rw [if_pos hc, c2]; omega
      · rw [if_neg hc, List.length_cons, c1]; omega
    · intro x hx
      simp only [ids, roots, List.mem_cons, List.mem_append, not_or]
      rcases (hX x).mp hx with h | h
      · have h1 := c4 x h
        exact ⟨Or.inr (Or.inl h1), fun e => hucs (e ▸ h1),
          fun hr => hd x h1 (roots_subset_ids sib x hr)⟩
      · have h1 := s3 x h
        exact ⟨Or.inr (Or.inr h1.1), fun e => husib (e ▸ h1.1), h1.2⟩
    · intro x hx
      simp only [ids, List.mem_cons, List.mem_append]
      rcases hY x hx with h | h | h | h
      · exact Or.inl h.1
      · exact Or.inr (Or.inl (c4 x h.1))
      · exact Or.inr (Or.inl (c3 x h.1).1)
      · exact Or.inr (Or.inr (s4 x h))
    · simp only [sets, List.nodup_append]
      exact ⟨c6, s5, fun x h1 h2 => hd x (c4 x h1) (s3 x h2).1⟩
    · simp only [sets, List.nodup_append]
      by_cases hc : (sums cs).1 + 1 ≤ (sums cs).2
      · rw [if_pos hc]
        exact ⟨c6, s6, fun x h1 h2 => hd x (c4 x h1) (s4 x h2)⟩
      · rw [if_neg hc]
        refine ⟨List.nodup_cons.mpr ⟨fun h => hucs (c3 u h).1, c5⟩, s6, fun x h1 h2 => ?_⟩
        rcases List.mem_cons.mp h1 with h | h
        · exact husib (h ▸ s4 x h2)
        · exact hd x (c3 x h).1 (s4 x h2)
    · intro a b hab hboth
      have ha := (hX a).mp hboth.1
      have hb := (hX b).mp hboth.2
      rcases hE a b hab with ⟨h1, _⟩ | h | h
      · subst h1
        rcases ha with h | h
        · exact hucs (c4 _ h)
        · exact husib (s3 _ h).1
      · have hi := edges_subset_ids cs a b h
        have ha2 : a ∈ (sets cs).2 := by
          rcases ha with h1 | h1
          · exact h1
          · exact absurd (s3 a h1).1 (fun h2 => hd a hi.1 h2)
        have hb2 : b ∈ (sets cs).2 := by
          rcases hb with h1 | h1
          · exact h1
          · exact absurd (s3 b h1).1 (fun h2 => hd b hi.2 h2)
        exact c8 a b h ⟨ha2, hb2⟩
      · have hi := edges_subset_ids sib a b h
        have ha2 : a ∈ (sets sib).1 := by
          rcases ha with h1 | h1
          · exact absurd hi.1 (fun h2 => hd a (c4 a h1) h2)
          · exact h1
        have hb2 : b ∈ (sets sib).1 := by
          rcases hb with h1 | h1
          · exact absurd hi.2 (fun h2 => hd b (c4 b h1) h2)
          · exact h1
        exact s7 a b h ⟨ha2, hb2⟩
    · intro a b hab hboth
      have ha := hY a hboth.1
      have hb := hY b hboth.2
      rcases hE a b hab with ⟨h1, h2⟩ | h | h
      · -- the edge from `u` to a child
        have hbi : b ∈ ids cs := roots_subset_ids cs b h2
        have hbu : b ≠ u := fun e => hucs (e ▸ hbi)
        subst h1
        rcases ha with h | h | h | h
        · rcases hb with h3 | h3 | h3 | h3
          · exact hbu h3.1
          · exact h.2 h3.2
          · exact (c3 b h3.1).2 h2
          · exact hd b hbi (s4 b h3)
        · exact hucs (c4 _ h.1)
        · exact hucs (c3 _ h.1).1
        · exact husib (s4 _ h)
      · have hi := edges_subset_ids cs a b h
        have hau : a ≠ u := fun e => hucs (e ▸ hi.1)
        have hbu : b ≠ u := fun e => hucs (e ▸ hi.2)
        rcases ha with h3 | h3 | h3 | h3
        · exact hau h3.1
        · rcases hb with h4 | h4 | h4 | h4
          · exact hbu h4.1
          · exact c8 a b h ⟨h3.1, h4.1⟩
          · exact h4.2 h3.2
          · exact hd b hi.2 (s4 b h4)
        · rcases hb with h4 | h4 | h4 | h4
          · exact hbu h4.1
          · exact h3.2 h4.2
          · exact c7 a b h ⟨h3.1, h4.1⟩
          · exact hd b hi.2 (s4 b h4)
        · exact hd a hi.1 (s4 a h3)
      · have hi := edges_subset_ids sib a b h
        have hau : a ≠ u := fun e => husib (e ▸ hi.1)
        have hbu : b ≠ u := fun e => husib (e ▸ hi.2)
        have ha2 : a ∈ (sets sib).2 := by
          rcases ha with h3 | h3 | h3 | h3
          · exact absurd h3.1 hau
          · exact absurd hi.1 (fun h2 => hd a (c4 a h3.1) h2)
          · exact absurd hi.1 (fun h2 => hd a (c3 a h3.1).1 h2)
          · exact h3
        have hb2 : b ∈ (sets sib).2 := by
          rcases hb with h3 | h3 | h3 | h3
          · exact absurd h3.1 hbu
          · exact absurd hi.2 (fun h2 => hd b (c4 b h3.1) h2)
          · exact absurd hi.2 (fun h2 => hd b (c3 b h3.1).1 h2)
          · exact h3
        exact s8 a b h ⟨ha2, hb2⟩

theorem roots_insertAt (v : Nat) : ∀ (k : Nat) (f : Forest), k ≤ (roots f).length →
    roots (insertAt v k f) = (roots f).take k ++ v :: (roots f).drop k := by
  intro k
  induction k with
  | zero => intro f _; simp [insertAt, roots]
  | succ k ih =>
    intro f hk
    cases f with
    | nil => simp [roots] at hk
    | cons u cs sib =>
      simp only [roots, List.length_cons] at hk
      simp only [insertAt, roots, List.take_succ_cons, List.drop_succ_cons, List.cons_append]
      rw [ih sib (by omega)]

theorem ids_insertAt (v : Nat) : ∀ (k : Nat) (f : Forest),
    (ids (insertAt v k f)).Perm (v :: ids f) := by
  intro k
  induction k with
  | zero => intro f; simp [insertAt, ids]
  | succ k ih =>
    intro f
    cases f with
    | nil => simp [insertAt, ids]
    | cons u cs sib =>
      simp only [insertAt, ids]
      have h1 : (u :: (ids cs ++ ids (insertAt v k sib))).Perm
          (u :: (ids cs ++ v :: ids sib)) :=
        List.Perm.cons _ (List.Perm.append_left _ (ih sib))
      refine h1.trans ?_
      refine (List.Perm.cons _ List.perm_middle).trans ?_
      exact List.Perm.swap _ _ _

theorem edges_insertAt (v : Nat) : ∀ (k : Nat) (f : Forest),
    edges (insertAt v k f) = edges f := by
  intro k
  induction k with
  | zero => intro f; simp [insertAt, edges, roots]
  | succ k ih =>
    intro f
    cases f with
    | nil => simp [insertAt, edges, roots]
    | cons u cs sib => simp only [insertAt, edges, ih sib]

theorem shape_insertAt (adj : Adj) (v p : Nat)
    (hv : (adj v).filter (fun x => decide (x ≠ p)) = []) :
    ∀ (k : Nat) (f : Forest), Shape adj p f → Shape adj p (insertAt v k f) := by
  intro k
  induction k with
  | zero => intro f hf; exact ⟨by simpa [roots] using hv, trivial, hf⟩
  | succ k ih =>
    intro f hf
    cases f with
    | nil => exact ⟨by simpa [roots] using hv, trivial, trivial⟩
    | cons u cs sib => exact ⟨hf.1, hf.2.1, ih sib hf.2.2⟩

theorem roots_insertLeaf (w v : Nat) (pos : Nat → Nat) : ∀ (f : Forest) (p : Nat),
    roots (insertLeaf w v pos p f) = roots f := by
  intro f
  induction f with
  | nil => intro p; rfl
  | cons u cs sib _ ih2 => intro p; simp only [insertLeaf, roots, ih2 p]

theorem insertLeaf_absent (w v : Nat) (pos : Nat → Nat) : ∀ (f : Forest) (p : Nat),
    w ∉ ids f → insertLeaf w v pos p f = f := by
  intro f
  induction f with
  | nil => intro p _; rfl
  | cons u cs sib ih1 ih2 =>
    intro p hw
    simp only [ids, List.mem_cons, List.mem_append, not_or] at hw
    have huw : ¬ (u = w) := fun e => hw.1 e.symm
    simp only [insertLeaf, if_neg huw, ih1 u hw.2.1, ih2 p hw.2.2]

theorem ids_insertLeaf (w v : Nat) (pos : Nat → Nat) : ∀ (f : Forest) (p : Nat),
    w ∈ ids f → (ids f).Nodup → (ids (insertLeaf w v pos p f)).Perm (v :: ids f) := by
  intro f
  induction f with
  | nil => intro p hw; simp [ids] at hw
  | cons u cs sib ih1 ih2 =>
    intro p hw hnd
    simp only [ids, List.nodup_cons, List.mem_append, not_or, List.nodup_append] at hnd
    obtain ⟨⟨hucs, husib⟩, hndcs, hndsib, hdisj⟩ := hnd
    simp only [ids, List.mem_cons, List.mem_append] at hw
    simp only [insertLeaf, ids]
    by_cases huw : u = w
    · -- the leaf goes below `u`
      have hws : w ∉ ids sib := fun h => husib (huw ▸ h)
      rw [if_pos huw, insertLeaf_absent w v pos sib p hws]
      have h1 : (u :: (ids (insertAt v (pos p) cs) ++ ids sib)).Perm
          (u :: ((v :: ids cs) ++ ids sib)) :=
        List.Perm.cons _ (List.Perm.append_right _ (ids_insertAt v (pos p) cs))
      exact h1.trans (List.Perm.swap _ _ _)
    · rw [if_neg huw]
      have hwu : ¬ (w = u) := fun e => huw e.symm
      by_cases hwc : w ∈ ids cs
      · have hws : w ∉ ids sib := fun h => hdisj hwc h
        rw [insertLeaf_absent w v pos sib p hws]
        have h1 : (u :: (ids (insertLeaf w v pos u cs) ++ ids sib)).Perm
            (u :: ((v :: ids cs) ++ ids sib)) :=
          List.Perm.cons _ (List.Perm.append_right _ (ih1 u hwc hndcs))
        exact h1.trans (List.Perm.swap _ _ _)
      · have hws : w ∈ ids sib := by tauto
        rw [insertLeaf_absent w v pos cs u hwc]
        have h1 : (u :: (ids cs ++ ids (insertLeaf w v pos p sib))).Perm
            (u :: (ids cs ++ v :: ids sib)) :=
          List.Perm.cons _ (List.Perm.append_left _ (ih2 p hws hndsib))
        refine h1.trans ?_
        refine (List.Perm.cons _ List.perm_middle).trans ?_
        exact List.Perm.swap _ _ _

theorem mem_roots_insertAt (v x : Nat) : ∀ (k : Nat) (f : Forest),
    x ∈ roots (insertAt v k f) ↔ x = v ∨ x ∈ roots f := by
  intro k
  induction k with
  | zero => intro f; simp [insertAt, roots]
  | succ k ih =>
    intro f
    cases f with
    | nil => simp [insertAt, roots]
    | cons u cs sib =>
      simp only [insertAt, roots, List.mem_cons, ih sib]
      tauto

theorem mem_edges_insertLeaf (w v : Nat) (pos : Nat → Nat) (a b : Nat) :
    ∀ (f : Forest) (p : Nat),
      (a, b) ∈ edges (insertLeaf w v pos p f) ↔
        (w ∈ ids f ∧ (a, b) = (w, v)) ∨ (a, b) ∈ edges f := by
  intro f
  induction f with
  | nil => intro p; simp [insertLeaf, edges, ids]
  | cons u cs sib ih1 ih2 =>
    intro p
    by_cases huw : u = w
    · subst huw
      simp only [insertLeaf, if_true, edges, List.mem_append, List.mem_map, Prod.mk.injEq,
        mem_roots_insertAt, edges_insertAt, ih2 p, ids, List.mem_cons, true_or, true_and]
      constructor
      · rintro (⟨c, (hc | hc), h1, h2⟩ | h | ⟨_, h⟩ | h)
        · subst hc; exact Or.inl ⟨h1.symm, h2.symm⟩
        · exact Or.inr (Or.inl ⟨c, hc, h1, h2⟩)
        · exact Or.inr (Or.inr (Or.inl h))
        · exact Or.inl h
        · exact Or.inr (Or.inr (Or.inr h))
      · rintro (⟨h1, h2⟩ | ⟨c, hc, h1, h2⟩ | h | h)
        · exact Or.inl ⟨v, Or.inl rfl, h1.symm, h2.symm⟩
        · exact Or.inl ⟨c, Or.inr hc, h1, h2⟩
        · exact Or.inr (Or.inl h)
        · exact Or.inr (Or.inr (Or.inr h))
    · have hwu : ¬ (w = u) := fun e => huw e.symm
      simp only [insertLeaf, if_neg huw, edges, List.mem_append, List.mem_map, Prod.mk.injEq,
        roots_insertLeaf, ih1 u, ih2 p, ids, List.mem_cons, hwu, false_or]
      have key : ∀ (A B C D E F : Prop),
          (A ∨ ((B ∧ F) ∨ C) ∨ ((D ∧ F) ∨ E)) ↔ (((B ∨ D) ∧ F) ∨ A ∨ C ∨ E) := by
        intros; tauto
      exact key _ _ _ _ _ _

theorem shape_insertLeaf (adj0 adj : Adj) (w v : Nat) (l1 l2 : List Nat)
    (hw0 : adj0 w = l1 ++ l2) (hw : adj w = l1 ++ v :: l2) (hv : adj v = [w])
    (hother : ∀ x, x ≠ w → x ≠ v → adj x = adj0 x) (hwv : w ≠ v) :
    ∀ (f : Forest) (p : Nat), Shape adj0 p f → (ids f).Nodup → v ∉ ids f → p ≠ v →
      Shape adj p
        (insertLeaf w v (fun q => (l1.filter (fun x => decide (x ≠ q))).length) p f) := by
  intro f
  induction f with
  | nil => intro p _ _ _ _; trivial
  | cons u cs sib ih1 ih2 =>
    intro p hs hnd hvf hpv
    obtain ⟨h1, h2, h3⟩ := hs
    simp only [ids, List.nodup_cons, List.mem_append, not_or, List.nodup_append] at hnd
    obtain ⟨⟨hucs, husib⟩, hndcs, hndsib, _⟩ := hnd
    simp only [ids, List.mem_cons, List.mem_append, not_or] at hvf
    obtain ⟨hvu, hvcs, hvsib⟩ := hvf
    have huv : u ≠ v := fun e => hvu e.symm
    have hcs := ih1 u h2 hndcs hvcs huv
    have hsib := ih2 p h3 hndsib hvsib hpv
    by_cases huw : u = w
    · subst huw
      rw [insertLeaf_absent _ _ _ cs _ hucs] at hcs
      simp only [insertLeaf, if_true]
      refine ⟨?_, ?_, hsib⟩
      · have hvp : v ≠ p := fun e => hpv e.symm
        rw [hw0, List.filter_append] at h1
        rw [hw, List.filter_append, List.filter_cons_of_pos (by simpa using hvp),
          roots_insertAt _ _ _ (by rw [← h1, List.length_append]; omega), ← h1,
          List.take_left', List.drop_left']
        · rfl
        · rfl
      · apply shape_insertAt _ _ _ _ _ _ hcs
        rw [hv]
        simp
    · simp only [insertLeaf, if_neg huw]
      refine ⟨?_, hcs, hsib⟩
      rw [hother u huw huv, roots_insertLeaf]
      exact h1

theorem height_le_length : ∀ f : Forest, height f ≤ (ids f).length := by
  intro f
  induction f with
  | nil => simp [height]
  | cons u cs sib ih1 ih2 =>
    simp only [height, ids, List.length_cons, List.length_append]
    omega

theorem length_adjOf_cons (u v : Nat) (E : List (Nat × Nat)) (x : Nat) :
    (adjOf ((u, v) :: E) x).length
      = (if x = u then 1 else 0) + (if x = v then 1 else 0) + (adjOf E x).length := by
  simp only [adjOf, List.length_append]
  have e1 : (if x = u then [v] else []).length = if x = u then 1 else 0 := by
    split <;> rfl
  have e2 : (if x = v then [u] else []).length = if x = v then 1 else 0 := by
    split <;> rfl
  rw [e1, e2]; omega

/-- The handshake lemma for an edge list with endpoints in `V`. -/
theorem degree_sum (V : Finset Nat) : ∀ E : List (Nat × Nat),
    (∀ e, e ∈ E → e.1 ∈ V ∧ e.2 ∈ V) →
    ∑ x in V, (adjOf E x).length = 2 * E.length := by
  intro E
  induction E with
  | nil => intro _; simp [adjOf]
  | cons e E ih =>
    intro h
    obtain ⟨u, v⟩ := e
    have hu := (h (u, v) (List.mem_cons_self _ _)).1
    have hv := (h (u, v) (List.mem_cons_self _ _)).2
    simp only at hu hv
    simp only [length_adjOf_cons, Finset.sum_add_distrib, Finset.sum_ite_eq', hu, hv, if_true,
      ih (fun e he => h e (List.mem_cons_of_mem _ he)), List.length_cons]
    omega

theorem adjacent_symm {E : List (Nat × Nat)} {a b : Nat} (h : Adjacent E a b) :
    Adjacent E b a := Or.symm h

/-- In a tree with at least two nodes every node has a neighbour. -/
theorem degree_pos (V : Finset Nat) (E : List (Nat × Nat)) (r : Nat) (h : TreeOn V E r)
    (hc : 2 ≤ V.card) : ∀ x, x ∈ V → 1 ≤ (adjOf E x).length := by
  obtain ⟨hr, _, _, hconn⟩ := h
  have hne : ∀ a b, Adjacent E a b → 1 ≤ (adjOf E a).length := by
    intro a b hab
    exact List.length_pos_of_mem ((mem_adjOf E a b).mpr hab)
  intro x hx
  by_cases hxr : x = r
  · -- the root: some other node is reached from it
    subst hxr
    obtain ⟨y, hy, hyx⟩ : ∃ y, y ∈ V ∧ y ≠ x := by
      by_contra hcon
      push_neg at hcon
      have : V ⊆ {x} := fun y hy => Finset.mem_singleton.mpr (hcon y hy)
      have := Finset.card_le_card this
      simp at this
      omega
    rcases Relation.ReflTransGen.cases_head (hconn y hy) with h | ⟨z, hz, _⟩
    · exact absurd h.symm hyx
    · exact hne x z hz
  · rcases Relation.ReflTransGen.cases_tail (hconn x hx) with h | ⟨z, _, hz⟩
    · exact absurd h hxr
    · exact hne x z (adjacent_symm hz)

/-- A tree with at least two nodes has a leaf other than the root. -/
theorem exists_leaf (V : Finset Nat) (E : List (Nat × Nat)) (r : Nat) (h : TreeOn V E r)
    (hc : 2 ≤ V.card) : ∃ v, v ∈ V ∧ v ≠ r ∧ (adjOf E v).length = 1 := by
  by_contra hcon
  push_neg at hcon
  have hpos := degree_pos V E r h hc
  obtain ⟨hr, hcard, hend, _⟩ := h
  have hsum := degree_sum V E hend
  have hlow : ∀ x, x ∈ V → (if x = r then 1 else 2) ≤ (adjOf E x).length := by
    intro x hx
    by_cases hxr : x = r
    · rw [if_pos hxr]; exact hpos x hx
    · rw [if_neg hxr]
      have := hpos x hx
      have := hcon x hx hxr
      omega
  have h1 := Finset.sum_le_sum hlow
  have h2 : ∑ x in V, (if x = r then 1 else 2) + ∑ x in V, (if x = r then 1 else 0)
      = ∑ _x in V, 2 := by
    rw [← Finset.sum_add_distrib]
    apply Finset.sum_congr rfl
    intro x _
    by_cases hxr : x = r <;> simp [hxr]
  rw [Finset.sum_ite_eq' V r (fun _ => 1), if_pos hr, Finset.sum_const, smul_eq_mul] at h2
  omega

theorem adjOf_single (e : Nat × Nat) (v w x : Nat) (he : e = (v, w) ∨ e = (w, v))
    (hwv : w ≠ v) :
    adjOf [e] x = if x = v then [w] else if x = w then [v] else [] := by
  have hvw : v ≠ w := fun h => hwv h.symm
  rcases he with h | h <;> subst h <;> simp only [adjOf, List.append_nil]
  · by_cases h1 : x = v
    · subst h1; simp [hvw]
    · by_cases h2 : x = w
      · subst h2; simp [hwv]
      · simp [h1, h2]
  · by_cases h1 : x = v
    · subst h1; simp [hvw]
    · by_cases h2 : x = w
      · subst h2; simp [hwv]
      · simp [h1, h2]

theorem adjOf_split (E1 E2 : List (Nat × Nat)) (e : Nat × Nat) (x : Nat) :
    adjOf (E1 ++ e :: E2) x = adjOf E1 x ++ (adjOf [e] x ++ adjOf E2 x) := by
  have : e :: E2 = [e] ++ E2 := rfl
  rw [this, adjOf_append, adjOf_append]

theorem adjacent_split (E1 E2 : List (Nat × Nat)) (e : Nat × Nat) (a b : Nat) :
    Adjacent (E1 ++ e :: E2) a b ↔
      Adjacent (E1 ++ E2) a b ∨ ((a, b) = e ∨ (b, a) = e) := by
  simp only [Adjacent, List.mem_append, List.mem_cons]
  tauto

/-- A leaf other than the root can be taken away from a tree, with its edge. -/
theorem leaf_removal (V : Finset Nat) (E : List (Nat × Nat)) (r : Nat) (h : TreeOn V E r)
    (hc : 2 ≤ V.card) :
    ∃ v w E1 E2 e, v ∈ V ∧ v ≠ r ∧ w ∈ V ∧ w ≠ v ∧ E = E1 ++ e :: E2 ∧
      (e = (v, w) ∨ e = (w, v)) ∧ adjOf E1 v = [] ∧ adjOf E2 v = [] ∧
      TreeOn (V.erase v) (E1 ++ E2) r := by
  obtain ⟨v, hv, hvr, hdeg⟩ := exists_leaf V E r h hc
  obtain ⟨hr, hcard, hend, hconn⟩ := h
  obtain ⟨w, hw⟩ := List.length_eq_one.mp hdeg
  have hadj : Adjacent E v w := (mem_adjOf E v w).mp (by rw [hw]; simp)
  obtain ⟨e, heE, he⟩ : ∃ e, e ∈ E ∧ (e = (v, w) ∨ e = (w, v)) := by
    rcases hadj with h | h
    · exact ⟨_, h, Or.inl rfl⟩
    · exact ⟨_, h, Or.inr rfl⟩
  obtain ⟨E1, E2, hE⟩ := List.append_of_mem heE
  have hwV : w ∈ V := by
    rcases he with h | h
    · have := (hend e heE).2; rw [h] at this; exact this
    · have := (hend e heE).1; rw [h] at this; exact this
  -- the neighbour list of `v` has one entry, which the edge `e` supplies
  have hlen := congrArg List.length (adjOf_split E1 E2 e v)
  rw [← hE, hdeg, List.length_append, List.length_append] at hlen
  have hwv : w ≠ v := by
    intro hwv
    subst hwv
    have he2 : e = (w, w) := by rcases he with h | h <;> exact h
    rw [he2] at hlen
    simp [adjOf] at hlen
    omega
  have hsingle := adjOf_single e v w v he hwv
  rw [if_pos rfl] at hsingle
  rw [hsingle] at hlen
  simp only [List.length_singleton] at hlen
  have h1 : adjOf E1 v = [] := List.length_eq_zero.mp (by omega)
  have h2 : adjOf E2 v = [] := List.length_eq_zero.mp (by omega)
  have hnone : ∀ x, ¬ Adjacent (E1 ++ E2) v x := by
    intro x hx
    have := (mem_adjOf (E1 ++ E2) v x).mpr hx
    rw [adjOf_append, h1, h2] at this
    simp at this
  have hadjE : ∀ a b, Adjacent E a b ↔
      Adjacent (E1 ++ E2) a b ∨ ((a, b) = e ∨ (b, a) = e) := by
    intro a b; rw [hE]; exact adjacent_split E1 E2 e a b
  have hnbr : ∀ x, Adjacent E v x → x = w := by
    intro x hx
    have := (mem_adjOf E v x).mpr hx
    rw [hw] at this
    simpa using this
  refine ⟨v, w, E1, E2, e, hv, hvr, hwV, hwv, hE, he, h1, h2, ?_, ?_, ?_, ?_⟩
  · exact Finset.mem_erase.mpr ⟨fun e => hvr e.symm, hr⟩
  · rw [Finset.card_erase_of_mem hv]
    have : E.length = (E1 ++ E2).length + 1 := by
      rw [hE]; simp only [List.length_append, List.length_cons]; omega
    omega
  · intro e2 he2
    have hmem : e2 ∈ E := by
      rw [hE]
      simp only [List.mem_append, List.mem_cons] at he2 ⊢
      tauto
    have hV := hend e2 hmem
    refine ⟨Finset.mem_erase.mpr ⟨?_, hV.1⟩, Finset.mem_erase.mpr ⟨?_, hV.2⟩⟩
    · intro h3
      exact hnone e2.2 (Or.inl (by rw [← h3]; exact he2))
    · intro h3
      exact hnone e2.1 (Or.inr (by rw [← h3]; exact he2))
  · -- every other node is still reached from the root
    have key : ∀ x, Relation.ReflTransGen (Adjacent E) r x →
        (x ≠ v → Relation.ReflTransGen (Adjacent (E1 ++ E2)) r x) ∧
        (x = v → Relation.ReflTransGen (Adjacent (E1 ++ E2)) r w) := by
      intro x hx
      induction hx with
      | refl => exact ⟨fun _ => Relation.ReflTransGen.refl, fun h => absurd h.symm hvr⟩
      | @tail y z _ hyz ih =>
        constructor
        · intro hzv
          by_cases hyv : y = v
          · have hzw : z = w := hnbr z (hyv ▸ hyz)
            rw [hzw]; exact ih.2 hyv
          · refine Relation.ReflTransGen.tail (ih.1 hyv) ?_
            rcases (hadjE y z).mp hyz with h | h | h
            · exact h
            · exfalso
              rcases he with h3 | h3 <;> rw [h3] at h <;>
                simp only [Prod.mk.injEq] at h
              · exact hyv h.1
              · exact hzv h.2
            · exfalso
              rcases he with h3 | h3 <;> rw [h3] at h <;>
                simp only [Prod.mk.injEq] at h
              · exact hzv h.1
              · exact hyv h.2
        · intro hzv
          have hyw : y = w := hnbr y (adjacent_symm (hzv ▸ hyz))
          have hyv : y ≠ v := by rw [hyw]; exact hwv
          rw [← hyw]; exact ih.1 hyv
    intro x hx
    have hx2 := Finset.mem_erase.mp hx
    exact (key x (hconn x hx2.2)).1 hx2.1

/-- Every tree, as an edge list, is spanned by a forest that has the shape of
the calls of `dfs` from the root. -/
theorem exists_spanning : ∀ (k : Nat) (E : List (Nat × Nat)) (V : Finset Nat) (r p0 : Nat),
    E.length = k → TreeOn V E r → p0 ∉ V →
    ∃ cs, Spans V E p0 (Forest.cons r cs Forest.nil) := by
  intro k
  induction k with
  | zero =>
    intro E V r p0 hk h hp0
    have hE : E = [] := List.length_eq_zero.mp hk
    subst hE
    obtain ⟨hr, hcard, _, _⟩ := h
    obtain ⟨a, ha⟩ := Finset.card_eq_one.mp (by simpa using hcard.symm)
    have har : r = a := by rw [ha] at hr; exact Finset.mem_singleton.mp hr
    refine ⟨Forest.nil, ⟨by simp [adjOf, roots], trivial, trivial⟩, by simp [ids], ?_, ?_, ?_⟩
    · intro x; simp [ids, ha, har]
    · intro a b hab; simp [edges, roots] at hab
    · intro a b hab; simp [Adjacent] at hab
  | succ k ih =>
    intro E V r p0 hk h hp0
    have hc : 2 ≤ V.card := by have := h.2.1; omega
    obtain ⟨v, w, E1, E2, e, hv, hvr, hwV, hwv, hE, he, h1, h2, htree⟩ :=
      leaf_removal V E r h hc
    have hk2 : (E1 ++ E2).length = k := by
      have := congrArg List.length hE
      simp only [List.length_append, List.length_cons] at this ⊢
      omega
    have hp02 : p0 ∉ V.erase v := fun hx => hp0 (Finset.mem_erase.mp hx).2
    obtain ⟨cs0, hshape, hnd, hids, hedge1, hedge2⟩ := ih (E1 ++ E2) (V.erase v) r p0 hk2 htree hp02
    have hvids : v ∉ ids (Forest.cons r cs0 Forest.nil) := by
      intro hx
      exact (Finset.mem_erase.mp ((hids v).mp hx)).1 rfl
    have hwids : w ∈ ids (Forest.cons r cs0 Forest.nil) :=
      (hids w).mpr (Finset.mem_erase.mpr ⟨hwv, hwV⟩)
    have hp0v : p0 ≠ v := fun e => hp0 (e ▸ hv)
    -- the neighbour lists before and after the leaf is taken away
    have hw0 : adjOf (E1 ++ E2) w = adjOf E1 w ++ adjOf E2 w := adjOf_append E1 E2 w
    have hw : adjOf E w = adjOf E1 w ++ v :: adjOf E2 w := by
      rw [hE, adjOf_split, adjOf_single e v w w he hwv, if_neg hwv, if_pos rfl]
      rfl
    have hvadj : adjOf E v = [w] := by
      rw [hE, adjOf_split, adjOf_single e v w v he hwv, if_pos rfl, h1, h2]
      rfl
    have hother : ∀ x, x ≠ w → x ≠ v → adjOf E x = adjOf (E1 ++ E2) x := by
      intro x hxw hxv
      rw [hE, adjOf_split, adjOf_single e v w x he hwv, if_neg hxv, if_neg hxw, adjOf_append]
      rfl
    have hadjE : ∀ a b, Adjacent E a b ↔
        Adjacent (E1 ++ E2) a b ∨ ((a, b) = e ∨ (b, a) = e) := by
      intro a b; rw [hE]; exact adjacent_split E1 E2 e a b
    have hshape2 := shape_insertLeaf (adjOf (E1 ++ E2)) (adjOf E) w v (adjOf E1 w)
      (adjOf E2 w) hw0 hw hvadj hother hwv _ p0 hshape hnd hvids hp0v
    have hperm := ids_insertLeaf w v
      (fun q => ((adjOf E1 w).filter (fun x => decide (x ≠ q))).length) _ p0 hwids hnd
    have hmem := fun a b => mem_edges_insertLeaf w v
      (fun q => ((adjOf E1 w).filter (fun x => decide (x ≠ q))).length) a b
      (Forest.cons r cs0 Forest.nil) p0
    refine ⟨if r = w then
        insertAt v ((adjOf E1 w).filter (fun x => decide (x ≠ p0))).length cs0
      else insertLeaf w v
        (fun q => ((adjOf E1 w).filter (fun x => decide (x ≠ q))).length) r cs0, ?_⟩
    refine ⟨hshape2, hperm.nodup_iff.mpr (List.nodup_cons.mpr ⟨hvids, hnd⟩), ?_, ?_, ?_⟩
    · intro x
      have := hperm.mem_iff (a := x)
      simp only [insertLeaf] at this
      rw [this, List.mem_cons, hids x, Finset.mem_erase]
      constructor
      · rintro (h3 | h3)
        · rw [h3]; exact hv
        · exact h3.2
      · intro h3
        by_cases hxv : x = v
        · exact Or.inl hxv
        · exact Or.inr ⟨hxv, h3⟩
    · intro a b hab
      have := (hmem a b).mp hab
      rcases this with ⟨_, h3⟩ | h3
      · simp only [Prod.mk.injEq] at h3
        rw [h3.1, h3.2]
        refine (hadjE w v).mpr (Or.inr ?_)
        rcases he with h4 | h4
        · exact Or.inr h4.symm
        · exact Or.inl h4.symm
      · exact (hadjE a b).mpr (Or.inl (hedge1 a b h3))
    · intro a b hab
      rcases (hadjE a b).mp hab with h3 | h3 | h3
      · rcases hedge2 a b h3 with h4 | h4
        · exact Or.inl ((hmem a b).mpr (Or.inr h4))
        · exact Or.inr ((hmem b a).mpr (Or.inr h4))
      · rcases he with h4 | h4
        · refine Or.inr ((hmem b a).mpr (Or.inl ⟨hwids, ?_⟩))
          rw [h4] at h3; simp only [Prod.mk.injEq] at h3 ⊢; exact ⟨h3.2, h3.1⟩
        · refine Or.inl ((hmem a b).mpr (Or.inl ⟨hwids, ?_⟩))
          rw [h4] at h3; exact h3
      · rcases he with h4 | h4
        · refine Or.inl ((hmem a b).mpr (Or.inl ⟨hwids, ?_⟩))
          rw [h4] at h3; simp only [Prod.mk.injEq] at h3 ⊢; exact ⟨h3.2, h3.1⟩
        · refine Or.inr ((hmem b a).mpr (Or.inl ⟨hwids, ?_⟩))
          rw [h4] at h3; exact h3

theorem mem_subsets : ∀ (l S : List Nat), S ∈ subsets l ↔ S.Sublist l := by
  intro l
  induction l with
  | nil => intro S; simp [subsets]
  | cons x xs ih =>
    intro S
    simp only [subsets, List.mem_append, List.mem_map, ih, List.sublist_cons_iff]
    constructor
    · rintro (h | ⟨S1, h1, h2⟩)
      · exact Or.inl h
      · exact Or.inr ⟨S1, h2.symm, h1⟩
    · rintro (h | ⟨S1, h1, h2⟩)
      · exact Or.inl h
      · exact Or.inr ⟨S1, h2, h1.symm⟩

theorem foldr_max_eq (M : Nat) : ∀ l : List Nat, (∀ x, x ∈ l → x ≤ M) → M ∈ l →
    l.foldr max 0 = M := by
  intro l
  induction l with
  | nil => intro _ h; simp at h
  | cons a l ih =>
    intro hle hmem
    simp only [List.foldr_cons]
    have ha := hle a (List.mem_cons_self _ _)
    have hub : l.foldr max 0 ≤ M := by
      clear ih hmem
      induction l with
      | nil => simp
      | cons b l ih2 =>
        simp only [List.foldr_cons]
        have := hle b (by simp)
        have := ih2 (fun x hx => hle x (by
          simp only [List.mem_cons] at hx ⊢; tauto))
        omega
    rcases List.mem_cons.mp hmem with h | h
    · rw [← h]; omega
    · have := ih (fun x hx => hle x (List.mem_cons_of_mem _ hx)) h
      omega

theorem cnt_eq_length (S L : List Nat) (hS : S.Nodup) (hL : L.Nodup)
    (hsub : ∀ x, x ∈ S → x ∈ L) : cnt S L = S.length := by
  rw [cnt, List.countP_eq_length_filter]
  apply List.Perm.length_eq
  rw [List.perm_ext_iff_of_nodup (hL.filter _) hS]
  intro a
  simp only [List.mem_filter, decide_eq_true_eq]
  exact ⟨fun h => h.2, fun h => ⟨hsub a h, h⟩⟩

theorem independent_iff (E : List (Nat × Nat)) (S : List Nat) :
    independent E S = true ↔ ∀ e, e ∈ E → ¬ (e.1 ∈ S ∧ e.2 ∈ S) := by
  simp only [independent, List.all_eq_true, Bool.not_eq_true', Bool.and_eq_false_imp,
    decide_eq_true_eq, decide_eq_false_iff_not, not_and]

/-- The recurrence value of a spanning forest is the brute-force maximum. -/
theorem bruteForce_eq_sums (n : Nat) (E : List (Nat × Nat)) (p0 : Nat) (f : Forest)
    (h : Spans (Finset.Icc 1 n) E p0 f) : bruteForceMIS n E = (sums f).2 := by
  obtain ⟨_, hnd, hids, hedge1, hedge2⟩ := h
  have hrange : ∀ x, x ∈ List.range' 1 n ↔ x ∈ ids f := by
    intro x
    rw [hids x, Finset.mem_Icc, List.mem_range'_1]
    omega
  apply foldr_max_eq
  · intro x hx
    simp only [List.mem_map, List.mem_filter] at hx
    obtain ⟨S, ⟨hS1, hS2⟩, rfl⟩ := hx
    have hsub := (mem_subsets _ S).mp hS1
    have hSnd : S.Nodup := hsub.nodup (List.nodup_range' 1 n)
    have hSin : ∀ x, x ∈ S → x ∈ ids f := fun x hx => (hrange x).mp (hsub.subset hx)
    rw [← cnt_eq_length S (ids f) hSnd hnd hSin]
    have hind := (independent_iff E S).mp hS2
    refine (forest_upper S f (fun a b hab hboth => ?_)).1
    rcases hedge1 a b hab with h1 | h1
    · exact hind _ h1 hboth
    · exact hind _ h1 ⟨hboth.2, hboth.1⟩
  · obtain ⟨⟨_, hlen⟩, _, hin, ⟨_, hSnd⟩, _, hindep⟩ := sets_spec f hnd
    simp only [List.mem_map, List.mem_filter]
    refine ⟨(List.range' 1 n).filter (fun x => decide (x ∈ (sets f).2)),
      ⟨(mem_subsets _ _).mpr (List.filter_sublist _), ?_⟩, ?_⟩
    · rw [independent_iff]
      intro e he hboth
      simp only [List.mem_filter, decide_eq_true_eq] at hboth
      rcases hedge2 e.1 e.2 (Or.inl he) with h1 | h1
      · exact hindep _ _ h1 ⟨hboth.1.2, hboth.2.2⟩
      · exact hindep _ _ h1 ⟨hboth.2.2, hboth.1.2⟩
    · rw [← hlen]
      apply List.Perm.length_eq
      rw [List.perm_ext_iff_of_nodup ((List.nodup_range' 1 n).filter _) hSnd]
      intro a
      simp only [List.mem_filter, decide_eq_true_eq]
      exact ⟨fun h => h.2, fun h => ⟨(hrange a).mpr (hin a h), h⟩⟩

/-- The run of `main` when the call tree of `dfs(1, 0)` is known: both phases
succeed and the answer is the recurrence value at the root. -/
theorem main_of_shape (n : Nat) (E : List (Nat × Nat)) (cs : Forest) (fuel : Nat)
    (hlen : E.length ≤ n - 1) (hE : ∀ e, e ∈ E → e.1 < MAXN ∧ e.2 < MAXN)
    (hs : Shape (adjOf E) 0 (Forest.cons 1 cs Forest.nil))
    (hnd : (ids (Forest.cons 1 cs Forest.nil)).Nodup)
    (hlt : ∀ x, x ∈ ids (Forest.cons 1 cs Forest.nil) → x < MAXN)
    (hh : height (Forest.cons 1 cs Forest.nil) ≤ fuel) :
    main n E fuel = .ok ((sums (Forest.cons 1 cs Forest.nil)).2) := by
  obtain ⟨dp1, h1, _, h3⟩ := dfs_tree (adjOf E) fuel 1 0 cs (fun _ => (0, 0)) hs hnd hlt hh
  have hadj : (fun x => ([] : List Nat) ++ adjOf E x) = adjOf E := by
    funext x; simp
  unfold main
  rw [List.take_of_length_le hlen, buildAdj_ok E _ hE]
  simp only [hadj, h1]
  rw [h3 1 (by simp [ids])]
  simp [val, sums]

theorem treeOn_of_isTree (n : Nat) (E : List (Nat × Nat)) (h : IsTree n E) :
    TreeOn (Finset.Icc 1 n) E 1 := by
  obtain ⟨hn, hlen, hend, hconn⟩ := h
  refine ⟨Finset.mem_Icc.mpr ⟨le_refl _, hn⟩, ?_, ?_, ?_⟩
  · rw [Nat.card_Icc, hlen]; omega
  · intro e he
    have := hend e he
    exact ⟨Finset.mem_Icc.mpr this.1, Finset.mem_Icc.mpr this.2⟩
  · intro x hx
    have := Finset.mem_Icc.mp hx
    exact hconn x this.1 this.2

theorem length_ids_of_spans (n : Nat) (E : List (Nat × Nat)) (p0 : Nat) (f : Forest)
    (h : Spans (Finset.Icc 1 n) E p0 f) : (ids f).length = n := by
  obtain ⟨_, hnd, hids, _, _⟩ := h
  have h1 : (ids f).toFinset = Finset.Icc 1 n := by
    ext x; rw [List.mem_toFinset, hids x]
  have h2 := List.toFinset_card_of_nodup hnd
  rw [h1, Nat.card_Icc] at h2
  omega

/-- On every tree with fewer than `MAXN` nodes, and with fuel at least `n`,
`main` succeeds and prints the brute-force maximum independent set size. -/
theorem main_tree (n : Nat) (E : List (Nat × Nat)) (h : IsTree n E) (hn : n < MAXN)
    (fuel : Nat) (hf : n ≤ fuel) : main n E fuel = .ok (bruteForceMIS n E) := by
  obtain ⟨cs, hspan⟩ := exists_spanning E.length E (Finset.Icc 1 n) 1 0 rfl
    (treeOn_of_isTree n E h) (by simp)
  have hlenids := length_ids_of_spans n E 0 _ hspan
  rw [bruteForce_eq_sums n E 0 _ hspan]
  obtain ⟨hs, hnd, hids, _, _⟩ := hspan
  obtain ⟨_, hlen, hend, _⟩ := h
  apply main_of_shape n E cs fuel (by omega) ?_ hs hnd ?_ ?_
  · intro e he
    have := hend e he
    omega
  · intro x hx
    have := Finset.mem_Icc.mp ((hids x).mp hx)
    omega
  · have := height_le_length (Forest.cons 1 cs Forest.nil)
    omega

/-! ### The star graph -/

theorem starEdges_succ (k : Nat) : starEdges (k + 1) = starEdges k ++ [(1, k + 2)] := by
  simp [starEdges, List.range_succ]

theorem adjOf_star_centre (k : Nat) :
    adjOf (starEdges k) 1 = (List.range k).map (fun i => i + 2) := by
  induction k with
  | zero => rfl
  | succ k ih =>
    rw [starEdges_succ, adjOf_append, ih, List.range_succ, List.map_append]
    simp [adjOf]

theorem adjOf_star_leaf (k x : Nat) (hx : x ≠ 1) :
    adjOf (starEdges k) x = if 2 ≤ x ∧ x ≤ k + 1 then [1] else [] := by
  induction k with
  | zero =>
    have : ¬ (2 ≤ x ∧ x ≤ 0 + 1) := by omega
    rw [if_neg this]; rfl
  | succ k ih =>
    rw [starEdges_succ, adjOf_append, ih]
    simp only [adjOf, if_neg hx, List.nil_append, List.append_nil]
    by_cases h1 : x = k + 2
    · have h2 : ¬ (2 ≤ x ∧ x ≤ k + 1) := by omega
      have h3 : 2 ≤ x ∧ x ≤ k + 1 + 1 := by omega
      rw [if_pos h1, if_neg h2, if_pos h3]; rfl
    · rw [if_neg h1, List.append_nil]
      by_cases h2 : 2 ≤ x ∧ x ≤ k + 1
      · have h3 : 2 ≤ x ∧ x ≤ k + 1 + 1 := by omega
        rw [if_pos h2, if_pos h3]
      · have h3 : ¬ (2 ≤ x ∧ x ≤ k + 1 + 1) := by omega
        rw [if_neg h2, if_neg h3]

theorem roots_leaves (l : List Nat) : roots (leaves l) = l := by
  induction l with
  | nil => rfl
  | cons x xs ih => simp only [leaves, roots, ih]

theorem ids_leaves (l : List Nat) : ids (leaves l) = l := by
  induction l with
  | nil => rfl
  | cons x xs ih => simp only [leaves, ids, ih, List.nil_append]

theorem sums_leaves (l : List Nat) : sums (leaves l) = (0, l.length) := by
  induction l with
  | nil => rfl
  | cons x xs ih => simp only [leaves, sums, ih, List.length_cons]; simp; omega

theorem height_leaves (l : List Nat) : height (leaves l) ≤ 1 := by
  induction l with
  | nil => simp [leaves, height]
  | cons x xs ih => simp only [leaves, height]; omega

theorem shape_leaves (adj : Adj) (p : Nat) (l : List Nat)
    (h : ∀ x, x ∈ l → (adj x).filter (fun v => decide (v ≠ p)) = []) :
    Shape adj p (leaves l) := by
  induction l with
  | nil => trivial
  | cons x xs ih =>
    exact ⟨by simpa [roots] using h x (List.mem_cons_self _ _), trivial,
      ih (fun y hy => h y (List.mem_cons_of_mem _ hy))⟩

/-- The star with `k ≥ 1` leaves, `k + 1 < MAXN`: the answer is `k`. -/
theorem main_star (k : Nat) (hk : 1 ≤ k) (hn : k + 1 < MAXN) (fuel : Nat) (hf : 2 ≤ fuel) :
    main (k + 1) (starEdges k) fuel = .ok k := by
  have hmem : ∀ x, x ∈ (List.range k).map (fun i => i + 2) ↔ 2 ≤ x ∧ x ≤ k + 1 := by
    intro x
    simp only [List.mem_map, List.mem_range]
    constructor
    · rintro ⟨i, hi, rfl⟩; omega
    · intro h; exact ⟨x - 2, by omega, by omega⟩
  have hmain := main_of_shape (k + 1) (starEdges k)
    (leaves ((List.range k).map (fun i => i + 2))) fuel
    (by simp [starEdges])
    (by
      intro e he
      simp only [starEdges, List.mem_map, List.mem_range] at he
      obtain ⟨i, hi, rfl⟩ := he
      simp only
      constructor <;> omega)
    (by
      refine ⟨?_, ?_, trivial⟩
      · rw [adjOf_star_centre, roots_leaves, List.filter_eq_self]
        intro x hx
        have := (hmem x).mp hx
        simp only [decide_eq_true_eq]; omega
      · apply shape_leaves
        intro x hx
        have h2 := (hmem x).mp hx
        rw [adjOf_star_leaf k x (by omega), if_pos h2]
        simp)
    (by
      simp only [ids, ids_leaves, List.append_nil, List.nodup_cons]
      refine ⟨fun h => ?_, ?_⟩
      · have := (hmem 1).mp h; omega
      · exact (List.nodup_range k).map (fun a b hab => by simpa using hab))
    (by
      intro x hx
      simp only [ids, ids_leaves, List.append_nil, List.mem_cons] at hx
      rcases hx with h | h
      · rw [h]; omega
      · have := (hmem x).mp h; omega)
    (by
      have := height_leaves ((List.range k).map (fun i => i + 2))
      simp only [height]; omega)
  rw [hmain]
  simp only [sums, sums_leaves, List.length_map, List.length_range]
  congr 1
  omega

theorem isTree_star (k : Nat) : IsTree (k + 1) (starEdges k) := by
  refine ⟨by omega, by simp [starEdges], ?_, ?_⟩
  · intro e he
    simp only [starEdges, List.mem_map, List.mem_range] at he
    obtain ⟨i, hi, rfl⟩ := he
    simp only
    omega
  · intro x h1 h2
    by_cases hx : x = 1
    · rw [hx]
    · apply Relation.ReflTransGen.single
      left
      simp only [starEdges, List.mem_map, List.mem_range, Prod.mk.injEq, true_and]
      exact ⟨x - 2, by omega, by omega⟩

/-! ### The path graph -/

theorem pathEdges_succ (n : Nat) (hn : 1 ≤ n) :
    pathEdges (n + 1) = pathEdges n ++ [(n, n + 1)] := by
  obtain ⟨m, rfl⟩ : ∃ m, n = m + 1 := ⟨n - 1, by omega⟩
  simp [pathEdges, List.range_succ]

theorem adjOf_path (n x : Nat) (hn : 1 ≤ n) :
    adjOf (pathEdges n) x =
      (if 2 ≤ x ∧ x ≤ n then [x - 1] else []) ++ (if 1 ≤ x ∧ x + 1 ≤ n then [x + 1] else []) := by
  induction n, hn using Nat.le_induction with
  | base =>
    have h1 : ¬ (2 ≤ x ∧ x ≤ 1) := by omega
    have h2 : ¬ (1 ≤ x ∧ x + 1 ≤ 1) := by omega
    rw [if_neg h1, if_neg h2]; rfl
  | succ n hn ih =>
    rw [pathEdges_succ n hn, adjOf_append, ih]
    simp only [adjOf, List.append_nil]
    by_cases hx1 : x = n
    · subst hx1
      have h1 : ¬ (x = x + 1) := by omega
      have h2 : ¬ (1 ≤ x ∧ x + 1 ≤ x) := by omega
      have h3 : 1 ≤ x ∧ x + 1 ≤ x + 1 := by omega
      have h4 : (2 ≤ x ∧ x ≤ x) ↔ (2 ≤ x ∧ x ≤ x + 1) := by omega
      simp only [if_true, if_neg h1, if_neg h2, if_pos h3, h4, List.append_nil]
    · by_cases hx2 : x = n + 1
      · subst hx2
        have h1 : ¬ (2 ≤ n + 1 ∧ n + 1 ≤ n) := by omega
        have h2 : ¬ (1 ≤ n + 1 ∧ n + 1 + 1 ≤ n) := by omega
        have h3 : 2 ≤ n + 1 ∧ n + 1 ≤ n + 1 := by omega
        have h4 : ¬ (1 ≤ n + 1 ∧ n + 1 + 1 ≤ n + 1) := by omega
        simp only [if_neg hx1, if_true, if_neg h1, if_neg h2, if_pos h3, if_neg h4,
          List.nil_append, List.append_nil, Nat.add_sub_cancel]
      · have h1 : (2 ≤ x ∧ x ≤ n) ↔ (2 ≤ x ∧ x ≤ n + 1) := by omega
        have h2 : (1 ≤ x ∧ x + 1 ≤ n) ↔ (1 ≤ x ∧ x + 1 ≤ n + 1) := by omega
        simp only [if_neg hx1, if_neg hx2, h1, h2, List.append_nil]

theorem mem_ids_chain : ∀ (len u x : Nat), x ∈ ids (chain u len) ↔ u ≤ x ∧ x < u + len := by
  intro len
  induction len with
  | zero => intro u x; simp only [chain, ids, List.not_mem_nil, false_iff]; omega
  | succ len ih =>
    intro u x
    simp only [chain, ids, List.append_nil, List.mem_cons, ih (u + 1) x]
    omega

theorem nodup_ids_chain : ∀ (len u : Nat), (ids (chain u len)).Nodup := by
  intro len
  induction len with
  | zero => intro u; simp [chain, ids]
  | succ len ih =>
    intro u
    simp only [chain, ids, List.append_nil, List.nodup_cons]
    refine ⟨fun h => ?_, ih (u + 1)⟩
    have := (mem_ids_chain len (u + 1) u).mp h
    omega

theorem height_chain : ∀ (len u : Nat), height (chain u len) = len := by
  intro len
  induction len with
  | zero => intro u; rfl
  | succ len ih => intro u; simp only [chain, height, ih (u + 1)]; omega

theorem sums_chain : ∀ (len u : Nat), sums (chain u len) = (len / 2, (len + 1) / 2) := by
  intro len
  induction len with
  | zero => intro u; rfl
  | succ len ih =>
    intro u
    simp only [chain, sums, ih (u + 1)]
    ext <;> simp only <;> omega

theorem roots_chain (len u : Nat) :
    roots (chain u len) = if len = 0 then [] else [u] := by
  cases len with
  | zero => rfl
  | succ len => simp [chain, roots]

theorem shape_chain (n : Nat) (hn : 1 ≤ n) : ∀ (len u : Nat), 1 ≤ u → u + len = n + 1 →
    Shape (adjOf (pathEdges n)) (u - 1) (chain u len) := by
  intro len
  induction len with
  | zero => intro u _ _; trivial
  | succ len ih =>
    intro u hu hul
    refine ⟨?_, ?_, trivial⟩
    · rw [adjOf_path n u hn, roots_chain, List.filter_append]
      have h1 : (if 2 ≤ u ∧ u ≤ n then [u - 1] else []).filter
          (fun v => decide (v ≠ u - 1)) = [] := by
        split <;> simp
      rw [h1, List.nil_append]
      by_cases hl : len = 0
      · have h2 : ¬ (1 ≤ u ∧ u + 1 ≤ n) := by omega
        rw [if_neg h2, if_pos hl]; rfl
      · have h2 : 1 ≤ u ∧ u + 1 ≤ n := by omega
        rw [if_pos h2, if_neg hl]
        have h3 : u + 1 ≠ u - 1 := by omega
        simp [h3]
    · have := ih (u + 1) (by omega) (by omega)
      simpa using this

/-- The path on `n ≥ 1` nodes, `n < MAXN`: the answer is `⌈n / 2⌉`. -/
theorem main_path (n : Nat) (hn : 1 ≤ n) (hN : n < MAXN) (fuel : Nat) (hf : n ≤ fuel) :
    main n (pathEdges n) fuel = .ok ((n + 1) / 2) := by
  obtain ⟨m, rfl⟩ : ∃ m, n = m + 1 := ⟨n - 1, by omega⟩
  have hshape : Shape (adjOf (pathEdges (m + 1))) 0 (Forest.cons 1 (chain 2 m) Forest.nil) :=
    shape_chain (m + 1) hn (m + 1) 1 (le_refl _) (by omega)
  have hnd : (ids (Forest.cons 1 (chain 2 m) Forest.nil)).Nodup := nodup_ids_chain (m + 1) 1
  have hh : height (Forest.cons 1 (chain 2 m) Forest.nil) = m + 1 := height_chain (m + 1) 1
  have hs : sums (Forest.cons 1 (chain 2 m) Forest.nil) = ((m + 1) / 2, (m + 1 + 1) / 2) :=
    sums_chain (m + 1) 1
  have hids : ∀ x, x ∈ ids (Forest.cons 1 (chain 2 m) Forest.nil) ↔ 1 ≤ x ∧ x < 1 + (m + 1) :=
    mem_ids_chain (m + 1) 1
  have hmain := main_of_shape (m + 1) (pathEdges (m + 1)) (chain 2 m) fuel
    (by simp [pathEdges])
    (by
      intro e he
      simp only [pathEdges, List.mem_map, List.mem_range] at he
      obtain ⟨i, hi, rfl⟩ := he
      simp only
      constructor <;> omega)
    hshape hnd
    (fun x hx => by have := (hids x).mp hx; omega)
    (by omega)
  rw [hmain, hs]

theorem isTree_path (n : Nat) (hn : 1 ≤ n) : IsTree n (pathEdges n) := by
  refine ⟨hn, by simp [pathEdges], ?_, ?_⟩
  · intro e he
    simp only [pathEdges, List.mem_map, List.mem_range] at he
    obtain ⟨i, hi, rfl⟩ := he
    simp only
    omega
  · intro x h1 h2
    induction x, h1 using Nat.le_induction with
    | base => exact Relation.ReflTransGen.refl
    | succ x hx ih =>
      refine Relation.ReflTransGen.tail (ih (by omega)) (Or.inl ?_)
      simp only [pathEdges, List.mem_map, List.mem_range, Prod.mk.injEq]
      exact ⟨x - 1, by omega, by omega, by omega⟩

theorem main_fault (n : Nat) (E : List (Nat × Nat)) (fuel : Nat)
    (h : ∃ e, e ∈ E.take (n - 1) ∧ (MAXN ≤ e.1 ∨ MAXN ≤ e.2)) :
    main n E fuel = .error .outOfRange := by
  unfold main
  rw [buildAdj_fault _ _ h]

/-- A star whose last leaf is numbered `MAXN` or more: the input loop indexes
`adj` out of range. -/
theorem main_star_fault (k : Nat) (hk : 1 ≤ k) (hbig : MAXN ≤ k + 1) (fuel : Nat) :
    main (k + 1) (starEdges k) fuel = .error .outOfRange := by
  apply main_fault
  refine ⟨(1, k + 1), ?_, Or.inr hbig⟩
  rw [List.take_of_length_le (by simp [starEdges])]
  simp only [starEdges, List.mem_map, List.mem_range, Prod.mk.injEq, true_and]
  exact ⟨k - 1, by omega, by omega⟩

/-- A path whose last node is numbered `MAXN` or more: the input loop indexes
`adj` out of range. -/
theorem main_path_fault (n : Nat) (hn : 2 ≤ n) (hbig : MAXN ≤ n) (fuel : Nat) :
    main n (pathEdges n) fuel = .error .outOfRange := by
  apply main_fault
  refine ⟨(n - 1, n), ?_, Or.inr hbig⟩
  rw [List.take_of_length_le (by simp [pathEdges])]
  simp only [pathEdges, List.mem_map, List.mem_range, Prod.mk.injEq]
  exact ⟨n - 2, by omega, by omega, by omega⟩

/-- C2, as stated, fails on a tree with `MAXN` nodes: the star with centre 1 and
leaves `2..200005` is a tree, and on it `main` prints no value for any fuel,
because `adj[200005]` is outside the array `adj[MAXN]`. -/
theorem main_tree_capacity_counterexample :
    IsTree 200005 (starEdges 200004) ∧
      ¬ ∃ fuel, main 200005 (starEdges 200004) fuel
          = .ok (bruteForceMIS 200005 (starEdges 200004)) := by
  refine ⟨isTree_star 200004, ?_⟩
  rintro ⟨fuel, h⟩
  rw [main_star_fault 200004 (by omega) (by unfold MAXN; omega) fuel] at h
  exact absurd h (by simp)

/-- C2 (amended): for every tree on the nodes `1..n` with `n < MAXN`, the size
of the arrays, the value printed by `main`, `max(dp[1][0], dp[1][1])` after
`dfs(1, 0)`, is the maximum cardinality of a set of nodes no two of which are
joined by an edge; recursion depth `n` is enough. -/
theorem main_eq_bruteForce_on_trees (n : Nat) (edges : List (Nat × Nat))
    (h : IsTree n edges) (hn : n < MAXN) (fuel : Nat) (hf : n ≤ fuel) :
    main n edges fuel = .ok (bruteForceMIS n edges) :=
  main_tree n edges h hn fuel hf

theorem main_eq_bruteForce_on_trees_witness :
    IsTree 4 [(1, 2), (2, 3), (2, 4)] ∧ 4 < MAXN ∧ 4 ≤ 4 ∧
      main 4 [(1, 2), (2, 3), (2, 4)] 4 = .ok (bruteForceMIS 4 [(1, 2), (2, 3), (2, 4)]) ∧
      bruteForceMIS 4 [(1, 2), (2, 3), (2, 4)] = 3 :=
  have h : IsTree 4 [(1, 2), (2, 3), (2, 4)] :=
    ⟨by decide, by decide, by decide, fun x h1 h2 => by
      have h12 : Adjacent [(1, 2), (2, 3), (2, 4)] 1 2 := Or.inl (by decide)
      have h23 : Adjacent [(1, 2), (2, 3), (2, 4)] 2 3 := Or.inl (by decide)
      have h24 : Adjacent [(1, 2), (2, 3), (2, 4)] 2 4 := Or.inl (by decide)
      interval_cases x
      · exact Relation.ReflTransGen.refl
      · exact Relation.ReflTransGen.single h12
      · exact (Relation.ReflTransGen.single h12).tail h23
      · exact (Relation.ReflTransGen.single h12).tail h24⟩
  ⟨h, by decide, by decide,
    main_eq_bruteForce_on_trees 4 [(1, 2), (2, 3), (2, 4)] h (by decide) 4 (by decide),
    by decide⟩

/-- C9, as stated, fails for `n = 200005`: on the path `1 - 2 - ... - 200005`
`main` does not print `⌈n / 2⌉ = 100003` for any fuel, because `adj[200005]` is
outside the array `adj[MAXN]`. -/
theorem main_path_capacity_counterexample :
    ¬ ∃ fuel, main 200005 (pathEdges 200005) fuel = .ok ((200005 + 1) / 2) := by
  rintro ⟨fuel, h⟩
  rw [main_path_fault 200005 (by omega) (by unfold MAXN; omega) fuel] at h
  exact absurd h (by simp)

/-- C9 (amended): for every `n` with `1 ≤ n < MAXN`, `main` on the path graph
`1 - 2 - ... - n` prints `⌈n / 2⌉`; in particular it prints 3 for the path
`1 - 2 - 3 - 4 - 5` and 1 for a single node with no edges. -/
theorem main_path_answer (n : Nat) (hn : 1 ≤ n) (hN : n < MAXN) (fuel : Nat)
    (hf : n ≤ fuel) :
    main n (pathEdges n) fuel = .ok ((n + 1) / 2) ∧
      main 5 [(1, 2), (2, 3), (3, 4), (4, 5)] 5 = .ok 3 ∧ main 1 [] 1 = .ok 1 :=
  ⟨main_path n hn hN fuel hf, by decide, by decide⟩

theorem main_path_answer_witness :
    1 ≤ 6 ∧ 6 < MAXN ∧ 6 ≤ 6 ∧
      (main 6 (pathEdges 6) 6 = .ok ((6 + 1) / 2) ∧
        main 5 [(1, 2), (2, 3), (3, 4), (4, 5)] 5 = .ok 3 ∧ main 1 [] 1 = .ok 1) :=
  ⟨by decide, by decide, by decide,
    main_path_answer 6 (by decide) (by decide) 6 (by decide)⟩

/-- C10, as stated, fails for `k = 200004`: on the star with centre 1 and leaves
`2..200005` `main` does not print `k` for any fuel, because `adj[200005]` is
outside the array `adj[MAXN]`. -/
theorem main_star_capacity_counterexample :
    ¬ ∃ fuel, main (200004 + 1) (starEdges 200004) fuel = .ok 200004 := by
  rintro ⟨fuel, h⟩
  rw [main_star_fault 200004 (by omega) (by unfold MAXN; omega) fuel] at h
  exact absurd h (by simp)

/-- C10 (amended): for every `k ≥ 1` with `k + 1 < MAXN`, `main` on the star
graph with centre 1 joined to the leaves `2..k+1` prints `k`; in particular it
prints 4 for the centre 1 joined to 2, 3, 4, 5. -/
theorem main_star_answer (k : Nat) (hk : 1 ≤ k) (hn : k + 1 < MAXN) (fuel : Nat)
    (hf : 2 ≤ fuel) :
    main (k + 1) (starEdges k) fuel = .ok k ∧
      main 5 [(1, 2), (1, 3), (1, 4), (1, 5)] 2 = .ok 4 :=
  ⟨main_star k hk hn fuel hf, by decide⟩

theorem main_star_answer_witness :
    1 ≤ 3 ∧ 3 + 1 < MAXN ∧ 2 ≤ 2 ∧
      (main (3 + 1) (starEdges 3) 2 = .ok 3 ∧
        main 5 [(1, 2), (1, 3), (1, 4), (1, 5)] 2 = .ok 4) :=
  ⟨by decide, by decide, by decide,
    main_star_answer 3 (by decide) (by decide) 2 (by decide)⟩

theorem dfsCalls_succ (adj : Adj) (fuel u p : Nat) (hu : u < MAXN) :
    dfsCalls adj (fuel + 1) u p = (adj u).foldlM (visitCalls adj fuel u p) [u] := by
  have : ¬ (MAXN ≤ u) := by omega
  simp only [dfsCalls, if_neg this]
  rfl

theorem fold_visitCalls (adj : Adj) (fuel : Nat) (ih : CallsOk adj fuel) (u p : Nat) :
    ∀ (l : List Nat) (f : Forest) (calls : List Nat),
      l.filter (fun v => decide (v ≠ p)) = roots f → Shape adj u f →
      (∀ x, x ∈ ids f → x < MAXN) → height f ≤ fuel →
      l.foldlM (visitCalls adj fuel u p) calls = .ok (calls ++ ids f) := by
  intro l
  induction l with
  | nil =>
    intro f calls hr _ _ _
    have hf : f = Forest.nil := roots_eq_nil (by simpa using hr.symm)
    subst hf
    simp [ids, pure_eq_ok]
  | cons v l ihl =>
    intro f calls hr hs hlt hh
    by_cases hvp : v = p
    · have hr2 : l.filter (fun v => decide (v ≠ p)) = roots f := by
        rw [← hr, List.filter_cons_of_neg (by simpa using hvp)]
      rw [List.foldlM_cons]
      simp only [visitCalls, if_pos hvp, pure_eq_ok, ok_bind]
      exact ihl f calls hr2 hs hlt hh
    · have hr2 : v :: l.filter (fun v => decide (v ≠ p)) = roots f := by
        rw [← hr, List.filter_cons_of_pos (by simpa using hvp)]
      obtain ⟨cs, sib, hf, hsib⟩ := roots_eq_cons hr2.symm
      subst hf
      obtain ⟨hs1, hs2, hs3⟩ := hs
      have hhcs : height cs + 1 ≤ fuel := le_trans (le_max_left _ _) hh
      have hhsib : height sib ≤ fuel := le_trans (le_max_right _ _) hh
      have hd := ih v u cs ⟨hs1, hs2, trivial⟩
        (fun x hx => hlt x (by
          simp only [ids, List.append_nil, List.mem_cons] at hx
          simp only [ids, List.mem_cons, List.mem_append]
          rcases hx with h | h
          · exact Or.inl h
          · exact Or.inr (Or.inl h)))
        (by simp only [height]; omega)
      rw [List.foldlM_cons]
      simp only [visitCalls, if_neg hvp, hd, pure_eq_ok, ok_bind]
      rw [ihl sib _ hsib.symm hs3
        (fun x hx => hlt x (by simp only [ids, List.mem_cons, List.mem_append]; tauto))
        hhsib]
      simp [ids]

theorem dfsCalls_tree (adj : Adj) : ∀ fuel : Nat, CallsOk adj fuel := by
  intro fuel
  induction fuel with
  | zero =>
    intro u p cs _ _ hh
    simp only [height] at hh
    omega
  | succ fuel ih =>
    intro u p cs hs hlt hh
    obtain ⟨hs1, hs2, _⟩ := hs
    have hu : u < MAXN := hlt u (by simp [ids])
    have hh2 : height cs ≤ fuel := by
      simp only [height] at hh; omega
    rw [dfsCalls_succ adj fuel u p hu,
      fold_visitCalls adj fuel ih u p (adj u) cs [u] hs1 hs2
        (fun x hx => hlt x (by simp only [ids, List.mem_cons, List.mem_append]; tauto)) hh2]
    simp [ids]

theorem main_eq_finalDp (n : Nat) (E : List (Nat × Nat)) (fuel : Nat) :
    main n E fuel =
      match finalDp n E fuel with
      | .error e => .error e
      | .ok dp => .ok (max (dp 1).1 (dp 1).2) := by
  unfold main finalDp
  cases buildAdj (E.take (n - 1)) (fun _ => []) with
  | error e => rfl
  | ok adj => rfl

/-- On a tree with fewer than `MAXN` nodes the run of `main` is described by a
spanning forest: the final table holds the recurrence values at all nodes, and
the calls of `dfs` are the nodes of the forest in preorder. -/
theorem run_tree (n : Nat) (E : List (Nat × Nat)) (h : IsTree n E) (hn : n < MAXN)
    (fuel : Nat) (hf : n ≤ fuel) :
    ∃ cs dp, Spans (Finset.Icc 1 n) E 0 (Forest.cons 1 cs Forest.nil) ∧
      finalDp n E fuel = .ok dp ∧
      (∀ x, x ∈ ids (Forest.cons 1 cs Forest.nil) → dp x = val (Forest.cons 1 cs Forest.nil) x) ∧
      mainCalls n E fuel = .ok (ids (Forest.cons 1 cs Forest.nil)) ∧
      buildAdj (E.take (n - 1)) (fun _ => []) = .ok (adjOf E) := by
  obtain ⟨cs, hspan⟩ := exists_spanning E.length E (Finset.Icc 1 n) 1 0 rfl
    (treeOn_of_isTree n E h) (by simp)
  have hlenids := length_ids_of_spans n E 0 _ hspan
  have hspan0 := hspan
  obtain ⟨hs, hnd, hids, _, _⟩ := hspan
  obtain ⟨_, hlen, hend, _⟩ := h
  have hlt : ∀ x, x ∈ ids (Forest.cons 1 cs Forest.nil) → x < MAXN := by
    intro x hx
    have := Finset.mem_Icc.mp ((hids x).mp hx)
    omega
  have hh : height (Forest.cons 1 cs Forest.nil) ≤ fuel := by
    have := height_le_length (Forest.cons 1 cs Forest.nil)
    omega
  obtain ⟨dp1, h1, _, h3⟩ := dfs_tree (adjOf E) fuel 1 0 cs (fun _ => (0, 0)) hs hnd hlt hh
  have hadj : (fun x => ([] : List Nat) ++ adjOf E x) = adjOf E := by
    funext x; simp
  have hbuild : buildAdj (E.take (n - 1)) (fun _ => []) = .ok (adjOf E) := by
    rw [List.take_of_length_le (by omega), buildAdj_ok E _ (fun e he => by
      have := hend e he; omega), hadj]
  refine ⟨cs, dp1, hspan0, ?_, h3, ?_, hbuild⟩
  · unfold finalDp; rw [hbuild]; exact h1
  · unfold mainCalls; rw [hbuild]
    exact dfsCalls_tree (adjOf E) fuel 1 0 cs hs hlt hh

theorem fold_calls_error (adj : Adj) (fuel : Nat)
    (ih : ∀ (u p : Nat) (dp : Dp) (e : Fault),
      dfs adj fuel u p dp = .error e ↔ dfsCalls adj fuel u p = .error e)
    (u p : Nat) (e : Fault) :
    ∀ (l : List Nat) (dp : Dp) (calls : List Nat),
      l.foldlM (visit adj fuel u p) dp = .error e ↔
        l.foldlM (visitCalls adj fuel u p) calls = .error e := by
  intro l
  induction l with
  | nil => intro dp calls; simp [List.foldlM, pure_eq_ok]
  | cons v l ihl =>
    intro dp calls
    rw [List.foldlM_cons, List.foldlM_cons]
    by_cases hvp : v = p
    · simp only [visit, visitCalls, if_pos hvp, pure_eq_ok, ok_bind]
      exact ihl dp calls
    · cases hd : dfs adj fuel v u dp with
      | error e1 =>
        have hc := (ih v u dp e1).mp hd
        simp only [visit, visitCalls, if_neg hvp, hd, hc, error_bind]
        constructor <;> (intro h; injection h with h; rw [h])
      | ok dp2 =>
        cases hc : dfsCalls adj fuel v u with
        | error e1 =>
          have := (ih v u dp e1).mpr hc
          rw [hd] at this
          exact absurd this (by simp)
        | ok below =>
          simp only [visit, visitCalls, if_neg hvp, hd, hc, pure_eq_ok, ok_bind]
          exact ihl _ _

/-- The call log `dfsCalls` follows the control flow of `dfs`: the two fail
together, with the same fault, and so return together. -/
theorem dfsCalls_error (adj : Adj) : ∀ (fuel u p : Nat) (dp : Dp) (e : Fault),
    dfs adj fuel u p dp = .error e ↔ dfsCalls adj fuel u p = .error e := by
  intro fuel
  induction fuel with
  | zero => intro u p dp e; simp [dfs, dfsCalls]
  | succ fuel ih =>
    intro u p dp e
    by_cases hu : MAXN ≤ u
    · simp [dfs, dfsCalls, hu]
    · rw [dfs_succ adj fuel u p dp (by omega), dfsCalls_succ adj fuel u p (by omega)]
      exact fold_calls_error adj fuel ih u p e (adj u) _ _

/-- The call log of `main` fails exactly when the run of `main` up to the
final table fails, with the same fault. -/
theorem mainCalls_error (n : Nat) (E : List (Nat × Nat)) (fuel : Nat) (e : Fault) :
    finalDp n E fuel = .error e ↔ mainCalls n E fuel = .error e := by
  unfold finalDp mainCalls
  cases hb : buildAdj (E.take (n - 1)) (fun _ => []) with
  | error e1 =>
    simp only
    constructor <;> (intro h; injection h with h; rw [h])
  | ok adj =>
    simp only
    exact dfsCalls_error adj fuel 1 0 _ e

/-! ### The forest below a node -/

theorem val_eq_sub : ∀ (f : Forest) (u : Nat), u ∈ ids f →
    val f u = ((sums (sub f u)).2, (sums (sub f u)).1 + 1) := by
  intro f
  induction f with
  | nil => intro u hu; simp [ids] at hu
  | cons v cs sib ih1 ih2 =>
    intro u hu
    simp only [ids, List.mem_cons, List.mem_append] at hu
    by_cases huv : u = v
    · simp only [val, sub, if_pos huv]
    · by_cases huc : u ∈ ids cs
      · simp only [val, sub, if_neg huv, if_pos huc]; exact ih1 u huc
      · simp only [val, sub, if_neg huv, if_neg huc]
        exact ih2 u (by tauto)

theorem ids_sub_subset : ∀ (f : Forest) (u x : Nat), x ∈ ids (sub f u) → x ∈ ids f := by
  intro f
  induction f with
  | nil => intro u x hx; simp [sub, ids] at hx
  | cons v cs sib ih1 ih2 =>
    intro u x hx
    simp only [ids, List.mem_cons, List.mem_append]
    by_cases huv : u = v
    · simp only [sub, if_pos huv] at hx; exact Or.inr (Or.inl hx)
    · by_cases huc : u ∈ ids cs
      · simp only [sub, if_neg huv, if_pos huc] at hx
        exact Or.inr (Or.inl (ih1 u x hx))
      · simp only [sub, if_neg huv, if_neg huc] at hx
        exact Or.inr (Or.inr (ih2 u x hx))

/-- With no node twice in the forest, what lies below `u` holds neither `u`
nor a root of the forest. -/
theorem ids_sub_proper : ∀ (f : Forest) (u x : Nat), (ids f).Nodup → x ∈ ids (sub f u) →
    x ≠ u ∧ x ∉ roots f := by
  intro f
  induction f with
  | nil => intro u x _ hx; simp [sub, ids] at hx
  | cons v cs sib ih1 ih2 =>
    intro u x hnd hx
    simp only [ids, List.nodup_cons, List.mem_append, not_or, List.nodup_append] at hnd
    obtain ⟨⟨hvcs, hvsib⟩, hndcs, hndsib, hdisj⟩ := hnd
    simp only [roots, List.mem_cons, not_or]
    by_cases huv : u = v
    · simp only [sub, if_pos huv] at hx
      subst huv
      have hxu : x ≠ u := fun e => hvcs (e ▸ hx)
      exact ⟨hxu, hxu, fun hr => hdisj hx (roots_subset_ids sib x hr)⟩
    · by_cases huc : u ∈ ids cs
      · simp only [sub, if_neg huv, if_pos huc] at hx
        have hxc := ids_sub_subset cs u x hx
        exact ⟨(ih1 u x hndcs hx).1, fun e => hvcs (e ▸ hxc),
          fun hr => hdisj hxc (roots_subset_ids sib x hr)⟩
      · simp only [sub, if_neg huv, if_neg huc] at hx
        have hxs := ids_sub_subset sib u x hx
        exact ⟨(ih2 u x hndsib hx).1, fun e => hvsib (e ▸ hxs), (ih2 u x hndsib hx).2⟩

theorem nodup_ids_sub : ∀ (f : Forest) (u : Nat), (ids f).Nodup → (ids (sub f u)).Nodup := by
  intro f
  induction f with
  | nil => intro u _; simp [sub, ids]
  | cons v cs sib ih1 ih2 =>
    intro u hnd
    simp only [ids, List.nodup_cons, List.mem_append, not_or, List.nodup_append] at hnd
    obtain ⟨_, hndcs, hndsib, _⟩ := hnd
    by_cases huv : u = v
    · simp only [sub, if_pos huv]; exact hndcs
    · by_cases huc : u ∈ ids cs
      · simp only [sub, if_neg huv, if_pos huc]; exact ih1 u hndcs
      · simp only [sub, if_neg huv, if_neg huc]; exact ih2 u hndsib

theorem edges_sub_subset : ∀ (f : Forest) (u : Nat) (e : Nat × Nat),
    e ∈ edges (sub f u) → e ∈ edges f := by
  intro f
  induction f with
  | nil => intro u e he; simp [sub, edges] at he
  | cons v cs sib ih1 ih2 =>
    intro u e he
    simp only [edges, List.mem_append]
    by_cases huv : u = v
    · simp only [sub, if_pos huv] at he; exact Or.inr (Or.inl he)
    · by_cases huc : u ∈ ids cs
      · simp only [sub, if_neg huv, if_pos huc] at he
        exact Or.inr (Or.inl (ih1 u e he))
      · simp only [sub, if_neg huv, if_neg huc] at he
        exact Or.inr (Or.inr (ih2 u e he))

theorem mem_edges_cons (v : Nat) (cs sib : Forest) (a b : Nat) :
    (a, b) ∈ edges (Forest.cons v cs sib) ↔
      (a = v ∧ b ∈ roots cs) ∨ (a, b) ∈ edges cs ∨ (a, b) ∈ edges sib := by
  simp only [edges, List.mem_append, List.mem_map, Prod.mk.injEq]
  constructor
  · rintro (⟨c, hc, h1, h2⟩ | h | h)
    · subst h1; subst h2; exact Or.inl ⟨rfl, hc⟩
    · exact Or.inr (Or.inl h)
    · exact Or.inr (Or.inr h)
  · rintro (⟨h1, h2⟩ | h | h)
    · exact Or.inl ⟨b, h2, h1.symm, rfl⟩
    · exact Or.inr (Or.inl h)
    · exact Or.inr (Or.inr h)

/-- The edges of the forest respect the part below `u`: the child end of an
edge lies below `u` exactly when its parent end is `u` or lies below `u`. -/
theorem edge_sub_iff : ∀ (f : Forest) (u a b : Nat), (ids f).Nodup → u ∈ ids f →
    (a, b) ∈ edges f →
    ((a = u ∨ a ∈ ids (sub f u)) ↔ b ∈ ids (sub f u)) := by
  intro f
  induction f with
  | nil => intro u a b _ hu; simp [ids] at hu
  | cons v cs sib ih1 ih2 =>
    intro u a b hnd hu hab
    have hnd0 := hnd
    simp only [ids, List.nodup_cons, List.mem_append, not_or, List.nodup_append] at hnd
    obtain ⟨⟨hvcs, hvsib⟩, hndcs, hndsib, hdisj⟩ := hnd
    have hd : ∀ x, x ∈ ids cs → x ∈ ids sib → False := fun x h1 h2 => hdisj h1 h2
    simp only [ids, List.mem_cons, List.mem_append] at hu
    have hcases := (mem_edges_cons v cs sib a b).mp hab
    by_cases huv : u = v
    · subst huv
      simp only [sub, if_true]
      rcases hcases with ⟨h1, h2⟩ | h | h
      · exact ⟨fun _ => roots_subset_ids cs b h2, fun _ => Or.inl h1⟩
      · have hi := edges_subset_ids cs a b h
        exact ⟨fun _ => hi.2, fun _ => Or.inr hi.1⟩
      · have hi := edges_subset_ids sib a b h
        constructor
        · rintro (h1 | h1)
          · exact absurd (h1 ▸ hi.1) hvsib
          · exact absurd hi.1 (hd a h1)
        · intro h1; exact absurd hi.2 (hd b h1)
    · by_cases huc : u ∈ ids cs
      · simp only [sub, if_neg huv, if_pos huc]
        rcases hcases with ⟨h1, h2⟩ | h | h
        · constructor
          · rintro (h3 | h3)
            · exact absurd (h1 ▸ h3) (fun e => huv e.symm)
            · exact absurd (ids_sub_subset cs u a h3) (h1 ▸ hvcs)
          · intro h3; exact absurd h2 (ids_sub_proper cs u b hndcs h3).2
        · exact ih1 u a b hndcs huc h
        · have hi := edges_subset_ids sib a b h
          constructor
          · rintro (h3 | h3)
            · exact absurd hi.1 (hd a (h3 ▸ huc))
            · exact absurd hi.1 (hd a (ids_sub_subset cs u a h3))
          · intro h3; exact absurd hi.2 (hd b (ids_sub_subset cs u b h3))
      · have hus : u ∈ ids sib := by tauto
        simp only [sub, if_neg huv, if_neg huc]
        rcases hcases with ⟨h1, h2⟩ | h | h
        · have hb := roots_subset_ids cs b h2
          constructor
          · rintro (h3 | h3)
            · exact absurd (h1 ▸ h3) (fun e => huv e.symm)
            · exact absurd (ids_sub_subset sib u a h3) (h1 ▸ hvsib)
          · intro h3; exact absurd (ids_sub_subset sib u b h3) (hd b hb)
        · have hi := edges_subset_ids cs a b h
          constructor
          · rintro (h3 | h3)
            · exact absurd (h3 ▸ hi.1) huc
            · exact absurd (ids_sub_subset sib u a h3) (hd a hi.1)
          · intro h3; exact absurd (ids_sub_subset sib u b h3) (hd b hi.2)
        · exact ih2 u a b hndsib hus h

theorem edges_sub_of_mem : ∀ (f : Forest) (u a b : Nat), (ids f).Nodup →
    (a, b) ∈ edges f → a ∈ ids (sub f u) → (a, b) ∈ edges (sub f u) := by
  intro f
  induction f with
  | nil => intro u a b _ hab; simp [edges] at hab
  | cons v cs sib ih1 ih2 =>
    intro u a b hnd hab ha
    simp only [ids, List.nodup_cons, List.mem_append, not_or, List.nodup_append] at hnd
    obtain ⟨⟨hvcs, hvsib⟩, hndcs, hndsib, hdisj⟩ := hnd
    have hd : ∀ x, x ∈ ids cs → x ∈ ids sib → False := fun x h1 h2 => hdisj h1 h2
    have hcases := (mem_edges_cons v cs sib a b).mp hab
    by_cases huv : u = v
    · simp only [sub, if_pos huv] at ha ⊢
      rcases hcases with ⟨h1, _⟩ | h | h
      · exact absurd (h1 ▸ ha) hvcs
      · exact h
      · exact absurd (edges_subset_ids sib a b h).1 (hd a ha)
    · by_cases huc : u ∈ ids cs
      · simp only [sub, if_neg huv, if_pos huc] at ha ⊢
        have hac := ids_sub_subset cs u a ha
        rcases hcases with ⟨h1, _⟩ | h | h
        · exact absurd (h1 ▸ hac) hvcs
        · exact ih1 u a b hndcs h ha
        · exact absurd (edges_subset_ids sib a b h).1 (hd a hac)
      · simp only [sub, if_neg huv, if_neg huc] at ha ⊢
        have has := ids_sub_subset sib u a ha
        rcases hcases with ⟨h1, _⟩ | h | h
        · exact absurd (h1 ▸ has) hvsib
        · exact absurd has (hd a (edges_subset_ids cs a b h).1)
        · exact ih2 u a b hndsib h ha

/-- The children of `u` in the forest are the roots of the forest below `u`. -/
theorem edge_root_iff : ∀ (f : Forest) (u c : Nat), (ids f).Nodup → u ∈ ids f →
    ((u, c) ∈ edges f ↔ c ∈ roots (sub f u)) := by
  intro f
  induction f with
  | nil => intro u c _ hu; simp [ids] at hu
  | cons v cs sib ih1 ih2 =>
    intro u c hnd hu
    simp only [ids, List.nodup_cons, List.mem_append, not_or, List.nodup_append] at hnd
    obtain ⟨⟨hvcs, hvsib⟩, hndcs, hndsib, hdisj⟩ := hnd
    have hd : ∀ x, x ∈ ids cs → x ∈ ids sib → False := fun x h1 h2 => hdisj h1 h2
    simp only [ids, List.mem_cons, List.mem_append] at hu
    rw [mem_edges_cons]
    by_cases huv : u = v
    · subst huv
      simp only [sub, if_true]
      constructor
      · rintro (⟨_, h⟩ | h | h)
        · exact h
        · exact absurd (edges_subset_ids cs u c h).1 hvcs
        · exact absurd (edges_subset_ids sib u c h).1 hvsib
      · intro h; exact Or.inl ⟨trivial, h⟩
    · by_cases huc : u ∈ ids cs
      · simp only [sub, if_neg huv, if_pos huc]
        rw [← ih1 u c hndcs huc]
        constructor
        · rintro (⟨h, _⟩ | h | h)
          · exact absurd h huv
          · exact h
          · exact absurd (edges_subset_ids sib u c h).1 (hd u huc)
        · intro h; exact Or.inr (Or.inl h)
      · have hus : u ∈ ids sib := by tauto
        simp only [sub, if_neg huv, if_neg huc]
        rw [← ih2 u c hndsib hus]
        constructor
        · rintro (⟨h, _⟩ | h | h)
          · exact absurd h huv
          · exact absurd (edges_subset_ids cs u c h).1 huc
          · exact h
        · intro h; exact Or.inr (Or.inr h)

/-- In the call tree, the children of a node are its neighbours other than its
parent `p`: the parameter of the outermost call for a root, the node above
otherwise. -/
theorem shape_at (adj : Adj) : ∀ (f : Forest) (p0 u : Nat), Shape adj p0 f → u ∈ ids f →
    ∃ p, (adj u).filter (fun v => decide (v ≠ p)) = roots (sub f u) ∧
      ((p = p0 ∧ u ∈ roots f) ∨ (p, u) ∈ edges f) := by
  intro f
  induction f with
  | nil => intro p0 u _ hu; simp [ids] at hu
  | cons v cs sib ih1 ih2 =>
    intro p0 u hs hu
    obtain ⟨h1, h2, h3⟩ := hs
    simp only [ids, List.mem_cons, List.mem_append] at hu
    by_cases huv : u = v
    · subst huv
      refine ⟨p0, ?_, Or.inl ⟨rfl, by simp [roots]⟩⟩
      simp only [sub, if_true]; exact h1
    · by_cases huc : u ∈ ids cs
      · obtain ⟨p, hp1, hp2⟩ := ih1 v u h2 huc
        refine ⟨p, ?_, Or.inr ?_⟩
        · simp only [sub, if_neg huv, if_pos huc]; exact hp1
        · rw [mem_edges_cons]
          rcases hp2 with ⟨hpv, hr⟩ | h
          · exact Or.inl ⟨hpv, hr⟩
          · exact Or.inr (Or.inl h)
      · have hus : u ∈ ids sib := by tauto
        obtain ⟨p, hp1, hp2⟩ := ih2 p0 u h3 hus
        refine ⟨p, ?_, ?_⟩
        · simp only [sub, if_neg huv, if_neg huc]; exact hp1
        · rcases hp2 with ⟨hpv, hr⟩ | h
          · exact Or.inl ⟨hpv, by simp [roots, hr]⟩
          · exact Or.inr (by rw [mem_edges_cons]; exact Or.inr (Or.inr h))

theorem sub_sub : ∀ (f : Forest) (u c : Nat), (ids f).Nodup → c ∈ ids (sub f u) →
    sub (sub f u) c = sub f c := by
  intro f
  induction f with
  | nil => intro u c _ hc; simp [sub, ids] at hc
  | cons v cs sib ih1 ih2 =>
    intro u c hnd hc
    simp only [ids, List.nodup_cons, List.mem_append, not_or, List.nodup_append] at hnd
    obtain ⟨⟨hvcs, hvsib⟩, hndcs, hndsib, hdisj⟩ := hnd
    have hd : ∀ x, x ∈ ids cs → x ∈ ids sib → False := fun x h1 h2 => hdisj h1 h2
    by_cases huv : u = v
    · simp only [sub, if_pos huv] at hc ⊢
      have hcv : c ≠ v := fun e => hvcs (e ▸ hc)
      simp only [if_neg hcv, if_pos hc]
    · by_cases huc : u ∈ ids cs
      · simp only [sub, if_neg huv, if_pos huc] at hc ⊢
        have hcc := ids_sub_subset cs u c hc
        have hcv : c ≠ v := fun e => hvcs (e ▸ hcc)
        simp only [if_neg hcv, if_pos hcc]
        exact ih1 u c hndcs hc
      · simp only [sub, if_neg huv, if_neg huc] at hc ⊢
        have hcs := ids_sub_subset sib u c hc
        have hcv : c ≠ v := fun e => hvsib (e ▸ hcs)
        have hcc : c ∉ ids cs := fun h => hd c h hcs
        simp only [if_neg hcv, if_neg hcc]
        exact ih2 u c hndsib hc

theorem val_sub (f : Forest) (u c : Nat) (hnd : (ids f).Nodup) (hc : c ∈ ids (sub f u)) :
    val (sub f u) c = val f c := by
  rw [val_eq_sub (sub f u) c hc, val_eq_sub f c (ids_sub_subset f u c hc), sub_sub f u c hnd hc]

/-- The two sums of a forest are the sums over its roots of the values of the
recurrence. -/
theorem sums_roots : ∀ (g : Forest), (ids g).Nodup →
    (sums g).1 = ((roots g).map (fun c => (val g c).1)).sum ∧
    (sums g).2 = ((roots g).map (fun c => max (val g c).1 (val g c).2)).sum := by
  intro g
  induction g with
  | nil => intro _; simp [sums, roots]
  | cons v cs sib _ ih2 =>
    intro hnd
    simp only [ids, List.nodup_cons, List.mem_append, not_or, List.nodup_append] at hnd
    obtain ⟨⟨_, hvsib⟩, _, hndsib, hdisj⟩ := hnd
    have hval : ∀ c, c ∈ roots sib → val (Forest.cons v cs sib) c = val sib c := by
      intro c hc
      have hcs := roots_subset_ids sib c hc
      have hcv : c ≠ v := fun e => hvsib (e ▸ hcs)
      have hcc : c ∉ ids cs := fun h => hdisj h hcs
      simp only [val, if_neg hcv, if_neg hcc]
    have h1 : (roots sib).map (fun c => (val (Forest.cons v cs sib) c).1)
        = (roots sib).map (fun c => (val sib c).1) :=
      List.map_congr_left (fun c hc => by rw [hval c hc])
    have h2 : (roots sib).map
          (fun c => max (val (Forest.cons v cs sib) c).1 (val (Forest.cons v cs sib) c).2)
        = (roots sib).map (fun c => max (val sib c).1 (val sib c).2) :=
      List.map_congr_left (fun c hc => by rw [hval c hc])
    obtain ⟨i1, i2⟩ := ih2 hndsib
    have hv : val (Forest.cons v cs sib) v = ((sums cs).2, (sums cs).1 + 1) := by
      simp only [val, if_true]
    simp only [roots, List.map_cons, List.sum_cons, h1, h2, hv, sums, ← i1, ← i2, and_self]

/-- The numeric bounds on the two sums of a forest. -/
theorem sums_bounds : ∀ (g : Forest),
    (sums g).1 ≤ (sums g).2 ∧ (sums g).2 ≤ (ids g).length ∧
    (ids g).length ≤ (sums g).1 + (sums g).2 ∧
    (sums g).1 + (roots g).length ≤ (ids g).length ∧
    (sums g).2 ≤ (sums g).1 + (roots g).length := by
  intro g
  induction g with
  | nil => simp [sums, ids, roots]
  | cons v cs sib ih1 ih2 =>
    obtain ⟨a1, b1, c1, d1, e1⟩ := ih1
    obtain ⟨a2, b2, c2, d2, e2⟩ := ih2
    simp only [sums, ids, roots, List.length_cons, List.length_append]
    refine ⟨?_, ?_, ?_, ?_, ?_⟩ <;> omega

/-- Every node of a forest is reached from a root along parent-child pairs. -/
theorem down_path : ∀ (f : Forest) (x : Nat), x ∈ ids f →
    ∃ r, r ∈ roots f ∧ Relation.ReflTransGen (fun a b => (a, b) ∈ edges f) r x := by
  intro f
  induction f with
  | nil => intro x hx; simp [ids] at hx
  | cons v cs sib ih1 ih2 =>
    intro x hx
    simp only [ids, List.mem_cons, List.mem_append] at hx
    rcases hx with hx | hx | hx
    · exact ⟨v, by simp [roots], hx ▸ Relation.ReflTransGen.refl⟩
    · obtain ⟨r, hr, hpath⟩ := ih1 x hx
      refine ⟨v, by simp [roots], ?_⟩
      have h1 : (v, r) ∈ edges (Forest.cons v cs sib) :=
        (mem_edges_cons v cs sib v r).mpr (Or.inl ⟨rfl, hr⟩)
      refine Relation.ReflTransGen.head h1 ?_
      exact Relation.ReflTransGen.mono
        (fun a b hab => (mem_edges_cons v cs sib a b).mpr (Or.inr (Or.inl hab))) hpath
    · obtain ⟨r, hr, hpath⟩ := ih2 x hx
      refine ⟨r, by simp [roots, hr], ?_⟩
      exact Relation.ReflTransGen.mono
        (fun a b hab => (mem_edges_cons v cs sib a b).mpr (Or.inr (Or.inr hab))) hpath

/-- A walk that does not touch `u` and starts outside the part below `u` stays
outside of it. -/
theorem outside_of_avoid (V : Finset Nat) (E : List (Nat × Nat)) (p0 : Nat) (f : Forest)
    (h : Spans V E p0 f) (u r : Nat) (hu : u ∈ ids f) (hr : r ∉ ids (sub f u)) :
    ∀ x, Relation.ReflTransGen (Avoid E u) r x → x ∉ ids (sub f u) := by
  obtain ⟨_, hnd, _, _, hedge2⟩ := h
  intro x hpath
  induction hpath with
  | refl => exact hr
  | @tail y z _ hyz ih =>
    obtain ⟨hadj, hy, hz⟩ := hyz
    rcases hedge2 y z hadj with h1 | h1
    · have := edge_sub_iff f u y z hnd hu h1
      intro hzD
      rcases this.mpr hzD with h2 | h2
      · exact hy h2
      · exact ih h2
    · have := edge_sub_iff f u z y hnd hu h1
      intro hzD
      exact ih (this.mp (Or.inr hzD))

/-- A node that is neither `u` nor below `u` is joined to a root by a walk
that does not touch `u`. -/
theorem avoid_of_outside (V : Finset Nat) (E : List (Nat × Nat)) (p0 : Nat) (f : Forest)
    (h : Spans V E p0 f) (u x : Nat) (hu : u ∈ ids f) (hx : x ∈ ids f) (hxu : x ≠ u)
    (hxD : x ∉ ids (sub f u)) :
    ∃ r, r ∈ roots f ∧ Relation.ReflTransGen (Avoid E u) r x := by
  obtain ⟨_, hnd, _, hedge1, _⟩ := h
  obtain ⟨r, hr, hpath⟩ := down_path f x hx
  refine ⟨r, hr, ?_⟩
  induction hpath with
  | refl => exact Relation.ReflTransGen.refl
  | @tail y z _ hyz ih =>
    have hiff := edge_sub_iff f u y z hnd hu hyz
    have hy1 : y ≠ u := fun e => hxD (hiff.mp (Or.inl e))
    have hy2 : y ∉ ids (sub f u) := fun e => hxD (hiff.mp (Or.inr e))
    have hyf : y ∈ ids f := (edges_subset_ids f y z hyz).1
    exact Relation.ReflTransGen.tail (ih hyf hy1 hy2) ⟨hedge1 y z hyz, hy1, hxu⟩

/-- In the call tree of a tree input, the subtree rooted at `u` consists of `u`
and the nodes below `u`. -/
theorem inSubtree_iff (n : Nat) (E : List (Nat × Nat)) (cs : Forest)
    (h : Spans (Finset.Icc 1 n) E 0 (Forest.cons 1 cs Forest.nil)) (u x : Nat)
    (hu : u ∈ ids (Forest.cons 1 cs Forest.nil)) (hx : x ∈ ids (Forest.cons 1 cs Forest.nil)) :
    InSubtree E u x ↔ (x = u ∨ x ∈ ids (sub (Forest.cons 1 cs Forest.nil) u)) := by
  have hnd := h.2.1
  have h1 : 1 ∉ ids (sub (Forest.cons 1 cs Forest.nil) u) := fun h1 =>
    (ids_sub_proper _ u 1 hnd h1).2 (by simp [roots])
  unfold InSubtree
  constructor
  · rintro (hxu | hno)
    · exact Or.inl hxu
    · by_contra hcon
      push_neg at hcon
      obtain ⟨r, hr, hpath⟩ := avoid_of_outside _ E 0 _ h u x hu hx hcon.1 hcon.2
      simp only [roots, List.mem_singleton] at hr
      subst hr
      exact hno hpath
  · rintro (hxu | hxD)
    · exact Or.inl hxu
    · exact Or.inr (fun hpath => outside_of_avoid _ E 0 _ h u 1 hu h1 x hpath hxD)

/-- In the call tree of a tree input, every node has a parent: the neighbour
left out of its list of children. -/
theorem parent_at (n : Nat) (E : List (Nat × Nat)) (cs : Forest)
    (h : Spans (Finset.Icc 1 n) E 0 (Forest.cons 1 cs Forest.nil)) (u : Nat)
    (hu : u ∈ ids (Forest.cons 1 cs Forest.nil)) :
    ∃ p, IsParent E u p ∧
      (adjOf E u).filter (fun v => decide (v ≠ p))
        = roots (sub (Forest.cons 1 cs Forest.nil) u) := by
  have hnd := h.2.1
  obtain ⟨p, hp1, hp2⟩ := shape_at (adjOf E) _ 0 u h.1 hu
  refine ⟨p, ?_, hp1⟩
  rcases hp2 with ⟨hp0, hr⟩ | hpu
  · simp only [roots, List.mem_singleton] at hr
    exact Or.inl ⟨hr, hp0⟩
  · have hpf := (edges_subset_ids _ p u hpu).1
    have huD : u ∉ ids (sub (Forest.cons 1 cs Forest.nil) u) := fun hc =>
      (ids_sub_proper _ u u hnd hc).1 rfl
    have hiff := edge_sub_iff _ u p u hnd hu hpu
    have hp1u : p ≠ u := fun e => huD (hiff.mp (Or.inl e))
    have hpD : p ∉ ids (sub (Forest.cons 1 cs Forest.nil) u) := fun e => huD (hiff.mp (Or.inr e))
    have hu1 : u ≠ 1 := by
      have h2 := (edge_sub_iff _ p p u hnd hpf hpu).mp (Or.inl rfl)
      intro e
      exact (ids_sub_proper _ p u hnd h2).2 (by simp [roots, e])
    obtain ⟨r, hr, hpath⟩ := avoid_of_outside _ E 0 _ h u p hu hpf hp1u hpD
    simp only [roots, List.mem_singleton] at hr
    subst hr
    have hadj := h.2.2.2.1 p u hpu
    exact Or.inr ⟨hu1, Or.symm hadj, hpath⟩

theorem cnt_cons (S : List Nat) (u : Nat) (l : List Nat) :
    cnt S (u :: l) = cnt S l + (if u ∈ S then 1 else 0) := by
  unfold cnt
  rw [List.countP_cons]
  simp

/-- No independent set of the subtree of `u` that leaves `u` out is larger than
the recurrence value, and one of them attains it. -/
theorem sub_excl_max (n : Nat) (E : List (Nat × Nat)) (cs : Forest)
    (h : Spans (Finset.Icc 1 n) E 0 (Forest.cons 1 cs Forest.nil)) (u : Nat)
    (hu : u ∈ ids (Forest.cons 1 cs Forest.nil)) :
    IsMaxLength (fun S => IndepInSubtree n E u S ∧ u ∉ S)
      (sums (sub (Forest.cons 1 cs Forest.nil) u)).2 := by
  have hspan := h
  obtain ⟨_, hnd, hids, hedge1, hedge2⟩ := h
  have hndD := nodup_ids_sub _ u hnd
  have hrange : ∀ x, x ∈ ids (Forest.cons 1 cs Forest.nil) ↔ (1 ≤ x ∧ x ≤ n) := by
    intro x; rw [hids x, Finset.mem_Icc]
  obtain ⟨⟨_, hl2⟩, _, hin2, ⟨_, hnd2⟩, _, hind2⟩ := sets_spec _ hndD
  constructor
  · refine ⟨(sets (sub (Forest.cons 1 cs Forest.nil) u)).2, ⟨⟨hnd2, ?_, ?_⟩, ?_⟩, hl2⟩
    · intro x hx
      have hxf := ids_sub_subset _ u x (hin2 x hx)
      exact ⟨(hrange x).mp hxf, (inSubtree_iff n E cs hspan u x hu hxf).mpr (Or.inr (hin2 x hx))⟩
    · rw [independent_iff]
      intro e he hboth
      rcases hedge2 e.1 e.2 (Or.inl he) with h1 | h1
      · exact hind2 _ _ (edges_sub_of_mem _ u _ _ hnd h1 (hin2 _ hboth.1)) hboth
      · exact hind2 _ _ (edges_sub_of_mem _ u _ _ hnd h1 (hin2 _ hboth.2)) ⟨hboth.2, hboth.1⟩
    · intro huS
      exact (ids_sub_proper _ u u hnd (hin2 u huS)).1 rfl
  · rintro S ⟨⟨hSnd, hSin, hSind⟩, huS⟩
    have hsubD : ∀ x, x ∈ S → x ∈ ids (sub (Forest.cons 1 cs Forest.nil) u) := by
      intro x hx
      obtain ⟨hx1, hx2⟩ := hSin x hx
      rcases (inSubtree_iff n E cs hspan u x hu ((hrange x).mpr hx1)).mp hx2 with h1 | h1
      · exact absurd (h1 ▸ hx) huS
      · exact h1
    rw [← cnt_eq_length S _ hSnd hndD hsubD]
    rw [independent_iff] at hSind
    refine (forest_upper S _ (fun a b hab hboth => ?_)).1
    rcases hedge1 a b (edges_sub_subset _ u _ hab) with h1 | h1
    · exact hSind _ h1 hboth
    · exact hSind _ h1 ⟨hboth.2, hboth.1⟩

/-- No independent set of the subtree of `u` that holds `u` is larger than the
recurrence value, and one of them attains it. -/
theorem sub_incl_max (n : Nat) (E : List (Nat × Nat)) (cs : Forest)
    (h : Spans (Finset.Icc 1 n) E 0 (Forest.cons 1 cs Forest.nil)) (u : Nat)
    (hu : u ∈ ids (Forest.cons 1 cs Forest.nil)) :
    IsMaxLength (fun S => IndepInSubtree n E u S ∧ u ∈ S)
      ((sums (sub (Forest.cons 1 cs Forest.nil) u)).1 + 1) := by
  have hspan := h
  obtain ⟨_, hnd, hids, hedge1, hedge2⟩ := h
  have hndD := nodup_ids_sub _ u hnd
  have hrange : ∀ x, x ∈ ids (Forest.cons 1 cs Forest.nil) ↔ (1 ≤ x ∧ x ≤ n) := by
    intro x; rw [hids x, Finset.mem_Icc]
  have huD : u ∉ ids (sub (Forest.cons 1 cs Forest.nil) u) := fun hc =>
    (ids_sub_proper _ u u hnd hc).1 rfl
  obtain ⟨⟨hl1, _⟩, hin1, _, ⟨hnd1, _⟩, hind1, _⟩ := sets_spec _ hndD
  constructor
  · refine ⟨u :: (sets (sub (Forest.cons 1 cs Forest.nil) u)).1,
      ⟨⟨List.nodup_cons.mpr ⟨fun hc => huD (hin1 u hc).1, hnd1⟩, ?_, ?_⟩,
        List.mem_cons_self _ _⟩, by simp [hl1]⟩
    · intro x hx
      rcases List.mem_cons.mp hx with hxu | hx
      · subst hxu
        exact ⟨(hrange x).mp hu, Or.inl rfl⟩
      · have hxf := ids_sub_subset _ u x (hin1 x hx).1
        exact ⟨(hrange x).mp hxf,
          (inSubtree_iff n E cs hspan u x hu hxf).mpr (Or.inr (hin1 x hx).1)⟩
    · rw [independent_iff]
      intro e he hboth
      -- an edge of the forest with both ends in the set
      have key : ∀ a b, (a, b) ∈ edges (Forest.cons 1 cs Forest.nil) →
          a ∈ u :: (sets (sub (Forest.cons 1 cs Forest.nil) u)).1 →
          b ∈ u :: (sets (sub (Forest.cons 1 cs Forest.nil) u)).1 → False := by
        intro a b hab ha hb
        have hiff := edge_sub_iff _ u a b hnd hu hab
        rcases List.mem_cons.mp hb with hbu | hb
        · -- the child end is `u`: the parent end is `u` or below `u`
          rcases List.mem_cons.mp ha with hau | ha
          · exact huD (hbu ▸ hiff.mp (Or.inl hau))
          · exact huD (hbu ▸ hiff.mp (Or.inr (hin1 a ha).1))
        · rcases List.mem_cons.mp ha with hau | ha
          · subst hau
            exact (hin1 b hb).2 ((edge_root_iff _ a b hnd hu).mp hab)
          · exact hind1 a b (edges_sub_of_mem _ u a b hnd hab (hin1 a ha).1) ⟨ha, hb⟩
      rcases hedge2 e.1 e.2 (Or.inl he) with h1 | h1
      · exact key _ _ h1 hboth.1 hboth.2
      · exact key _ _ h1 hboth.2 hboth.1
  · rintro S ⟨⟨hSnd, hSin, hSind⟩, huS⟩
    have hsubD : ∀ x, x ∈ S → x ∈ u :: ids (sub (Forest.cons 1 cs Forest.nil) u) := by
      intro x hx
      obtain ⟨hx1, hx2⟩ := hSin x hx
      rcases (inSubtree_iff n E cs hspan u x hu ((hrange x).mpr hx1)).mp hx2 with h1 | h1
      · exact List.mem_cons.mpr (Or.inl h1)
      · exact List.mem_cons.mpr (Or.inr h1)
    rw [← cnt_eq_length S _ hSnd (List.nodup_cons.mpr ⟨huD, hndD⟩) hsubD, cnt_cons, if_pos huS]
    rw [independent_iff] at hSind
    have hup := forest_upper S (sub (Forest.cons 1 cs Forest.nil) u) (fun a b hab hboth => by
      rcases hedge1 a b (edges_sub_subset _ u _ hab) with h1 | h1
      · exact hSind _ h1 hboth
      · exact hSind _ h1 ⟨hboth.2, hboth.1⟩)
    have hroots : ∀ x, x ∈ roots (sub (Forest.cons 1 cs Forest.nil) u) → x ∉ S := by
      intro x hx hxS
      have hux := (edge_root_iff _ u x hnd hu).mpr hx
      rcases hedge1 u x hux with h1 | h1
      · exact hSind _ h1 ⟨huS, hxS⟩
      · exact hSind _ h1 ⟨hxS, huS⟩
    have := hup.2 hroots
    omega

theorem root_not_child (f : Forest) (b u : Nat) (hnd : (ids f).Nodup)
    (hbu : (b, u) ∈ edges f) : u ∉ roots f := by
  have hb := (edges_subset_ids f b u hbu).1
  have h1 := (edge_sub_iff f b b u hnd hb hbu).mp (Or.inl rfl)
  exact (ids_sub_proper f b u hnd h1).2

/-- A node of a forest has at most one node above it. -/
theorem edge_parent_unique : ∀ (f : Forest) (a b u : Nat), (ids f).Nodup →
    (a, u) ∈ edges f → (b, u) ∈ edges f → a = b := by
  intro f
  induction f with
  | nil => intro a b u _ ha; simp [edges] at ha
  | cons v cs sib ih1 ih2 =>
    intro a b u hnd ha hb
    simp only [ids, List.nodup_cons, List.mem_append, not_or, List.nodup_append] at hnd
    obtain ⟨⟨_, _⟩, hndcs, hndsib, hdisj⟩ := hnd
    have hd : ∀ x, x ∈ ids cs → x ∈ ids sib → False := fun x h1 h2 => hdisj h1 h2
    rcases (mem_edges_cons v cs sib a u).mp ha with ⟨ha1, ha2⟩ | ha | ha
    · rcases (mem_edges_cons v cs sib b u).mp hb with ⟨hb1, _⟩ | hb | hb
      · rw [ha1, hb1]
      · exact absurd ha2 (root_not_child cs b u hndcs hb)
      · exact absurd (edges_subset_ids sib b u hb).2 (hd u (roots_subset_ids cs u ha2))
    · rcases (mem_edges_cons v cs sib b u).mp hb with ⟨_, hb2⟩ | hb | hb
      · exact absurd hb2 (root_not_child cs a u hndcs ha)
      · exact ih1 a b u hndcs ha hb
      · exact absurd (edges_subset_ids sib b u hb).2 (hd u (edges_subset_ids cs a u ha).2)
    · rcases (mem_edges_cons v cs sib b u).mp hb with ⟨_, hb2⟩ | hb | hb
      · exact absurd (edges_subset_ids sib a u ha).2 (hd u (roots_subset_ids cs u hb2))
      · exact absurd (edges_subset_ids sib a u ha).2 (hd u (edges_subset_ids cs b u hb).2)
      · exact ih2 a b u hndsib ha hb

/-- In a tree the parent of a node is unique. -/
theorem isParent_unique (n : Nat) (E : List (Nat × Nat)) (cs : Forest)
    (h : Spans (Finset.Icc 1 n) E 0 (Forest.cons 1 cs Forest.nil)) (u : Nat)
    (hu : u ∈ ids (Forest.cons 1 cs Forest.nil)) (p q : Nat)
    (hp : IsParent E u p) (hq : IsParent E u q) : p = q := by
  have hnd := h.2.1
  have h1 : 1 ∉ ids (sub (Forest.cons 1 cs Forest.nil) u) := fun h1 =>
    (ids_sub_proper _ u 1 hnd h1).2 (by simp [roots])
  have above : ∀ x, Adjacent E u x → Relation.ReflTransGen (Avoid E u) 1 x →
      (x, u) ∈ edges (Forest.cons 1 cs Forest.nil) := by
    intro x hadj hpath
    have hxD := outside_of_avoid _ E 0 _ h u 1 hu h1 x hpath
    rcases h.2.2.2.2 u x hadj with h2 | h2
    · exact absurd (roots_subset_ids _ x ((edge_root_iff _ u x hnd hu).mp h2)) hxD
    · exact h2
  rcases hp with ⟨hp1, hp2⟩ | ⟨hp1, hp2, hp3⟩
  · rcases hq with ⟨_, hq2⟩ | ⟨hq1, _, _⟩
    · rw [hp2, hq2]
    · exact absurd hp1 hq1
  · rcases hq with ⟨hq1, _⟩ | ⟨_, hq2, hq3⟩
    · exact absurd hq1 hp1
    · exact edge_parent_unique _ p q u hnd (above p hp2 hp3) (above q hq2 hq3)

/-- A tree with `MAXN` nodes or more has an edge at node `MAXN`: the input
loop indexes `adj` out of range. -/
theorem buildAdj_tree_fault (n : Nat) (E : List (Nat × Nat)) (h : IsTree n E)
    (hbig : MAXN ≤ n) :
    buildAdj (E.take (n - 1)) (fun _ => []) = .error .outOfRange := by
  have hT := treeOn_of_isTree n E h
  have hM : 2 ≤ MAXN := by unfold MAXN; omega
  have hdeg := degree_pos (Finset.Icc 1 n) E 1 hT (by rw [Nat.card_Icc]; omega) MAXN
    (Finset.mem_Icc.mpr ⟨by omega, hbig⟩)
  obtain ⟨b, hb⟩ := List.exists_mem_of_length_pos (by omega : 0 < (adjOf E MAXN).length)
  have hadj := (mem_adjOf E MAXN b).mp hb
  obtain ⟨_, hlen, _, _⟩ := h
  apply buildAdj_fault
  rw [List.take_of_length_le (by omega)]
  rcases hadj with h1 | h1
  · exact ⟨_, h1, Or.inl (le_refl _)⟩
  · exact ⟨_, h1, Or.inr (le_refl _)⟩

theorem finalDp_tree_fault (n : Nat) (E : List (Nat × Nat)) (h : IsTree n E)
    (hbig : MAXN ≤ n) (fuel : Nat) : finalDp n E fuel = .error .outOfRange := by
  unfold finalDp
  rw [buildAdj_tree_fault n E h hbig]

theorem mainCalls_tree_fault (n : Nat) (E : List (Nat × Nat)) (h : IsTree n E)
    (hbig : MAXN ≤ n) (fuel : Nat) : mainCalls n E fuel = .error .outOfRange := by
  unfold mainCalls
  rw [buildAdj_tree_fault n E h hbig]

theorem main_tree_fault (n : Nat) (E : List (Nat × Nat)) (h : IsTree n E)
    (hbig : MAXN ≤ n) (fuel : Nat) : main n E fuel = .error .outOfRange := by
  unfold main
  rw [buildAdj_tree_fault n E h hbig]

/-- The tree with the edges 1-2, 2-3, 2-4. -/
theorem isTree_small : IsTree 4 [(1, 2), (2, 3), (2, 4)] :=
  ⟨by decide, by decide, by decide, fun x h1 h2 => by
    have h12 : Adjacent [(1, 2), (2, 3), (2, 4)] 1 2 := Or.inl (by decide)
    have h23 : Adjacent [(1, 2), (2, 3), (2, 4)] 2 3 := Or.inl (by decide)
    have h24 : Adjacent [(1, 2), (2, 3), (2, 4)] 2 4 := Or.inl (by decide)
    interval_cases x
    · exact Relation.ReflTransGen.refl
    · exact Relation.ReflTransGen.single h12
    · exact (Relation.ReflTransGen.single h12).tail h23
    · exact (Relation.ReflTransGen.single h12).tail h24⟩

/-- C12, as stated, fails for the star with 200005 nodes: it is a tree rooted
at node 1, but `dfs(1, 0)` never completes with a table `dp`, because the input
loop writes `adj[200005]`, outside the array `adj[MAXN]`. -/
theorem table_optimum_capacity_counterexample :
    IsTree 200005 (starEdges 200004) ∧
      ¬ ∃ fuel dp, finalDp 200005 (starEdges 200004) fuel = .ok dp := by
  refine ⟨isTree_star 200004, ?_⟩
  rintro ⟨fuel, dp, h⟩
  rw [finalDp_tree_fault 200005 _ (isTree_star 200004) (by unfold MAXN; omega) fuel] at h
  exact absurd h (by simp)

/-- C12 (amended): for every tree on the nodes `1..n` with `n < MAXN`, rooted at
node 1, `dfs(1, 0)` completes (recursion depth `n` is enough) and leaves a
table `dp` in which, for every node `u`, `dp[u][0]` is the maximum size of an
independent set of the subtree rooted at `u` that does not contain `u`, and
`dp[u][1]` is the maximum size of an independent set of that subtree that
contains `u`. -/
theorem table_is_subtree_optimum (n : Nat) (edges : List (Nat × Nat))
    (h : IsTree n edges) (hn : n < MAXN) (fuel : Nat) (hf : n ≤ fuel) :
    ∃ dp, finalDp n edges fuel = .ok dp ∧
      ∀ u, 1 ≤ u → u ≤ n →
        IsMaxLength (fun S => IndepInSubtree n edges u S ∧ u ∉ S) (dp u).1 ∧
        IsMaxLength (fun S => IndepInSubtree n edges u S ∧ u ∈ S) (dp u).2 := by
  obtain ⟨cs, dp, hspan, hdp, hval, _, _⟩ := run_tree n edges h hn fuel hf
  refine ⟨dp, hdp, ?_⟩
  intro u hu1 hu2
  have hu : u ∈ ids (Forest.cons 1 cs Forest.nil) :=
    (hspan.2.2.1 u).mpr (Finset.mem_Icc.mpr ⟨hu1, hu2⟩)
  rw [hval u hu, val_eq_sub _ u hu]
  exact ⟨sub_excl_max n edges cs hspan u hu, sub_incl_max n edges cs hspan u hu⟩

theorem table_is_subtree_optimum_witness :
    IsTree 4 [(1, 2), (2, 3), (2, 4)] ∧ 4 < MAXN ∧ 4 ≤ 4 ∧
      (∃ dp, finalDp 4 [(1, 2), (2, 3), (2, 4)] 4 = .ok dp ∧
        ∀ u, 1 ≤ u → u ≤ 4 →
          IsMaxLength (fun S => IndepInSubtree 4 [(1, 2), (2, 3), (2, 4)] u S ∧ u ∉ S)
            (dp u).1 ∧
          IsMaxLength (fun S => IndepInSubtree 4 [(1, 2), (2, 3), (2, 4)] u S ∧ u ∈ S)
            (dp u).2) :=
  ⟨isTree_small, by decide, by decide,
    table_is_subtree_optimum 4 [(1, 2), (2, 3), (2, 4)] isTree_small (by decide) 4
      (by decide)⟩

/-- C13, as stated, fails for the path with 200005 nodes: it is a tree rooted at
node 1, but `dfs(1, 0)` leaves no final table, because the input loop writes
`adj[200005]`, outside the array `adj[MAXN]`. -/
theorem table_recurrence_capacity_counterexample :
    IsTree 200005 (pathEdges 200005) ∧
      ¬ ∃ fuel dp, finalDp 200005 (pathEdges 200005) fuel = .ok dp := by
  have ht := isTree_path 200005 (by omega)
  refine ⟨ht, ?_⟩
  rintro ⟨fuel, dp, h⟩
  rw [finalDp_tree_fault 200005 _ ht (by unfold MAXN; omega) fuel] at h
  exact absurd h (by simp)

/-- C13 (amended): for every tree on the nodes `1..n` with `n < MAXN`, rooted at
node 1, the input loop builds the neighbour lists `adjOf edges`, and in the
final table left by `dfs(1, 0)` every node `u` has exactly one parent `p` (the
sentinel 0 for node 1) and satisfies `dp[u][1] = 1 + Σ dp[c][0]` and
`dp[u][0] = Σ max(dp[c][0], dp[c][1])`, the sums over the children `c` of `u`,
its neighbours other than `p`; each node is the first argument of exactly one
call of `dfs`, the only code that writes its entry, so no entry is overwritten
after its children were accumulated. -/
theorem table_satisfies_recurrence (n : Nat) (edges : List (Nat × Nat))
    (h : IsTree n edges) (hn : n < MAXN) (fuel : Nat) (hf : n ≤ fuel) :
    ∃ dp calls, finalDp n edges fuel = .ok dp ∧ mainCalls n edges fuel = .ok calls ∧
      buildAdj (edges.take (n - 1)) (fun _ => []) = .ok (adjOf edges) ∧
      ∀ u, 1 ≤ u → u ≤ n →
        calls.count u = 1 ∧
        ∃ p, IsParent edges u p ∧ (∀ q, IsParent edges u q → q = p) ∧
          (dp u).2 = 1 + (((adjOf edges u).filter (fun v => decide (v ≠ p))).map
              (fun c => (dp c).1)).sum ∧
          (dp u).1 = (((adjOf edges u).filter (fun v => decide (v ≠ p))).map
              (fun c => max (dp c).1 (dp c).2)).sum := by
  obtain ⟨cs, dp, hspan, hdp, hval, hcalls, hbuild⟩ := run_tree n edges h hn fuel hf
  refine ⟨dp, _, hdp, hcalls, hbuild, ?_⟩
  intro u hu1 hu2
  have hnd := hspan.2.1
  have hu : u ∈ ids (Forest.cons 1 cs Forest.nil) :=
    (hspan.2.2.1 u).mpr (Finset.mem_Icc.mpr ⟨hu1, hu2⟩)
  refine ⟨List.count_eq_one_of_mem hnd hu, ?_⟩
  obtain ⟨p, hp, hfilter⟩ := parent_at n edges cs hspan u hu
  refine ⟨p, hp, fun q hq => isParent_unique n edges cs hspan u hu q p hq hp, ?_⟩
  have hndD := nodup_ids_sub _ u hnd
  obtain ⟨s1, s2⟩ := sums_roots _ hndD
  have hc : ∀ c, c ∈ roots (sub (Forest.cons 1 cs Forest.nil) u) →
      dp c = val (sub (Forest.cons 1 cs Forest.nil) u) c := by
    intro c hc
    have hcD := roots_subset_ids _ c hc
    rw [hval c (ids_sub_subset _ u c hcD), val_sub _ u c hnd hcD]
  have m1 : (roots (sub (Forest.cons 1 cs Forest.nil) u)).map (fun c => (dp c).1)
      = (roots (sub (Forest.cons 1 cs Forest.nil) u)).map
          (fun c => (val (sub (Forest.cons 1 cs Forest.nil) u) c).1) :=
    List.map_congr_left (fun c hcm => by rw [hc c hcm])
  have m2 : (roots (sub (Forest.cons 1 cs Forest.nil) u)).map
        (fun c => max (dp c).1 (dp c).2)
      = (roots (sub (Forest.cons 1 cs Forest.nil) u)).map
          (fun c => max (val (sub (Forest.cons 1 cs Forest.nil) u) c).1
            (val (sub (Forest.cons 1 cs Forest.nil) u) c).2) :=
    List.map_congr_left (fun c hcm => by rw [hc c hcm])
  rw [hfilter, m1, m2, ← s1, ← s2, hval u hu, val_eq_sub _ u hu]
  exact ⟨by omega, rfl⟩

theorem table_satisfies_recurrence_witness :
    IsTree 4 [(1, 2), (2, 3), (2, 4)] ∧ 4 < MAXN ∧ 4 ≤ 4 ∧
      (∃ dp calls, finalDp 4 [(1, 2), (2, 3), (2, 4)] 4 = .ok dp ∧
        mainCalls 4 [(1, 2), (2, 3), (2, 4)] 4 = .ok calls ∧
        buildAdj (([(1, 2), (2, 3), (2, 4)] : List (Nat × Nat)).take (4 - 1)) (fun _ => [])
          = .ok (adjOf [(1, 2), (2, 3), (2, 4)]) ∧
        ∀ u, 1 ≤ u → u ≤ 4 →
          calls.count u = 1 ∧
          ∃ p, IsParent [(1, 2), (2, 3), (2, 4)] u p ∧
            (∀ q, IsParent [(1, 2), (2, 3), (2, 4)] u q → q = p) ∧
            (dp u).2 = 1 + (((adjOf [(1, 2), (2, 3), (2, 4)] u).filter
                (fun v => decide (v ≠ p))).map (fun c => (dp c).1)).sum ∧
            (dp u).1 = (((adjOf [(1, 2), (2, 3), (2, 4)] u).filter
                (fun v => decide (v ≠ p))).map (fun c => max (dp c).1 (dp c).2)).sum) :=
  ⟨isTree_small, by decide, by decide,
    table_satisfies_recurrence 4 [(1, 2), (2, 3), (2, 4)] isTree_small (by decide) 4
      (by decide)⟩

theorem roots_length_pos (g : Forest) (h : 1 ≤ (ids g).length) : 1 ≤ (roots g).length := by
  cases g with
  | nil => simp [ids] at h
  | cons v cs sib => simp [roots]

/-- C16, as stated, fails for the star with 200005 nodes: it is a tree on the
nodes `1..200005`, but there is no run in which `dfs(1, 0)` visits the nodes,
because the input loop writes `adj[200005]`, outside the array `adj[MAXN]`. -/
theorem visits_capacity_counterexample :
    IsTree 200005 (starEdges 200004) ∧
      ¬ ∃ fuel calls, mainCalls 200005 (starEdges 200004) fuel = .ok calls := by
  refine ⟨isTree_star 200004, ?_⟩
  rintro ⟨fuel, calls, h⟩
  rw [mainCalls_tree_fault 200005 _ (isTree_star 200004) (by unfold MAXN; omega) fuel] at h
  exact absurd h (by simp)

/-- C16 (amended): for every tree on the nodes `1..n` with `n < MAXN`,
`dfs(1, 0)` terminates (recursion depth `n` is enough) and the list of the
first arguments of all calls of `dfs` holds every node `1..n` exactly once and
nothing else, so there are `n` calls and none revisits a node; the sentinel
parent 0 is not a node and is never visited.  The list of calls is that of a
log that fails exactly when the run of `dfs` fails. -/
theorem dfs_visits_each_node_once (n : Nat) (edges : List (Nat × Nat))
    (h : IsTree n edges) (hn : n < MAXN) (fuel : Nat) (hf : n ≤ fuel) :
    ∃ dp calls, finalDp n edges fuel = .ok dp ∧ mainCalls n edges fuel = .ok calls ∧
      calls.Nodup ∧ (∀ x, x ∈ calls ↔ (1 ≤ x ∧ x ≤ n)) ∧
      (∀ x, 1 ≤ x → x ≤ n → calls.count x = 1) ∧
      calls.length = n ∧ 0 ∉ calls ∧ calls.head? = some 1 ∧
      ∀ fuel2 e, finalDp n edges fuel2 = .error e ↔ mainCalls n edges fuel2 = .error e := by
  obtain ⟨cs, dp, hspan, hdp, _, hcalls, _⟩ := run_tree n edges h hn fuel hf
  have hnd := hspan.2.1
  have hrange : ∀ x, x ∈ ids (Forest.cons 1 cs Forest.nil) ↔ (1 ≤ x ∧ x ≤ n) := by
    intro x; rw [hspan.2.2.1 x, Finset.mem_Icc]
  refine ⟨dp, _, hdp, hcalls, hnd, hrange, ?_, length_ids_of_spans n edges 0 _ hspan, ?_, ?_,
    fun fuel2 e => mainCalls_error n edges fuel2 e⟩
  · intro x hx1 hx2
    exact List.count_eq_one_of_mem hnd ((hrange x).mpr ⟨hx1, hx2⟩)
  · intro h0
    have := (hrange 0).mp h0
    omega
  · simp [ids]

theorem dfs_visits_each_node_once_witness :
    IsTree 4 [(1, 2), (2, 3), (2, 4)] ∧ 4 < MAXN ∧ 4 ≤ 4 ∧
      (∃ dp calls, finalDp 4 [(1, 2), (2, 3), (2, 4)] 4 = .ok dp ∧
        mainCalls 4 [(1, 2), (2, 3), (2, 4)] 4 = .ok calls ∧
        calls.Nodup ∧ (∀ x, x ∈ calls ↔ (1 ≤ x ∧ x ≤ 4)) ∧
        (∀ x, 1 ≤ x → x ≤ 4 → calls.count x = 1) ∧
        calls.length = 4 ∧ 0 ∉ calls ∧ calls.head? = some 1 ∧
        ∀ fuel2 e, finalDp 4 [(1, 2), (2, 3), (2, 4)] fuel2 = .error e ↔
          mainCalls 4 [(1, 2), (2, 3), (2, 4)] fuel2 = .error e) :=
  ⟨isTree_small, by decide, by decide,
    dfs_visits_each_node_once 4 [(1, 2), (2, 3), (2, 4)] isTree_small (by decide) 4
      (by decide)⟩

/-- C19, as stated, fails for the path with 200005 nodes: it is a tree on
`n ≥ 1` nodes, but `main` prints no answer at all, because the input loop
writes `adj[200005]`, outside the array `adj[MAXN]`. -/
theorem bounds_capacity_counterexample :
    IsTree 200005 (pathEdges 200005) ∧
      ¬ ∃ fuel a, main 200005 (pathEdges 200005) fuel = .ok a := by
  have ht := isTree_path 200005 (by omega)
  refine ⟨ht, ?_⟩
  rintro ⟨fuel, a, h⟩
  rw [main_tree_fault 200005 _ ht (by unfold MAXN; omega) fuel] at h
  exact absurd h (by simp)

/-- C19 (amended): for every tree on `n` nodes with `1 ≤ n < MAXN`, the answer
`a` printed by `main` satisfies `⌈n / 2⌉ ≤ a ≤ n`, and `a ≤ n - 1` when
`n ≥ 2`; in the final table every node `u` has `0 ≤ dp[u][0]` and
`1 ≤ dp[u][1] ≤ dp[u][0] + 1`, and both values are at most the number of nodes
of the subtree rooted at `u`, which is at most `n`, so both are below `2 ^ 63`. -/
theorem answer_and_table_bounds (n : Nat) (edges : List (Nat × Nat))
    (h : IsTree n edges) (hn : n < MAXN) (fuel : Nat) (hf : n ≤ fuel) :
    ∃ a dp, main n edges fuel = .ok a ∧ finalDp n edges fuel = .ok dp ∧
      (n + 1) / 2 ≤ a ∧ a ≤ n ∧ (2 ≤ n → a ≤ n - 1) ∧
      ∀ u, 1 ≤ u → u ≤ n →
        0 ≤ (dp u).1 ∧ 1 ≤ (dp u).2 ∧ (dp u).2 ≤ (dp u).1 + 1 ∧
        ∃ D : List Nat, D.Nodup ∧
          (∀ x, x ∈ D ↔ ((1 ≤ x ∧ x ≤ n) ∧ InSubtree edges u x)) ∧
          (dp u).1 ≤ D.length ∧ (dp u).2 ≤ D.length ∧ D.length ≤ n ∧
          (dp u).1 < 2 ^ 63 ∧ (dp u).2 < 2 ^ 63 := by
  obtain ⟨cs, dp, hspan, hdp, hval, _, _⟩ := run_tree n edges h hn fuel hf
  have hnd := hspan.2.1
  have hlen := length_ids_of_spans n edges 0 _ hspan
  have hrange : ∀ x, x ∈ ids (Forest.cons 1 cs Forest.nil) ↔ (1 ≤ x ∧ x ≤ n) := by
    intro x; rw [hspan.2.2.1 x, Finset.mem_Icc]
  have h1mem : 1 ∈ ids (Forest.cons 1 cs Forest.nil) := by simp [ids]
  refine ⟨max (dp 1).1 (dp 1).2, dp, ?_, hdp, ?_⟩
  · rw [main_eq_finalDp, hdp]
  have hv1 : dp 1 = ((sums cs).2, (sums cs).1 + 1) := by
    rw [hval 1 h1mem]; simp [val]
  obtain ⟨a1, b1, c1, d1, e1⟩ := sums_bounds cs
  have hlen1 : (ids cs).length + 1 = n := by
    rw [← hlen]; simp [ids]
  refine ⟨?_, ?_, ?_, ?_⟩
  · rw [hv1]; simp only; omega
  · rw [hv1]; simp only; omega
  · intro h2
    have := roots_length_pos cs (by omega)
    rw [hv1]; simp only; omega
  intro u hu1 hu2
  have hu := (hrange u).mpr ⟨hu1, hu2⟩
  have huD : u ∉ ids (sub (Forest.cons 1 cs Forest.nil) u) := fun hc =>
    (ids_sub_proper _ u u hnd hc).1 rfl
  have hndD : (u :: ids (sub (Forest.cons 1 cs Forest.nil) u)).Nodup :=
    List.nodup_cons.mpr ⟨huD, nodup_ids_sub _ u hnd⟩
  have hsubset : ∀ x, x ∈ u :: ids (sub (Forest.cons 1 cs Forest.nil) u) →
      x ∈ ids (Forest.cons 1 cs Forest.nil) := by
    intro x hx
    rcases List.mem_cons.mp hx with hxu | hx
    · exact hxu ▸ hu
    · exact ids_sub_subset _ u x hx
  have hDn : (u :: ids (sub (Forest.cons 1 cs Forest.nil) u)).length ≤ n := by
    rw [← hlen]
    exact (List.subperm_of_subset hndD hsubset).length_le
  obtain ⟨a2, b2, _, _, _⟩ := sums_bounds (sub (Forest.cons 1 cs Forest.nil) u)
  have hvu := hval u hu
  rw [val_eq_sub _ u hu] at hvu
  have hM : MAXN < 2 ^ 63 := by unfold MAXN; norm_num
  have hl : (u :: ids (sub (Forest.cons 1 cs Forest.nil) u)).length
      = (ids (sub (Forest.cons 1 cs Forest.nil) u)).length + 1 := rfl
  rw [hvu]
  refine ⟨Nat.zero_le _, by simp, by simp only; omega,
    u :: ids (sub (Forest.cons 1 cs Forest.nil) u), hndD, ?_, by simp only; omega,
    by simp only; omega, hDn, by simp only; omega, by simp only; omega⟩
  intro x
  constructor
  · intro hx
    have hxf := hsubset x hx
    exact ⟨(hrange x).mp hxf,
      (inSubtree_iff n edges cs hspan u x hu hxf).mpr (List.mem_cons.mp hx)⟩
  · rintro ⟨hx1, hx2⟩
    exact List.mem_cons.mpr
      ((inSubtree_iff n edges cs hspan u x hu ((hrange x).mpr hx1)).mp hx2)

theorem answer_and_table_bounds_witness :
    IsTree 4 [(1, 2), (2, 3), (2, 4)] ∧ 4 < MAXN ∧ 4 ≤ 4 ∧
      (∃ a dp, main 4 [(1, 2), (2, 3), (2, 4)] 4 = .ok a ∧
        finalDp 4 [(1, 2), (2, 3), (2, 4)] 4 = .ok dp ∧
        (4 + 1) / 2 ≤ a ∧ a ≤ 4 ∧ (2 ≤ 4 → a ≤ 4 - 1) ∧
        ∀ u, 1 ≤ u → u ≤ 4 →
          0 ≤ (dp u).1 ∧ 1 ≤ (dp u).2 ∧ (dp u).2 ≤ (dp u).1 + 1 ∧
          ∃ D : List Nat, D.Nodup ∧
            (∀ x, x ∈ D ↔ ((1 ≤ x ∧ x ≤ 4) ∧ InSubtree [(1, 2), (2, 3), (2, 4)] u x)) ∧
            (dp u).1 ≤ D.length ∧ (dp u).2 ≤ D.length ∧ D.length ≤ 4 ∧
            (dp u).1 < 2 ^ 63 ∧ (dp u).2 < 2 ^ 63) :=
  ⟨isTree_small, by decide, by decide,
    answer_and_table_bounds 4 [(1, 2), (2, 3), (2, 4)] isTree_small (by decide) 4
      (by decide)⟩

theorem normEdge_eq_iff (e : Nat × Nat) (a b : Nat) :
    normEdge e = normEdge (a, b) ↔ (e = (a, b) ∨ e = (b, a)) := by
  obtain ⟨x, y⟩ := e
  simp only [normEdge, Prod.mk.injEq]
  constructor
  · rintro ⟨h1, h2⟩
    omega
  · rintro (⟨h1, h2⟩ | ⟨h1, h2⟩) <;> subst h1 <;> subst h2
    · exact ⟨rfl, rfl⟩
    · exact ⟨Nat.min_comm _ _, Nat.max_comm _ _⟩

theorem adjacent_iff_norm (E : List (Nat × Nat)) (a b : Nat) :
    Adjacent E a b ↔ normEdge (a, b) ∈ E.map normEdge := by
  simp only [List.mem_map, Adjacent]
  constructor
  · rintro (h | h)
    · exact ⟨_, h, rfl⟩
    · exact ⟨_, h, (normEdge_eq_iff _ a b).mpr (Or.inr rfl)⟩
  · rintro ⟨e, he, heq⟩
    rcases (normEdge_eq_iff e a b).mp heq with h | h
    · exact Or.inl (h ▸ he)
    · exact Or.inr (h ▸ he)

/-- Two edge lists that write down the same edges join the same nodes. -/
theorem adjacent_of_sameEdges (E1 E2 : List (Nat × Nat)) (h : SameEdges E1 E2) (a b : Nat) :
    Adjacent E1 a b ↔ Adjacent E2 a b := by
  rw [adjacent_iff_norm, adjacent_iff_norm]
  exact h.mem_iff

theorem isTree_of_sameEdges (n : Nat) (E1 E2 : List (Nat × Nat)) (h : SameEdges E1 E2)
    (ht : IsTree n E1) : IsTree n E2 := by
  obtain ⟨hn, hlen, hend, hconn⟩ := ht
  have hl : E1.length = E2.length := by
    have := h.length_eq
    simpa using this
  refine ⟨hn, by omega, ?_, ?_⟩
  · intro e he
    have hadj : Adjacent E2 e.1 e.2 := Or.inl he
    rcases (adjacent_of_sameEdges E1 E2 h e.1 e.2).mpr hadj with h1 | h1
    · exact hend _ h1
    · have := hend _ h1
      exact ⟨this.2, this.1⟩
  · intro x hx1 hx2
    exact Relation.ReflTransGen.mono
      (fun a b hab => (adjacent_of_sameEdges E1 E2 h a b).mp hab) (hconn x hx1 hx2)

theorem independent_of_sameEdges (E1 E2 : List (Nat × Nat)) (h : SameEdges E1 E2)
    (S : List Nat) : independent E1 S = independent E2 S := by
  have key : ∀ (A B : List (Nat × Nat)), (∀ a b, Adjacent A a b → Adjacent B a b) →
      independent B S = true → independent A S = true := by
    intro A B hAB hB
    rw [independent_iff] at hB ⊢
    intro e he hboth
    rcases hAB e.1 e.2 (Or.inl he) with h1 | h1
    · exact hB _ h1 hboth
    · exact hB _ h1 ⟨hboth.2, hboth.1⟩
  have h12 := key E1 E2 (fun a b => (adjacent_of_sameEdges E1 E2 h a b).mp)
  have h21 := key E2 E1 (fun a b => (adjacent_of_sameEdges E1 E2 h a b).mpr)
  cases h1 : independent E1 S <;> cases h2 : independent E2 S <;> simp_all

theorem bruteForce_of_sameEdges (n : Nat) (E1 E2 : List (Nat × Nat)) (h : SameEdges E1 E2) :
    bruteForceMIS n E1 = bruteForceMIS n E2 := by
  unfold bruteForceMIS
  have : independent E1 = independent E2 := funext (independent_of_sameEdges E1 E2 h)
  rw [this]

/-- On a tree, `main` behaves the same on every edge list that writes down the
same edges. -/
theorem main_of_sameEdges (n : Nat) (E1 E2 : List (Nat × Nat)) (ht : IsTree n E1)
    (h : SameEdges E1 E2) (fuel : Nat) (hf : n ≤ fuel) :
    main n E2 fuel = main n E1 fuel := by
  have ht2 := isTree_of_sameEdges n E1 E2 h ht
  by_cases hn : n < MAXN
  · rw [main_tree n E1 ht hn fuel hf, main_tree n E2 ht2 hn fuel hf,
      bruteForce_of_sameEdges n E1 E2 h]
  · rw [main_tree_fault n E1 ht (by omega) fuel, main_tree_fault n E2 ht2 (by omega) fuel]

theorem sameEdges_of_perm (E1 E2 : List (Nat × Nat)) (h : E1.Perm E2) : SameEdges E1 E2 :=
  h.map normEdge

theorem sameEdges_swap (l1 l2 : List (Nat × Nat)) (a b : Nat) :
    SameEdges (l1 ++ (a, b) :: l2) (l1 ++ (b, a) :: l2) := by
  unfold SameEdges
  have : normEdge (a, b) = normEdge (b, a) := (normEdge_eq_iff _ b a).mpr (Or.inr rfl)
  simp only [List.map_append, List.map_cons, this]
  exact List.Perm.refl _

/-- C18: for every tree on the nodes `1..n`, the outcome of `main` does not
depend on how the tree is written down: it is the same for every edge list
that writes down the same edges, in particular after permuting the order of
the `n - 1` input edges and after swapping the two endpoints of an edge; with
`n < MAXN` the outcome is an answer, the same one for all of them. -/
theorem answer_independent_of_presentation (n : Nat) (edges : List (Nat × Nat))
    (h : IsTree n edges) (fuel : Nat) (hf : n ≤ fuel) :
    (∀ edges2, SameEdges edges edges2 → main n edges2 fuel = main n edges fuel) ∧
    (∀ edges2, edges.Perm edges2 → main n edges2 fuel = main n edges fuel) ∧
    (∀ l1 l2 a b, edges = l1 ++ (a, b) :: l2 →
      main n (l1 ++ (b, a) :: l2) fuel = main n edges fuel) ∧
    (n < MAXN → ∃ a, main n edges fuel = .ok a) := by
  refine ⟨fun E2 hs => main_of_sameEdges n edges E2 h hs fuel hf,
    fun E2 hp => main_of_sameEdges n edges E2 h (sameEdges_of_perm _ _ hp) fuel hf, ?_, ?_⟩
  · intro l1 l2 a b he
    subst he
    exact main_of_sameEdges n _ _ h (sameEdges_swap l1 l2 a b) fuel hf
  · intro hn
    exact ⟨_, main_tree n edges h hn fuel hf⟩

theorem answer_independent_of_presentation_witness :
    IsTree 4 [(1, 2), (2, 3), (2, 4)] ∧ 4 ≤ 4 ∧
      ((∀ edges2, SameEdges [(1, 2), (2, 3), (2, 4)] edges2 →
          main 4 edges2 4 = main 4 [(1, 2), (2, 3), (2, 4)] 4) ∧
        (∀ edges2, ([(1, 2), (2, 3), (2, 4)] : List (Nat × Nat)).Perm edges2 →
          main 4 edges2 4 = main 4 [(1, 2), (2, 3), (2, 4)] 4) ∧
        (∀ l1 l2 a b, [(1, 2), (2, 3), (2, 4)] = l1 ++ (a, b) :: l2 →
          main 4 (l1 ++ (b, a) :: l2) 4 = main 4 [(1, 2), (2, 3), (2, 4)] 4) ∧
        (4 < MAXN → ∃ a, main 4 [(1, 2), (2, 3), (2, 4)] 4 = .ok a)) ∧
      main 4 [(4, 2), (2, 1), (3, 2)] 4 = .ok 3 ∧ main 4 [(1, 2), (2, 3), (2, 4)] 4 = .ok 3 :=
  ⟨isTree_small, by decide,
    answer_independent_of_presentation 4 [(1, 2), (2, 3), (2, 4)] isTree_small 4 (by decide),
    by decide, by decide⟩

/-! ### Runs of `dfs` that return: the call tree -/

theorem fold_extract (adj : Adj) (fuel : Nat)
    (ih : ∀ (u p : Nat) (dp dp1 : Dp), dfs adj fuel u p dp = .ok dp1 →
      ∃ cs, Shape adj p (Forest.cons u cs Forest.nil) ∧
        height (Forest.cons u cs Forest.nil) ≤ fuel ∧
        ∀ x, x ∈ ids (Forest.cons u cs Forest.nil) → x < MAXN)
    (u p : Nat) :
    ∀ (l : List Nat) (dp dp1 : Dp), l.foldlM (visit adj fuel u p) dp = .ok dp1 →
      ∃ g, l.filter (fun v => decide (v ≠ p)) = roots g ∧ Shape adj u g ∧
        height g ≤ fuel ∧ ∀ x, x ∈ ids g → x < MAXN := by
  intro l
  induction l with
  | nil =>
    intro dp dp1 _
    exact ⟨Forest.nil, by simp [roots], trivial, by simp [height], by simp [ids]⟩
  | cons v l ihl =>
    intro dp dp1 h
    rw [List.foldlM_cons] at h
    by_cases hvp : v = p
    · simp only [visit, if_pos hvp, pure_eq_ok, ok_bind] at h
      obtain ⟨g, h1, h2, h3, h4⟩ := ihl dp dp1 h
      refine ⟨g, ?_, h2, h3, h4⟩
      rw [List.filter_cons_of_neg (by simpa using hvp)]
      exact h1
    · cases hd : dfs adj fuel v u dp with
      | error e =>
        simp only [visit, if_neg hvp, hd, error_bind] at h
        exact absurd h (by simp)
      | ok dp2 =>
        simp only [visit, if_neg hvp, hd, pure_eq_ok, ok_bind] at h
        obtain ⟨cs, c1, c2, c3⟩ := ih v u dp dp2 hd
        obtain ⟨g, h1, h2, h3, h4⟩ := ihl _ dp1 h
        refine ⟨Forest.cons v cs g, ?_, ⟨c1.1, c1.2.1, h2⟩, ?_, ?_⟩
        · rw [List.filter_cons_of_pos (by simpa using hvp), h1]
          simp [roots]
        · simp only [height] at c2 ⊢
          omega
        · intro x hx
          simp only [ids, List.mem_cons, List.mem_append] at hx
          rcases hx with hx | hx | hx
          · exact c3 x (by simp [ids, hx])
          · exact c3 x (by simp [ids, hx])
          · exact h4 x hx

/-- A call `dfs(u, p)` that returns has a finite call tree: a forest of the
shape of `adj`, no deeper than the recursion went, all of whose nodes index the
arrays within bounds. -/
theorem dfs_extract (adj : Adj) : ∀ (fuel u p : Nat) (dp dp1 : Dp),
    dfs adj fuel u p dp = .ok dp1 →
    ∃ cs, Shape adj p (Forest.cons u cs Forest.nil) ∧
      height (Forest.cons u cs Forest.nil) ≤ fuel ∧
      ∀ x, x ∈ ids (Forest.cons u cs Forest.nil) → x < MAXN := by
  intro fuel
  induction fuel with
  | zero =>
    intro u p dp dp1 h
    simp [dfs] at h
  | succ fuel ih =>
    intro u p dp dp1 h
    by_cases hu : MAXN ≤ u
    · simp [dfs, hu] at h
    · rw [dfs_succ adj fuel u p dp (by omega)] at h
      obtain ⟨g, h1, h2, h3, h4⟩ := fold_extract adj fuel ih u p (adj u) _ dp1 h
      refine ⟨g, ⟨h1, h2, trivial⟩, ?_, ?_⟩
      · simp only [height]; omega
      · intro x hx
        simp only [ids, List.append_nil, List.mem_cons] at hx
        rcases hx with hx | hx
        · omega
        · exact h4 x hx

/-! ### Counting the occurrences of a node in a call tree -/

/-- Every occurrence of a node in a forest is a root or the child end of one
parent-child pair. -/
theorem ids_perm : ∀ f : Forest, (ids f).Perm (roots f ++ (edges f).map Prod.snd) := by
  intro f
  induction f with
  | nil => simp [ids, roots, edges]
  | cons u cs sib ih1 ih2 =>
    simp only [ids, roots, edges, List.map_append, List.map_map, List.cons_append]
    refine List.Perm.cons u ?_
    have hmap : List.map (Prod.snd ∘ fun c => (u, c)) (roots cs) = roots cs := by
      simp [Function.comp_def]
    rw [hmap]
    have h1 : (ids cs ++ ids sib).Perm
        ((roots cs ++ (edges cs).map Prod.snd) ++ (roots sib ++ (edges sib).map Prod.snd)) :=
      List.Perm.append ih1 ih2
    refine h1.trans ?_
    rw [List.perm_iff_count]
    intro a
    simp only [List.count_append]
    omega

theorem count_map_pair (u a b : Nat) : ∀ l : List Nat,
    List.count (a, b) (l.map (fun c => (u, c))) = if u = a then List.count b l else 0 := by
  intro l
  induction l with
  | nil => simp
  | cons c l ih =>
    simp only [List.map_cons, List.count_cons, ih, beq_iff_eq, Prod.mk.injEq]
    by_cases h1 : u = a <;> by_cases h2 : c = b <;> simp [h1, h2]

/-- In a call tree, an occurrence of `x` has its neighbour `z` either as its
parent or, once, as a child. -/
theorem count_ids_shape (adj : Adj) (x z : Nat) (hz : z ∈ adj x) (hnd : (adj x).Nodup) :
    ∀ (f : Forest) (p : Nat), Shape adj p f →
      List.count x (ids f) = List.count (x, z) (edges f) + List.count (z, x) (edges f)
        + (if p = z then List.count x (roots f) else 0) := by
  intro f
  induction f with
  | nil => intro p _; simp [ids, edges, roots]
  | cons u cs sib ih1 ih2 =>
    intro p hs
    obtain ⟨h1, h2, h3⟩ := hs
    have i1 := ih1 u h2
    have i2 := ih2 p h3
    have hc : u = x → List.count z (roots cs) = if p = z then 0 else 1 := by
      intro hux
      rw [← h1, hux]
      by_cases hzp : p = z
      · rw [if_pos hzp]
        exact List.count_eq_zero_of_not_mem (by simp [hzp])
      · rw [if_neg hzp]
        exact List.count_eq_one_of_mem (hnd.filter _)
          (List.mem_filter.mpr ⟨hz, by simpa using fun e : z = p => hzp e.symm⟩)
    simp only [ids, edges, roots, List.count_cons, List.count_append, count_map_pair,
      beq_iff_eq]
    rw [i1, i2]
    by_cases hux : u = x
    · rw [hc hux]
      split_ifs <;> omega
    · simp only [if_neg hux]
      split_ifs <;> omega

/-- The parent-child pairs of a call tree are pairs of neighbours. -/
theorem shape_edge_adj (adj : Adj) : ∀ (f : Forest) (p a b : Nat), Shape adj p f →
    (a, b) ∈ edges f → b ∈ adj a := by
  intro f
  induction f with
  | nil => intro p a b _ h; simp [edges] at h
  | cons u cs sib ih1 ih2 =>
    intro p a b hs hab
    obtain ⟨h1, h2, h3⟩ := hs
    rcases (mem_edges_cons u cs sib a b).mp hab with ⟨ha, hb⟩ | h | h
    · rw [← h1] at hb
      rw [ha]
      exact (List.mem_filter.mp hb).1
    · exact ih1 u a b h2 h
    · exact ih2 p a b h3 h

/-- In a call tree every neighbour of a node is its parent or one of its
children. -/
theorem shape_adj_edge (adj : Adj) : ∀ (f : Forest) (p a b : Nat), Shape adj p f →
    a ∈ ids f → b ∈ adj a →
    (a, b) ∈ edges f ∨ (b, a) ∈ edges f ∨ (b = p ∧ a ∈ roots f) := by
  intro f
  induction f with
  | nil => intro p a b _ h; simp [ids] at h
  | cons u cs sib ih1 ih2 =>
    intro p a b hs ha hb
    obtain ⟨h1, h2, h3⟩ := hs
    simp only [ids, List.mem_cons, List.mem_append] at ha
    simp only [mem_edges_cons, roots, List.mem_cons]
    rcases ha with ha | ha | ha
    · subst ha
      by_cases hbp : b = p
      · exact Or.inr (Or.inr ⟨hbp, Or.inl rfl⟩)
      · refine Or.inl (Or.inl ⟨rfl, ?_⟩)
        rw [← h1]
        exact List.mem_filter.mpr ⟨hb, by simpa using hbp⟩
    · rcases ih1 u a b h2 ha hb with h | h | ⟨h, hr⟩
      · exact Or.inl (Or.inr (Or.inl h))
      · exact Or.inr (Or.inl (Or.inr (Or.inl h)))
      · exact Or.inr (Or.inl (Or.inl ⟨h, hr⟩))
    · rcases ih2 p a b h3 ha hb with h | h | ⟨h, hr⟩
      · exact Or.inl (Or.inr (Or.inr h))
      · exact Or.inr (Or.inl (Or.inr (Or.inr h)))
      · exact Or.inr (Or.inr ⟨h, Or.inr hr⟩)

theorem count_normEdge (a b : Nat) (hab : a ≠ b) : ∀ l : List (Nat × Nat),
    List.count (normEdge (a, b)) (l.map normEdge) = List.count (a, b) l + List.count (b, a) l := by
  intro l
  induction l with
  | nil => simp
  | cons e l ih =>
    simp only [List.map_cons, List.count_cons, ih, beq_iff_eq]
    have h1 := normEdge_eq_iff e a b
    by_cases he1 : e = (a, b)
    · have he2 : e ≠ (b, a) := by
        rw [he1]; intro h; exact hab (Prod.mk.inj h).1
      rw [if_pos (h1.mpr (Or.inl he1)), if_pos he1, if_neg he2]
      omega
    · by_cases he2 : e = (b, a)
      · rw [if_pos (h1.mpr (Or.inr he2)), if_neg he1, if_pos he2]
        omega
      · have : ¬ normEdge e = normEdge (a, b) := fun h => by
          rcases h1.mp h with h | h
          · exact he1 h
          · exact he2 h
        rw [if_neg this, if_neg he1, if_neg he2]
        omega

theorem count_beq {β : Type} [inst : BEq β] [LawfulBEq β] [DecidableEq β] (y : β) :
    ∀ l : List β, @List.count β inst y l = @List.count β instBEqOfDecidableEq y l := by
  intro l
  induction l with
  | nil => rfl
  | cons x l ih =>
    rw [List.count_cons, @List.count_cons β instBEqOfDecidableEq, ih]
    by_cases h : x = y
    · simp [h]
    · simp [h]

theorem length_of_count_const {β : Type} [inst : BEq β] [LawfulBEq β] [DecidableEq β]
    (l : List β) (k : Nat)
    (h : ∀ y, y ∈ l → @List.count β inst y l = k) : l.length = l.dedup.length * k := by
  rw [← List.sum_map_count_dedup_eq_length l]
  have : l.dedup.map (fun x => @List.count β instBEqOfDecidableEq x l)
      = l.dedup.map (fun _ => k) :=
    List.map_congr_left (fun y hy => by
      rw [← count_beq]; exact h y (List.mem_dedup.mp hy))
  rw [this, List.map_const', List.sum_replicate, smul_eq_mul]

/-- A finite call tree over symmetric neighbour lists without repetition and
without self-loops holds no node twice. -/
theorem nodup_of_shape (adj : Adj) (p0 r : Nat) (cs : Forest)
    (hsym : ∀ a b, b ∈ adj a → a ∈ adj b) (hndp : ∀ a, (adj a).Nodup)
    (hirr : ∀ a, a ∉ adj a) (hp0 : ∀ a, p0 ∉ adj a)
    (hs : Shape adj p0 (Forest.cons r cs Forest.nil)) :
    (ids (Forest.cons r cs Forest.nil)).Nodup := by
  -- the two ends of a parent-child pair occur equally often
  have hedge : ∀ a b, (a, b) ∈ edges (Forest.cons r cs Forest.nil) →
      List.count a (ids (Forest.cons r cs Forest.nil))
        = List.count (a, b) (edges (Forest.cons r cs Forest.nil))
          + List.count (b, a) (edges (Forest.cons r cs Forest.nil)) ∧
      List.count b (ids (Forest.cons r cs Forest.nil))
        = List.count (a, b) (edges (Forest.cons r cs Forest.nil))
          + List.count (b, a) (edges (Forest.cons r cs Forest.nil)) := by
    intro a b hab
    have hb := shape_edge_adj adj _ p0 a b hs hab
    have ha := hsym a b hb
    have h1 := count_ids_shape adj a b hb (hndp a) _ p0 hs
    have h2 := count_ids_shape adj b a ha (hndp b) _ p0 hs
    have hpb : p0 ≠ b := fun e => hp0 a (e ▸ hb)
    have hpa : p0 ≠ a := fun e => hp0 b (e ▸ ha)
    rw [if_neg hpb] at h1
    rw [if_neg hpa] at h2
    constructor <;> omega
  -- so every node occurs as often as the root
  have hconst : ∀ x, x ∈ ids (Forest.cons r cs Forest.nil) →
      List.count x (ids (Forest.cons r cs Forest.nil))
        = List.count r (ids (Forest.cons r cs Forest.nil)) := by
    intro x hx
    obtain ⟨r1, hr1, hpath⟩ := down_path _ x hx
    simp only [roots, List.mem_singleton] at hr1
    subst hr1
    induction hpath with
    | refl => rfl
    | @tail y z _ hyz ih =>
      have hy := (edges_subset_ids _ y z hyz).1
      have := hedge y z hyz
      rw [← ih hy]
      omega
  have hk : 1 ≤ List.count r (ids (Forest.cons r cs Forest.nil)) :=
    List.count_pos_iff.mpr (by simp [ids])
  -- count the nodes and the pairs
  have hN := length_of_count_const (ids (Forest.cons r cs Forest.nil)) _ hconst
  have hE : ∀ y, y ∈ (edges (Forest.cons r cs Forest.nil)).map normEdge →
      List.count y ((edges (Forest.cons r cs Forest.nil)).map normEdge)
        = List.count r (ids (Forest.cons r cs Forest.nil)) := by
    intro y hy
    obtain ⟨e, he, rfl⟩ := List.mem_map.mp hy
    obtain ⟨a, b⟩ := e
    have hb := shape_edge_adj adj _ p0 a b hs he
    have hab : a ≠ b := fun e => hirr a (e ▸ hb)
    rw [count_normEdge a b hab, ← (hedge a b he).1]
    exact hconst a (edges_subset_ids _ a b he).1
  have hM := length_of_count_const ((edges (Forest.cons r cs Forest.nil)).map normEdge) _ hE
  have hlen := (ids_perm (Forest.cons r cs Forest.nil)).length_eq
  simp only [roots, List.length_append, List.length_map, List.length_cons, List.length_nil]
    at hlen hM
  have hone : List.count r (ids (Forest.cons r cs Forest.nil)) = 1 := by
    have h1 : List.count r (ids (Forest.cons r cs Forest.nil)) ∣ 1 := by
      have hd1 : List.count r (ids (Forest.cons r cs Forest.nil))
          ∣ (ids (Forest.cons r cs Forest.nil)).length := hN ▸ Dvd.intro_left _ rfl
      have hd2 : List.count r (ids (Forest.cons r cs Forest.nil))
          ∣ (edges (Forest.cons r cs Forest.nil)).length := hM ▸ Dvd.intro_left _ rfl
      rw [hlen] at hd1
      exact (Nat.dvd_add_iff_left hd2).mpr hd1
    exact Nat.dvd_one.mp h1
  rw [List.nodup_iff_count_le_one]
  intro a
  by_cases ha : a ∈ ids (Forest.cons r cs Forest.nil)
  · rw [hconst a ha, hone]
  · rw [List.count_eq_zero_of_not_mem ha]
    omega

/-- In a simple graph no neighbour list holds a node twice. -/
theorem nodup_adjOf : ∀ (E : List (Nat × Nat)), Simple E → ∀ x, (adjOf E x).Nodup := by
  intro E
  induction E with
  | nil => intro _ x; simp [adjOf]
  | cons e E ih =>
    intro hs x
    obtain ⟨u, v⟩ := e
    obtain ⟨hloop, hnd⟩ := hs
    have huv : u ≠ v := hloop (u, v) (List.mem_cons_self _ _)
    simp only [List.map_cons, List.nodup_cons] at hnd
    have hrest : Simple E := ⟨fun e he => hloop e (List.mem_cons_of_mem _ he), hnd.2⟩
    have hno : ¬ Adjacent E u v := fun h => hnd.1 ((adjacent_iff_norm E u v).mp h)
    have h1 : v ∉ adjOf E u := fun h => hno ((mem_adjOf E u v).mp h)
    have h2 : u ∉ adjOf E v := fun h => hno (Or.symm ((mem_adjOf E v u).mp h))
    simp only [adjOf]
    by_cases hxu : x = u
    · have hxv : x ≠ v := fun e => huv (hxu.symm.trans e)
      rw [if_pos hxu, if_neg hxv, hxu]
      simp only [List.nil_append, List.singleton_append, List.nodup_cons]
      exact ⟨h1, ih hrest u⟩
    · by_cases hxv : x = v
      · rw [if_neg hxu, if_pos hxv, hxv]
        simp only [List.nil_append, List.singleton_append, List.nodup_cons]
        exact ⟨h2, ih hrest v⟩
      · rw [if_neg hxu, if_neg hxv]
        simp only [List.nil_append]
        exact ih hrest x

theorem le_foldr_max : ∀ (l : List Nat) (x : Nat), x ∈ l → x ≤ l.foldr max 0 := by
  intro l
  induction l with
  | nil => intro x hx; simp at hx
  | cons a l ih =>
    intro x hx
    simp only [List.foldr_cons]
    rcases List.mem_cons.mp hx with h | h
    · rw [h]; exact le_max_left _ _
    · exact le_trans (ih x h) (le_max_right _ _)

/-- An independent set of nodes `1..n` is no larger than the brute-force
maximum. -/
theorem le_bruteForce (n : Nat) (E : List (Nat × Nat)) (S : List Nat) (hnd : S.Nodup)
    (hin : ∀ x, x ∈ S → 1 ≤ x ∧ x ≤ n) (hind : independent E S = true) :
    S.length ≤ bruteForceMIS n E := by
  unfold bruteForceMIS
  apply le_foldr_max
  simp only [List.mem_map, List.mem_filter]
  refine ⟨(List.range' 1 n).filter (fun x => decide (x ∈ S)),
    ⟨(mem_subsets _ _).mpr (List.filter_sublist _), ?_⟩, ?_⟩
  · rw [independent_iff] at hind ⊢
    intro e he hboth
    simp only [List.mem_filter, decide_eq_true_eq] at hboth
    exact hind e he ⟨hboth.1.2, hboth.2.2⟩
  · apply List.Perm.length_eq
    rw [List.perm_ext_iff_of_nodup ((List.nodup_range' 1 n).filter _) hnd]
    intro a
    simp only [List.mem_filter, decide_eq_true_eq, List.mem_range'_1]
    constructor
    · exact fun h => h.2
    · intro h
      have := hin a h
      exact ⟨by omega, h⟩

/-! ### Fuel -/

theorem fold_mono (adj : Adj) (fuel : Nat)
    (ih : ∀ (u p : Nat) (dp dp1 : Dp), dfs adj fuel u p dp = .ok dp1 →
      dfs adj (fuel + 1) u p dp = .ok dp1)
    (u p : Nat) :
    ∀ (l : List Nat) (dp dp1 : Dp), l.foldlM (visit adj fuel u p) dp = .ok dp1 →
      l.foldlM (visit adj (fuel + 1) u p) dp = .ok dp1 := by
  intro l
  induction l with
  | nil => intro dp dp1 h; exact h
  | cons v l ihl =>
    intro dp dp1 h
    rw [List.foldlM_cons] at h ⊢
    by_cases hvp : v = p
    · simp only [visit, if_pos hvp, pure_eq_ok, ok_bind] at h ⊢
      exact ihl dp dp1 h
    · cases hd : dfs adj fuel v u dp with
      | error e =>
        simp only [visit, if_neg hvp, hd, error_bind] at h
        exact absurd h (by simp)
      | ok dp2 =>
        simp only [visit, if_neg hvp, hd, pure_eq_ok, ok_bind] at h
        simp only [visit, if_neg hvp, ih v u dp dp2 hd, pure_eq_ok, ok_bind]
        exact ihl _ dp1 h

/-- A call of `dfs` that returns with some recursion depth returns the same
table with one more level. -/
theorem dfs_mono_succ (adj : Adj) : ∀ (fuel u p : Nat) (dp dp1 : Dp),
    dfs adj fuel u p dp = .ok dp1 → dfs adj (fuel + 1) u p dp = .ok dp1 := by
  intro fuel
  induction fuel with
  | zero => intro u p dp dp1 h; simp [dfs] at h
  | succ fuel ih =>
    intro u p dp dp1 h
    by_cases hu : MAXN ≤ u
    · simp [dfs, hu] at h
    · rw [dfs_succ adj fuel u p dp (by omega)] at h
      rw [dfs_succ adj (fuel + 1) u p dp (by omega)]
      exact fold_mono adj fuel ih u p (adj u) _ dp1 h

theorem dfs_mono (adj : Adj) (fuel u p : Nat) (dp dp1 : Dp)
    (h : dfs adj fuel u p dp = .ok dp1) :
    ∀ fuel2, fuel ≤ fuel2 → dfs adj fuel2 u p dp = .ok dp1 := by
  intro fuel2 hle
  induction fuel2 with
  | zero =>
    have : fuel = 0 := by omega
    rw [this] at h; exact h
  | succ k ih =>
    rcases Nat.lt_or_ge fuel (k + 1) with hlt | hge
    · exact dfs_mono_succ adj k u p dp dp1 (ih (by omega))
    · have : fuel = k + 1 := by omega
      rw [this] at h; exact h

theorem fold_no_range (adj : Adj) (fuel : Nat)
    (ih : ∀ (u p : Nat) (dp : Dp), u < MAXN → dfs adj fuel u p dp ≠ .error .outOfRange)
    (u p : Nat) :
    ∀ (l : List Nat) (dp : Dp), (∀ b, b ∈ l → b < MAXN) →
      l.foldlM (visit adj fuel u p) dp ≠ .error .outOfRange := by
  intro l
  induction l with
  | nil => intro dp _ h; simp [List.foldlM, pure_eq_ok] at h
  | cons v l ihl =>
    intro dp hl
    rw [List.foldlM_cons]
    have hl2 : ∀ b, b ∈ l → b < MAXN := fun b hb => hl b (List.mem_cons_of_mem _ hb)
    by_cases hvp : v = p
    · simp only [visit, if_pos hvp, pure_eq_ok, ok_bind]
      exact ihl dp hl2
    · cases hd : dfs adj fuel v u dp with
      | error e =>
        simp only [visit, if_neg hvp, hd, error_bind]
        intro h
        have he : e = Fault.outOfRange := by
          injection h
        exact ih v u dp (hl v (List.mem_cons_self _ _)) (he ▸ hd)
      | ok dp2 =>
        simp only [visit, if_neg hvp, hd, pure_eq_ok, ok_bind]
        exact ihl _ hl2

/-- With all neighbours below `MAXN`, a call of `dfs` at a node below `MAXN`
never indexes an array out of range. -/
theorem dfs_no_range (adj : Adj) (hadj : ∀ a b, b ∈ adj a → b < MAXN) :
    ∀ (fuel u p : Nat) (dp : Dp), u < MAXN → dfs adj fuel u p dp ≠ .error .outOfRange := by
  intro fuel
  induction fuel with
  | zero => intro u p dp _ h; simp [dfs] at h
  | succ fuel ih =>
    intro u p dp hu
    rw [dfs_succ adj fuel u p dp hu]
    exact fold_no_range adj fuel ih u p (adj u) _ (fun b hb => hadj u b hb)

/-- What a run of `main` that returns says about a simple graph: the call tree
of `dfs(1, 0)` is a forest without repetition that does not reach every node
unless the input is a tree, and the answer is its recurrence value. -/
theorem main_simple_run (n : Nat) (E : List (Nat × Nat)) (hlen : E.length = n - 1)
    (hend : ∀ e, e ∈ E → (1 ≤ e.1 ∧ e.1 ≤ n) ∧ (1 ≤ e.2 ∧ e.2 ≤ n))
    (hsimple : Simple E) (fuel a : Nat) (hrun : main n E fuel = .ok a) :
    ∃ cs, Shape (adjOf E) 0 (Forest.cons 1 cs Forest.nil) ∧
      (ids (Forest.cons 1 cs Forest.nil)).Nodup ∧
      a = (sums (Forest.cons 1 cs Forest.nil)).2 ∧
      ∀ fuel2, fuel ≤ fuel2 → main n E fuel2 = .ok a := by
  have hE : ∀ e, e ∈ E → e.1 < MAXN ∧ e.2 < MAXN := by
    by_contra hcon
    push_neg at hcon
    obtain ⟨e, he, hbig⟩ := hcon
    have hf := main_fault n E fuel ⟨e, by rw [List.take_of_length_le (by omega)]; exact he, by
      by_cases h1 : MAXN ≤ e.1
      · exact Or.inl h1
      · exact Or.inr (hbig (by omega))⟩
    rw [hf] at hrun
    exact absurd hrun (by simp)
  have hadj : (fun x => ([] : List Nat) ++ adjOf E x) = adjOf E := by
    funext x; simp
  have hbuild : buildAdj (E.take (n - 1)) (fun _ => []) = .ok (adjOf E) := by
    rw [List.take_of_length_le (by omega), buildAdj_ok E _ hE, hadj]
  have hrun0 := hrun
  unfold main at hrun
  rw [hbuild] at hrun
  simp only at hrun
  cases hd : dfs (adjOf E) fuel 1 0 (fun _ => (0, 0)) with
  | error e =>
    rw [hd] at hrun
    exact absurd hrun (by simp)
  | ok dp =>
    obtain ⟨cs, hs, hh, hlt⟩ := dfs_extract (adjOf E) fuel 1 0 _ dp hd
    have hnd := nodup_of_shape (adjOf E) 0 1 cs
      (fun a b hb => (mem_adjOf E b a).mpr (Or.symm ((mem_adjOf E a b).mp hb)))
      (nodup_adjOf E hsimple)
      (fun a ha => by
        rcases (mem_adjOf E a a).mp ha with h | h
        · exact hsimple.1 _ h rfl
        · exact hsimple.1 _ h rfl)
      (fun a ha => by
        rcases (mem_adjOf E a 0).mp ha with h | h
        · have := (hend _ h).2.1
          simp only at this
          omega
        · have := (hend _ h).1.1
          simp only at this
          omega)
      hs
    have hmain : ∀ fuel2, fuel ≤ fuel2 →
        main n E fuel2 = .ok ((sums (Forest.cons 1 cs Forest.nil)).2) := fun fuel2 hle =>
      main_of_shape n E cs fuel2 (by omega) hE hs hnd hlt (le_trans hh hle)
    have ha : a = (sums (Forest.cons 1 cs Forest.nil)).2 := by
      have h1 := hmain fuel (le_refl _)
      rw [hrun0] at h1
      injection h1
    exact ⟨cs, hs, hnd, ha, fun fuel2 hle => by rw [ha]; exact hmain fuel2 hle⟩

/-- On a simple graph that is not a tree, the answer of a run of `main` that
returns is smaller than the maximum independent set size. -/
theorem main_simple_lt (n : Nat) (E : List (Nat × Nat)) (hn : 1 ≤ n)
    (hlen : E.length = n - 1)
    (hend : ∀ e, e ∈ E → (1 ≤ e.1 ∧ e.1 ≤ n) ∧ (1 ≤ e.2 ∧ e.2 ≤ n))
    (hsimple : Simple E) (hnot : ¬ IsTree n E) (fuel a : Nat)
    (hrun : main n E fuel = .ok a) : a < bruteForceMIS n E := by
  obtain ⟨cs, hs, hnd, ha, _⟩ := main_simple_run n E hlen hend hsimple fuel a hrun
  -- the nodes of the call tree are nodes of the graph
  have hin : ∀ x, x ∈ ids (Forest.cons 1 cs Forest.nil) → 1 ≤ x ∧ x ≤ n := by
    intro x hx
    have hx2 := (ids_perm (Forest.cons 1 cs Forest.nil)).mem_iff.mp hx
    rcases List.mem_append.mp hx2 with h | h
    · simp only [roots, List.mem_singleton] at h
      omega
    · obtain ⟨e, he, rfl⟩ := List.mem_map.mp h
      have hb := shape_edge_adj (adjOf E) _ 0 e.1 e.2 hs he
      rcases (mem_adjOf E e.1 e.2).mp hb with h1 | h1
      · exact (hend _ h1).2
      · exact (hend _ h1).1
  -- some node is not reached
  obtain ⟨x, hx1, hx2, hxF⟩ : ∃ x, 1 ≤ x ∧ x ≤ n ∧ x ∉ ids (Forest.cons 1 cs Forest.nil) := by
    by_contra hcon
    push_neg at hcon
    apply hnot
    refine ⟨hn, hlen, hend, ?_⟩
    intro x hx1 hx2
    obtain ⟨r, hr, hpath⟩ := down_path _ x (hcon x hx1 hx2)
    simp only [roots, List.mem_singleton] at hr
    subst hr
    exact Relation.ReflTransGen.mono
      (fun a b hab => (mem_adjOf E a b).mp (shape_edge_adj (adjOf E) _ 0 a b hs hab)) hpath
  -- an edge at a node of the call tree is an edge of the call tree
  have hedge : ∀ a b, Adjacent E a b → a ∈ ids (Forest.cons 1 cs Forest.nil) →
      (a, b) ∈ edges (Forest.cons 1 cs Forest.nil) ∨
        (b, a) ∈ edges (Forest.cons 1 cs Forest.nil) := by
    intro a b hab ha
    rcases shape_adj_edge (adjOf E) _ 0 a b hs ha ((mem_adjOf E a b).mpr hab) with h | h | ⟨h, _⟩
    · exact Or.inl h
    · exact Or.inr h
    · exfalso
      subst h
      rcases hab with h1 | h1
      · have := (hend _ h1).2.1
        simp only at this
        omega
      · have := (hend _ h1).1.1
        simp only at this
        omega
  obtain ⟨⟨_, hl2⟩, _, hin2, ⟨_, hnd2⟩, _, hind2⟩ := sets_spec _ hnd
  have hxS : x ∉ (sets (Forest.cons 1 cs Forest.nil)).2 := fun h => hxF (hin2 x h)
  have hbound := le_bruteForce n E (x :: (sets (Forest.cons 1 cs Forest.nil)).2)
    (List.nodup_cons.mpr ⟨hxS, hnd2⟩)
    (fun y hy => by
      rcases List.mem_cons.mp hy with h | h
      · rw [h]; exact ⟨hx1, hx2⟩
      · exact hin y (hin2 y h))
    (by
      rw [independent_iff]
      intro e he hboth
      have hadj : Adjacent E e.1 e.2 := Or.inl he
      rcases List.mem_cons.mp hboth.1 with h1 | h1
      · rcases List.mem_cons.mp hboth.2 with h2 | h2
        · exact hsimple.1 e he (h1.trans h2.symm)
        · rcases hedge e.2 e.1 (Or.symm hadj) (hin2 _ h2) with h | h
          · exact hxF (h1 ▸ (edges_subset_ids _ _ _ h).2)
          · exact hxF (h1 ▸ (edges_subset_ids _ _ _ h).1)
      · rcases hedge e.1 e.2 hadj (hin2 _ h1) with h | h
        · rcases List.mem_cons.mp hboth.2 with h2 | h2
          · exact hxF (h2 ▸ (edges_subset_ids _ _ _ h).2)
          · exact hind2 _ _ h ⟨h1, h2⟩
        · rcases List.mem_cons.mp hboth.2 with h2 | h2
          · exact hxF (h2 ▸ (edges_subset_ids _ _ _ h).1)
          · exact hind2 _ _ h ⟨h2, h1⟩)
  simp only [List.length_cons, hl2] at hbound
  omega

/-- With fewer than `MAXN` nodes and all endpoints among them, `main` never
indexes an array out of range. -/
theorem main_no_range (n : Nat) (E : List (Nat × Nat)) (hn : n < MAXN)
    (hlen : E.length = n - 1)
    (hend : ∀ e, e ∈ E → (1 ≤ e.1 ∧ e.1 ≤ n) ∧ (1 ≤ e.2 ∧ e.2 ≤ n)) (fuel : Nat) :
    main n E fuel ≠ .error .outOfRange := by
  have hE : ∀ e, e ∈ E → e.1 < MAXN ∧ e.2 < MAXN := by
    intro e he
    have := hend e he
    omega
  have hadj : (fun x => ([] : List Nat) ++ adjOf E x) = adjOf E := by
    funext x; simp
  have hbuild : buildAdj (E.take (n - 1)) (fun _ => []) = .ok (adjOf E) := by
    rw [List.take_of_length_le (by omega), buildAdj_ok E _ hE, hadj]
  have hno := dfs_no_range (adjOf E) (fun a b hb => by
    rcases (mem_adjOf E a b).mp hb with h | h
    · exact (hE _ h).2
    · exact (hE _ h).1) fuel 1 0 (fun _ => (0, 0)) (by unfold MAXN; omega)
  unfold main
  rw [hbuild]
  simp only
  cases hd : dfs (adjOf E) fuel 1 0 (fun _ => (0, 0)) with
  | error e =>
    simp only
    intro h
    have he : e = Fault.outOfRange := by injection h
    exact hno (he ▸ hd)
  | ok dp => simp

/-- On the triangle 1-2-3 the calls `dfs(2, 1)`, `dfs(3, 2)`, `dfs(1, 3)` call
one another in a circle: none returns, whatever the recursion depth. -/
theorem dfs_cycle_forever : ∀ (fuel : Nat) (dp : Dp),
    dfs (adjOf [(1, 2), (2, 3), (3, 1)]) fuel 2 1 dp = .error .outOfFuel ∧
    dfs (adjOf [(1, 2), (2, 3), (3, 1)]) fuel 3 2 dp = .error .outOfFuel ∧
    dfs (adjOf [(1, 2), (2, 3), (3, 1)]) fuel 1 3 dp = .error .outOfFuel := by
  intro fuel
  induction fuel with
  | zero => intro dp; simp [dfs]
  | succ fuel ih =>
    intro dp
    have a1 : adjOf [(1, 2), (2, 3), (3, 1)] 1 = [2, 3] := by decide
    have a2 : adjOf [(1, 2), (2, 3), (3, 1)] 2 = [1, 3] := by decide
    have a3 : adjOf [(1, 2), (2, 3), (3, 1)] 3 = [2, 1] := by decide
    refine ⟨?_, ?_, ?_⟩
    · rw [dfs_succ _ fuel 2 1 dp (by unfold MAXN; omega), a2]
      simp only [List.foldlM_cons, visit, if_true, pure_eq_ok, ok_bind,
        if_neg (by decide : ¬ (3 = 1)), (ih _).2.1, error_bind]
    · rw [dfs_succ _ fuel 3 2 dp (by unfold MAXN; omega), a3]
      simp only [List.foldlM_cons, visit, if_true, pure_eq_ok, ok_bind,
        if_neg (by decide : ¬ (1 = 2)), (ih _).2.2, error_bind]
    · rw [dfs_succ _ fuel 1 3 dp (by unfold MAXN; omega), a1]
      simp only [List.foldlM_cons, visit, pure_eq_ok, ok_bind,
        if_neg (by decide : ¬ (2 = 3)), (ih _).1, error_bind]

/-- On the triangle 1-2-3 with the node 4 on its own, `main` recurses forever. -/
theorem main_cycle_forever (fuel : Nat) :
    main 4 [(1, 2), (2, 3), (3, 1)] fuel = .error .outOfFuel := by
  have hadj : (fun x => ([] : List Nat) ++ adjOf [(1, 2), (2, 3), (3, 1)] x)
      = adjOf [(1, 2), (2, 3), (3, 1)] := by
    funext x; simp
  have hbuild : buildAdj (([(1, 2), (2, 3), (3, 1)] : List (Nat × Nat)).take (4 - 1))
      (fun _ => []) = .ok (adjOf [(1, 2), (2, 3), (3, 1)]) := by
    rw [List.take_of_length_le (by decide), buildAdj_ok _ _ (by unfold MAXN; decide), hadj]
  unfold main
  rw [hbuild]
  simp only
  cases fuel with
  | zero => simp [dfs]
  | succ fuel =>
    have a1 : adjOf [(1, 2), (2, 3), (3, 1)] 1 = [2, 3] := by decide
    rw [dfs_succ _ fuel 1 0 _ (by unfold MAXN; omega), a1]
    simp only [List.foldlM_cons, visit, pure_eq_ok, ok_bind,
      if_neg (by decide : ¬ (2 = 0)), (dfs_cycle_forever fuel _).1, error_bind]

theorem main_mono (n : Nat) (E : List (Nat × Nat)) (fuel a : Nat)
    (h : main n E fuel = .ok a) : ∀ fuel2, fuel ≤ fuel2 → main n E fuel2 = .ok a := by
  intro fuel2 hle
  unfold main at h ⊢
  cases hb : buildAdj (E.take (n - 1)) (fun _ => []) with
  | error e => rw [hb] at h; exact absurd h (by simp)
  | ok adj =>
    rw [hb] at h
    simp only at h ⊢
    cases hd : dfs adj fuel 1 0 (fun _ => (0, 0)) with
    | error e => rw [hd] at h; exact absurd h (by simp)
    | ok dp =>
      rw [hd] at h
      rw [dfs_mono adj fuel 1 0 _ dp hd fuel2 hle]
      exact h

/-- The input with the edge 1-2 listed twice and the node 3 on its own is not a
tree. -/
theorem not_isTree_repeated : ¬ IsTree 3 [(1, 2), (1, 2)] := by
  intro h
  have hreach := h.2.2.2 3 (by omega) (by omega)
  have key : ∀ x, Relation.ReflTransGen (Adjacent [(1, 2), (1, 2)]) 1 x → x = 1 ∨ x = 2 := by
    intro x hx
    induction hx with
    | refl => exact Or.inl rfl
    | @tail y z _ hyz ih =>
      simp only [Adjacent, List.mem_cons, Prod.mk.injEq, List.mem_nil_iff, or_false,
        or_self] at hyz
      omega
  have := key 3 hreach
  omega

/-- The input with the triangle 2-3-4 and the node 1 on its own is not a tree. -/
theorem not_isTree_triangle : ¬ IsTree 4 [(2, 3), (3, 4), (4, 2)] := by
  intro h
  have hreach := h.2.2.2 2 (by omega) (by omega)
  have key : ∀ x, Relation.ReflTransGen (Adjacent [(2, 3), (3, 4), (4, 2)]) 1 x → x = 1 := by
    intro x hx
    induction hx with
    | refl => rfl
    | @tail y z _ hyz ih =>
      simp only [Adjacent, List.mem_cons, Prod.mk.injEq, List.mem_nil_iff, or_false] at hyz
      omega
  have := key 2 hreach
  omega

/-- C11, as stated, fails for `n = 3` with the pairs `1 2`, `1 2`: the edge is
repeated and node 3 is not connected, so the input does not form a tree, yet
`main` returns (recursion depth 2 is enough) and the value it returns, for any
depth, is the maximum independent set size of the input graph, 2. -/
theorem repeated_edge_counterexample :
    1 ≤ 3 ∧ ([(1, 2), (1, 2)] : List (Nat × Nat)).length = 3 - 1 ∧
      (∀ e, e ∈ ([(1, 2), (1, 2)] : List (Nat × Nat)) →
        (1 ≤ e.1 ∧ e.1 ≤ 3) ∧ (1 ≤ e.2 ∧ e.2 ≤ 3)) ∧
      ¬ IsTree 3 [(1, 2), (1, 2)] ∧
      bruteForceMIS 3 [(1, 2), (1, 2)] = 2 ∧
      main 3 [(1, 2), (1, 2)] 2 = .ok (bruteForceMIS 3 [(1, 2), (1, 2)]) ∧
      (∀ fuel a, main 3 [(1, 2), (1, 2)] fuel = .ok a →
        a = bruteForceMIS 3 [(1, 2), (1, 2)]) := by
  have h2 : main 3 [(1, 2), (1, 2)] 2 = .ok (bruteForceMIS 3 [(1, 2), (1, 2)]) := by decide
  refine ⟨by decide, by decide, by decide, not_isTree_repeated, by decide, h2, ?_⟩
  intro fuel a h
  rcases Nat.lt_or_ge fuel 2 with hlt | hge
  · have e0 : main 3 [(1, 2), (1, 2)] 0 = .error .outOfFuel := by decide
    have e1 : main 3 [(1, 2), (1, 2)] 1 = .error .outOfFuel := by decide
    interval_cases fuel
    · rw [e0] at h; exact absurd h (by simp)
    · rw [e1] at h; exact absurd h (by simp)
  · have := main_mono 3 _ 2 _ h2 fuel hge
    rw [this] at h
    injection h with h
    exact h.symm

/-- C11 (amended): for every input with `n ≥ 1` and `n - 1` endpoint pairs with
endpoints in `1..n`, without self-loop and without repeated edge, that does
not form a tree: whenever `main` returns a value, it returns the same value
with any deeper recursion, and the value is smaller than the maximum
independent set size of the input graph; and with `n < MAXN` either `main`
recurses forever (it runs out of every recursion depth) or it returns, from
some depth on, a value different from the maximum independent set size.  Both
happen: on the triangle 1-2-3 with node 4 on its own `main` recurses forever,
and on the triangle 2-3-4 with node 1 on its own it returns 1, where the
maximum is 2. -/
theorem nontree_simple_never_correct (n : Nat) (edges : List (Nat × Nat)) (hn : 1 ≤ n)
    (hlen : edges.length = n - 1)
    (hend : ∀ e, e ∈ edges → (1 ≤ e.1 ∧ e.1 ≤ n) ∧ (1 ≤ e.2 ∧ e.2 ≤ n))
    (hsimple : Simple edges) (hnot : ¬ IsTree n edges) :
    (∀ fuel a, main n edges fuel = .ok a →
      a < bruteForceMIS n edges ∧ ∀ fuel2, fuel ≤ fuel2 → main n edges fuel2 = .ok a) ∧
    (n < MAXN →
      (∀ fuel, main n edges fuel = .error .outOfFuel) ∨
      ∃ fuel0 a, a ≠ bruteForceMIS n edges ∧
        ∀ fuel, fuel0 ≤ fuel → main n edges fuel = .ok a) ∧
    (∀ fuel, main 4 [(1, 2), (2, 3), (3, 1)] fuel = .error .outOfFuel) ∧
    main 4 [(2, 3), (3, 4), (4, 2)] 1 = .ok 1 ∧
    bruteForceMIS 4 [(2, 3), (3, 4), (4, 2)] = 2 := by
  have h1 : ∀ fuel a, main n edges fuel = .ok a →
      a < bruteForceMIS n edges ∧ ∀ fuel2, fuel ≤ fuel2 → main n edges fuel2 = .ok a :=
    fun fuel a h => ⟨main_simple_lt n edges hn hlen hend hsimple hnot fuel a h,
      main_mono n edges fuel a h⟩
  refine ⟨h1, ?_, main_cycle_forever, by decide, by decide⟩
  intro hN
  by_cases hex : ∃ fuel a, main n edges fuel = .ok a
  · obtain ⟨fuel, a, h⟩ := hex
    exact Or.inr ⟨fuel, a, Nat.ne_of_lt (h1 fuel a h).1, (h1 fuel a h).2⟩
  · left
    intro fuel
    have hno := main_no_range n edges hN hlen hend fuel
    cases hm : main n edges fuel with
    | ok a => exact absurd ⟨fuel, a, hm⟩ hex
    | error e =>
      cases e with
      | outOfRange => exact absurd hm hno
      | outOfFuel => rfl

theorem nontree_simple_never_correct_witness :
    1 ≤ 4 ∧ ([(2, 3), (3, 4), (4, 2)] : List (Nat × Nat)).length = 4 - 1 ∧
      (∀ e, e ∈ ([(2, 3), (3, 4), (4, 2)] : List (Nat × Nat)) →
        (1 ≤ e.1 ∧ e.1 ≤ 4) ∧ (1 ≤ e.2 ∧ e.2 ≤ 4)) ∧
      Simple [(2, 3), (3, 4), (4, 2)] ∧ ¬ IsTree 4 [(2, 3), (3, 4), (4, 2)] ∧
      ((∀ fuel a, main 4 [(2, 3), (3, 4), (4, 2)] fuel = .ok a →
          a < bruteForceMIS 4 [(2, 3), (3, 4), (4, 2)] ∧
            ∀ fuel2, fuel ≤ fuel2 → main 4 [(2, 3), (3, 4), (4, 2)] fuel2 = .ok a) ∧
        (4 < MAXN →
          (∀ fuel, main 4 [(2, 3), (3, 4), (4, 2)] fuel = .error .outOfFuel) ∨
          ∃ fuel0 a, a ≠ bruteForceMIS 4 [(2, 3), (3, 4), (4, 2)] ∧
            ∀ fuel, fuel0 ≤ fuel → main 4 [(2, 3), (3, 4), (4, 2)] fuel = .ok a) ∧
        (∀ fuel, main 4 [(1, 2), (2, 3), (3, 1)] fuel = .error .outOfFuel) ∧
        main 4 [(2, 3), (3, 4), (4, 2)] 1 = .ok 1 ∧
        bruteForceMIS 4 [(2, 3), (3, 4), (4, 2)] = 2) :=
  ⟨by decide, by decide, by decide, ⟨by decide, by decide⟩, not_isTree_triangle,
    nontree_simple_never_correct 4 [(2, 3), (3, 4), (4, 2)] (by decide) (by decide)
      (by decide) ⟨by decide, by decide⟩ not_isTree_triangle⟩

end MIS
